import Mathlib

/-!
Verification of the Picnic2 core (dense GF(2) linear algebra kernel and the
MPC-in-the-head signer/verifier plumbing) against its natural-language
specification.  The C sources are shallowly embedded: 64-bit machine words
become Nat with explicit masking where overflow matters, memory rows become
functions from indices to words, and the SIMD vector registers become tuples
of words on which the intrinsic operations act lane-wise.
-/

set_option maxRecDepth 4000

namespace Picnic

/-- Machine words are 64-bit unsigned integers, embedded as Nat. -/
abbrev word := Nat

/-- The arithmetic negation of a 64-bit value: minus x modulo 2 to the 64.
For x in {0, 1} this is the all-zeros or all-ones mask used by the kernels. -/
def neg64 (x : word) : word := (2 ^ 64 - x) % 2 ^ 64

/-- One row-selection mask of the scalar kernel: the source computes
minus of (idx and 1) as a uint64. -/
def bitMask (idx : word) : word := neg64 (idx &&& 1)

/-- Embedding of mm128_compute_mask and mm256_compute_mask from
mzd_additional.c: arithmetic negation of bit number bit of idx, broadcast to
every 64-bit lane (so a single word in the lane-wise model). -/
def mm128_compute_mask (idx : word) (bit : Nat) : word := neg64 ((idx >>> bit) &&& 1)

/-- Embedding of mm256_compute_mask_2: the first component masks the two low
64-bit lanes, the second the two high lanes. -/
def mm256_compute_mask_2 (idx : word) (bit : Nat) : word × word :=
  (neg64 ((idx >>> bit) &&& 1), neg64 ((idx >>> (bit + 1)) &&& 1))

/-- A 128-bit SSE or NEON register: two 64-bit lanes. -/
structure w128 where
  w0 : word
  w1 : word
deriving DecidableEq, Repr

/-- A 256-bit AVX register (also used for a pair of adjacent 128-bit
registers addressed as one region): four 64-bit lanes. -/
structure w256 where
  w0 : word
  w1 : word
  w2 : word
  w3 : word
deriving DecidableEq, Repr

/-- Lane-wise xor of two 128-bit registers (mm_xor_si128 / veorq_u64). -/
def w128.xor (a b : w128) : w128 := ⟨a.w0 ^^^ b.w0, a.w1 ^^^ b.w1⟩

/-- Lane-wise xor of two 256-bit registers (mm256_xor_si256). -/
def w256.xor (a b : w256) : w256 :=
  ⟨a.w0 ^^^ b.w0, a.w1 ^^^ b.w1, a.w2 ^^^ b.w2, a.w3 ^^^ b.w3⟩

/-- Embedding of mm128_xor_mask: c xor (a and mask), with the mask broadcast
to both lanes. -/
def mm128_xor_mask (c a : w128) (m : word) : w128 :=
  ⟨c.w0 ^^^ (a.w0 &&& m), c.w1 ^^^ (a.w1 &&& m)⟩

/-- Embedding of mm256_xor_mask with a mask broadcast to all four lanes, and
of mm128_xor_mask_region over a region of two adjacent 128-bit registers. -/
def mm256_xor_mask (c a : w256) (m : word) : w256 :=
  ⟨c.w0 ^^^ (a.w0 &&& m), c.w1 ^^^ (a.w1 &&& m),
   c.w2 ^^^ (a.w2 &&& m), c.w3 ^^^ (a.w3 &&& m)⟩

/-- Embedding of mm256_xor_mask with an mm256_compute_mask_2 mask: the low
two lanes use the first mask, the high two lanes the second. -/
def mm256_xor_mask2 (c a : w256) (m : word × word) : w256 :=
  ⟨c.w0 ^^^ (a.w0 &&& m.1), c.w1 ^^^ (a.w1 &&& m.1),
   c.w2 ^^^ (a.w2 &&& m.2), c.w3 ^^^ (a.w3 &&& m.2)⟩

/-- Reading one matrix row of a 128-column matrix (rowstride two words) as a
128-bit register. -/
def row128 (A : Nat → Nat → word) (i : Nat) : w128 := ⟨A i 0, A i 1⟩

/-- Reading one matrix row of a 192- or 256-column matrix (rowstride four
words) as a 256-bit region. -/
def row256 (A : Nat → Nat → word) (i : Nat) : w256 := ⟨A i 0, A i 1, A i 2, A i 3⟩

/-- One 256-bit load from a 128-column matrix: register number k covers the
two adjacent rows 2k and 2k+1. -/
def row256pair (A : Nat → Nat → word) (k : Nat) : w256 :=
  ⟨A (2 * k) 0, A (2 * k) 1, A (2 * k + 1) 0, A (2 * k + 1) 1⟩

/-! ### Scalar kernel: mzd_addmul_v_uint64 and mzd_mul_v_uint64

The accumulator c, the vector v and the matrix A live in memory; we model
the row of c and the row of v as functions from word index to word, and A as
a function from (row index, word index) to word.  The row pointer of A
advances by one row per processed bit of v, across the outer word loop. -/

/-- The inner bit loop of mzd_addmul_v_uint64: n remaining bits of the
current vector word idx, reading rows of A starting at row base, xoring the
masked row words into the first len words of c. -/
def addmulUintLoop (A : Nat → Nat → word) (len : Nat) :
    Nat → (Nat → word) → Nat → word → (Nat → word)
  | 0, c, _, _ => c
  | n + 1, c, base, idx =>
      addmulUintLoop A len n
        (fun j => if j < len then c j ^^^ (A base j &&& bitMask idx) else c j)
        (base + 1) (idx >>> 1)

/-- The outer word loop of mzd_addmul_v_uint64: w remaining vector words,
current word index k; each word contributes 64 bits, the row pointer of A
continuing where the previous word left off. -/
def addmulUintWords (A : Nat → Nat → word) (len : Nat) (v : Nat → word) :
    Nat → Nat → (Nat → word) → (Nat → word)
  | 0, _, c => c
  | w + 1, k, c => addmulUintWords A len v w (k + 1) (addmulUintLoop A len 64 c (64 * k) (v k))

/-- Embedding of mzd_addmul_v_uint64 from mzd_additional.c.  width is the
word width of v (so A has 64 times width rows) and len is the word width of
the rows of A (and of c). -/
def mzd_addmul_v_uint64 (c v : Nat → word) (A : Nat → Nat → word)
    (width len : Nat) : Nat → word :=
  addmulUintWords A len v width 0 c

/-- Embedding of mzd_local_clear applied to a one-row matrix. -/
def mzd_local_clear : Nat → word := fun _ => 0

/-- Embedding of mzd_mul_v_uint64: clear the accumulator, then add-multiply. -/
def mzd_mul_v_uint64 (c v : Nat → word) (A : Nat → Nat → word)
    (width len : Nat) : Nat → word :=
  mzd_addmul_v_uint64 mzd_local_clear v A width len

/-! ### Canonical bit-selection sums

wsum idx r n is the xor, over the first n bit positions i of idx, of
r i masked by the all-ones/all-zeros mask of bit i; peeled from the low end,
which is the direction all the kernels traverse. -/

/-- Masked xor-accumulation of n rows selected by the low n bits of idx. -/
def wsum (idx : word) (r : Nat → word) : Nat → word
  | 0 => 0
  | n + 1 => (r 0 &&& bitMask idx) ^^^ wsum (idx >>> 1) (fun i => r (i + 1)) n

/-- Word-level canonical value of the vector-matrix product: the xor over
the first w vector words of the 64-row selection sums, at output word j;
peeled from the low word, which is the traversal order of the kernels. -/
def selPart (v : Nat → word) (A : Nat → Nat → word) (j : Nat) : Nat → word
  | 0 => 0
  | w + 1 =>
      wsum (v 0) (fun i => A i j) 64 ^^^
        selPart (fun k => v (k + 1)) (fun i => A (64 + i)) j w

/-- The GF(2) row-selection product written the way the specification reads:
xor together exactly those rows of A whose selecting bit of v is set, bit i
of v taken LSB-first across words and within a word. -/
def gf2SelectSum (v : Nat → word) (A : Nat → Nat → word) (j : Nat) : Nat → word
  | 0 => 0
  | i + 1 =>
      gf2SelectSum v A j i ^^^
        (if (v (i / 64)).testBit (i % 64) then A i j else 0)

/-- Conditional xor-accumulation over the tested bits of a single word,
peeled from the top. -/
def ifSum (idx : word) (r : Nat → word) : Nat → word
  | 0 => 0
  | n + 1 => ifSum idx r n ^^^ (if idx.testBit n then r n else 0)

/-- Lane projection of a 128-bit register: lane 0 is the low word. -/
def w128.lane (x : w128) (l : Nat) : word := if l = 0 then x.w0 else x.w1

/-- Lane projection of a 256-bit register. -/
def w256.lane (x : w256) (l : Nat) : word :=
  if l = 0 then x.w0 else if l = 1 then x.w1 else if l = 2 then x.w2 else x.w3

/-- Storing a 128-bit register into the first two words of a row. -/
def store2 (c : Nat → word) (r : w128) : Nat → word :=
  fun j => if j = 0 then r.w0 else if j = 1 then r.w1 else c j

/-- Storing a 256-bit register into the first four words of a row. -/
def store4 (c : Nat → word) (r : w256) : Nat → word :=
  fun j => if j = 0 then r.w0 else if j = 1 then r.w1 else
    if j = 2 then r.w2 else if j = 3 then r.w3 else c j

/-- Loading the first two words of a row as a 128-bit register. -/
def ld128 (c : Nat → word) : w128 := ⟨c 0, c 1⟩

/-- Loading the first four words of a row as a 256-bit register. -/
def ld256 (c : Nat → word) : w256 := ⟨c 0, c 1, c 2, c 3⟩

/-- Embedding of mm256_compute_mask (same lane-uniform mask as the 128-bit
form). -/
def mm256_compute_mask (idx : word) (bit : Nat) : word := neg64 ((idx >>> bit) &&& 1)

/-! ### Width-specialized SIMD kernels from mzd_additional.c

Each inner loop is the body of the corresponding C loop; n counts remaining
iterations, base is the current row position of the matrix pointer, idx the
current (shifted) vector word.  The NEON kernels are token-identical to the
SSE ones up to intrinsic names with the same lane-wise semantics, so they
share the loop embeddings. -/

/-- Loop body of mzd_mul_v_sse_128 / mzd_addmul_v_sse_128 (and the NEON
128-bit variants): four rows per iteration, rows with even offset go to the
first accumulator, odd offset to the second. -/
def sse128Loop (A : Nat → Nat → word) : Nat → Nat → word → w128 → w128 → w128 × w128
  | 0, _, _, cv0, cv1 => (cv0, cv1)
  | n + 1, base, idx, cv0, cv1 =>
      sse128Loop A n (base + 4) (idx >>> 4)
        (mm128_xor_mask (mm128_xor_mask cv0 (row128 A base) (mm128_compute_mask idx 0))
          (row128 A (base + 2)) (mm128_compute_mask idx 2))
        (mm128_xor_mask (mm128_xor_mask cv1 (row128 A (base + 1)) (mm128_compute_mask idx 1))
          (row128 A (base + 3)) (mm128_compute_mask idx 3))

/-- Embedding of mzd_mul_v_sse_128. -/
def mzd_mul_v_sse_128 (c v : Nat → word) (A : Nat → Nat → word) : Nat → word :=
  let p1 := sse128Loop A 16 0 (v 0) ⟨0, 0⟩ ⟨0, 0⟩
  let p2 := sse128Loop A 16 64 (v 1) p1.1 p1.2
  store2 c (w128.xor p2.1 p2.2)

/-- Embedding of mzd_addmul_v_sse_128: the first accumulator starts from the
current value of c. -/
def mzd_addmul_v_sse_128 (c v : Nat → word) (A : Nat → Nat → word) : Nat → word :=
  let p1 := sse128Loop A 16 0 (v 0) (ld128 c) ⟨0, 0⟩
  let p2 := sse128Loop A 16 64 (v 1) p1.1 p1.2
  store2 c (w128.xor p2.1 p2.2)

/-- Embedding of mzd_mul_v_neon_128, whose body matches the SSE variant
lane for lane. -/
def mzd_mul_v_neon_128 (c v : Nat → word) (A : Nat → Nat → word) : Nat → word :=
  let p1 := sse128Loop A 16 0 (v 0) ⟨0, 0⟩ ⟨0, 0⟩
  let p2 := sse128Loop A 16 64 (v 1) p1.1 p1.2
  store2 c (w128.xor p2.1 p2.2)

/-- Embedding of mzd_addmul_v_neon_128. -/
def mzd_addmul_v_neon_128 (c v : Nat → word) (A : Nat → Nat → word) : Nat → word :=
  let p1 := sse128Loop A 16 0 (v 0) (ld128 c) ⟨0, 0⟩
  let p2 := sse128Loop A 16 64 (v 1) p1.1 p1.2
  store2 c (w128.xor p2.1 p2.2)

/-- Loop body of the SSE and NEON 192- and 256-bit multiply kernels: two
rows per iteration, each row read as a two-register region of four words. -/
def sse192Loop (A : Nat → Nat → word) : Nat → Nat → word → w256 → w256 → w256 × w256
  | 0, _, _, cv01, cv23 => (cv01, cv23)
  | n + 1, base, idx, cv01, cv23 =>
      sse192Loop A n (base + 2) (idx >>> 2)
        (mm256_xor_mask cv01 (row256 A base) (mm128_compute_mask idx 0))
        (mm256_xor_mask cv23 (row256 A (base + 1)) (mm128_compute_mask idx 1))

/-- Embedding of mzd_mul_v_sse_192. -/
def mzd_mul_v_sse_192 (c v : Nat → word) (A : Nat → Nat → word) : Nat → word :=
  let p1 := sse192Loop A 32 0 (v 0) ⟨0, 0, 0, 0⟩ ⟨0, 0, 0, 0⟩
  let p2 := sse192Loop A 32 64 (v 1) p1.1 p1.2
  let p3 := sse192Loop A 32 128 (v 2) p2.1 p2.2
  store4 c (w256.xor p3.1 p3.2)

/-- Embedding of mzd_addmul_v_sse_192. -/
def mzd_addmul_v_sse_192 (c v : Nat → word) (A : Nat → Nat → word) : Nat → word :=
  let p1 := sse192Loop A 32 0 (v 0) (ld256 c) ⟨0, 0, 0, 0⟩
  let p2 := sse192Loop A 32 64 (v 1) p1.1 p1.2
  let p3 := sse192Loop A 32 128 (v 2) p2.1 p2.2
  store4 c (w256.xor p3.1 p3.2)

/-- Embedding of mzd_mul_v_sse_256. -/
def mzd_mul_v_sse_256 (c v : Nat → word) (A : Nat → Nat → word) : Nat → word :=
  let p1 := sse192Loop A 32 0 (v 0) ⟨0, 0, 0, 0⟩ ⟨0, 0, 0, 0⟩
  let p2 := sse192Loop A 32 64 (v 1) p1.1 p1.2
  let p3 := sse192Loop A 32 128 (v 2) p2.1 p2.2
  let p4 := sse192Loop A 32 192 (v 3) p3.1 p3.2
  store4 c (w256.xor p4.1 p4.2)

/-- Embedding of mzd_addmul_v_sse_256. -/
def mzd_addmul_v_sse_256 (c v : Nat → word) (A : Nat → Nat → word) : Nat → word :=
  let p1 := sse192Loop A 32 0 (v 0) (ld256 c) ⟨0, 0, 0, 0⟩
  let p2 := sse192Loop A 32 64 (v 1) p1.1 p1.2
  let p3 := sse192Loop A 32 128 (v 2) p2.1 p2.2
  let p4 := sse192Loop A 32 192 (v 3) p3.1 p3.2
  store4 c (w256.xor p4.1 p4.2)

/-- Embedding of mzd_mul_v_neon_192. -/
def mzd_mul_v_neon_192 (c v : Nat → word) (A : Nat → Nat → word) : Nat → word :=
  let p1 := sse192Loop A 32 0 (v 0) ⟨0, 0, 0, 0⟩ ⟨0, 0, 0, 0⟩
  let p2 := sse192Loop A 32 64 (v 1) p1.1 p1.2
  let p3 := sse192Loop A 32 128 (v 2) p2.1 p2.2
  store4 c (w256.xor p3.1 p3.2)

/-- Embedding of mzd_addmul_v_neon_192. -/
def mzd_addmul_v_neon_192 (c v : Nat → word) (A : Nat → Nat → word) : Nat → word :=
  let p1 := sse192Loop A 32 0 (v 0) (ld256 c) ⟨0, 0, 0, 0⟩
  let p2 := sse192Loop A 32 64 (v 1) p1.1 p1.2
  let p3 := sse192Loop A 32 128 (v 2) p2.1 p2.2
  store4 c (w256.xor p3.1 p3.2)

/-- Embedding of mzd_mul_v_neon_256. -/
def mzd_mul_v_neon_256 (c v : Nat → word) (A : Nat → Nat → word) : Nat → word :=
  let p1 := sse192Loop A 32 0 (v 0) ⟨0, 0, 0, 0⟩ ⟨0, 0, 0, 0⟩
  let p2 := sse192Loop A 32 64 (v 1) p1.1 p1.2
  let p3 := sse192Loop A 32 128 (v 2) p2.1 p2.2
  let p4 := sse192Loop A 32 192 (v 3) p3.1 p3.2
  store4 c (w256.xor p4.1 p4.2)

/-- Embedding of mzd_addmul_v_neon_256. -/
def mzd_addmul_v_neon_256 (c v : Nat → word) (A : Nat → Nat → word) : Nat → word :=
  let p1 := sse192Loop A 32 0 (v 0) (ld256 c) ⟨0, 0, 0, 0⟩
  let p2 := sse192Loop A 32 64 (v 1) p1.1 p1.2
  let p3 := sse192Loop A 32 128 (v 2) p2.1 p2.2
  let p4 := sse192Loop A 32 192 (v 3) p3.1 p3.2
  store4 c (w256.xor p4.1 p4.2)

/-- Loop body of mzd_mul_v_avx_192 / mzd_mul_v_avx_256 (and addmul forms):
four rows per iteration, one 256-bit register per row. -/
def avx192Loop (A : Nat → Nat → word) : Nat → Nat → word → w256 → w256 → w256 × w256
  | 0, _, _, cv0, cv1 => (cv0, cv1)
  | n + 1, base, idx, cv0, cv1 =>
      avx192Loop A n (base + 4) (idx >>> 4)
        (mm256_xor_mask (mm256_xor_mask cv0 (row256 A base) (mm256_compute_mask idx 0))
          (row256 A (base + 2)) (mm256_compute_mask idx 2))
        (mm256_xor_mask (mm256_xor_mask cv1 (row256 A (base + 1)) (mm256_compute_mask idx 1))
          (row256 A (base + 3)) (mm256_compute_mask idx 3))

/-- Embedding of mzd_mul_v_avx_192. -/
def mzd_mul_v_avx_192 (c v : Nat → word) (A : Nat → Nat → word) : Nat → word :=
  let p1 := avx192Loop A 16 0 (v 0) ⟨0, 0, 0, 0⟩ ⟨0, 0, 0, 0⟩
  let p2 := avx192Loop A 16 64 (v 1) p1.1 p1.2
  let p3 := avx192Loop A 16 128 (v 2) p2.1 p2.2
  store4 c (w256.xor p3.1 p3.2)

/-- Embedding of mzd_addmul_v_avx_192. -/
def mzd_addmul_v_avx_192 (c v : Nat → word) (A : Nat → Nat → word) : Nat → word :=
  let p1 := avx192Loop A 16 0 (v 0) (ld256 c) ⟨0, 0, 0, 0⟩
  let p2 := avx192Loop A 16 64 (v 1) p1.1 p1.2
  let p3 := avx192Loop A 16 128 (v 2) p2.1 p2.2
  store4 c (w256.xor p3.1 p3.2)

/-- Embedding of mzd_mul_v_avx_256. -/
def mzd_mul_v_avx_256 (c v : Nat → word) (A : Nat → Nat → word) : Nat → word :=
  let p1 := avx192Loop A 16 0 (v 0) ⟨0, 0, 0, 0⟩ ⟨0, 0, 0, 0⟩
  let p2 := avx192Loop A 16 64 (v 1) p1.1 p1.2
  let p3 := avx192Loop A 16 128 (v 2) p2.1 p2.2
  let p4 := avx192Loop A 16 192 (v 3) p3.1 p3.2
  store4 c (w256.xor p4.1 p4.2)

/-- Embedding of mzd_addmul_v_avx_256. -/
def mzd_addmul_v_avx_256 (c v : Nat → word) (A : Nat → Nat → word) : Nat → word :=
  let p1 := avx192Loop A 16 0 (v 0) (ld256 c) ⟨0, 0, 0, 0⟩
  let p2 := avx192Loop A 16 64 (v 1) p1.1 p1.2
  let p3 := avx192Loop A 16 128 (v 2) p2.1 p2.2
  let p4 := avx192Loop A 16 192 (v 3) p3.1 p3.2
  store4 c (w256.xor p4.1 p4.2)

/-- Loop body of mzd_mul_v_avx_128 / mzd_addmul_v_avx_128: eight rows per
iteration; register number k of the matrix packs rows 2k and 2k+1, and
mm256_compute_mask_2 masks the two halves with two consecutive bits. -/
def avx128Loop (A : Nat → Nat → word) : Nat → Nat → word → w256 → w256 → w256 × w256
  | 0, _, _, cv0, cv1 => (cv0, cv1)
  | n + 1, k, idx, cv0, cv1 =>
      avx128Loop A n (k + 4) (idx >>> 8)
        (mm256_xor_mask2 (mm256_xor_mask2 cv0 (row256pair A k) (mm256_compute_mask_2 idx 0))
          (row256pair A (k + 2)) (mm256_compute_mask_2 idx 4))
        (mm256_xor_mask2 (mm256_xor_mask2 cv1 (row256pair A (k + 1)) (mm256_compute_mask_2 idx 2))
          (row256pair A (k + 3)) (mm256_compute_mask_2 idx 6))

/-- Embedding of mzd_mul_v_avx_128: after the loops the two halves of the
combined 256-bit accumulator are folded together with a 128-bit xor. -/
def mzd_mul_v_avx_128 (c v : Nat → word) (A : Nat → Nat → word) : Nat → word :=
  let p1 := avx128Loop A 8 0 (v 0) ⟨0, 0, 0, 0⟩ ⟨0, 0, 0, 0⟩
  let p2 := avx128Loop A 8 32 (v 1) p1.1 p1.2
  let x := w256.xor p2.1 p2.2
  store2 c ⟨x.w0 ^^^ x.w2, x.w1 ^^^ x.w3⟩

/-- Embedding of mzd_addmul_v_avx_128: the cast of the 128-bit accumulator
into a 256-bit register zero-extends the upper half. -/
def mzd_addmul_v_avx_128 (c v : Nat → word) (A : Nat → Nat → word) : Nat → word :=
  let p1 := avx128Loop A 8 0 (v 0) ⟨c 0, c 1, 0, 0⟩ ⟨0, 0, 0, 0⟩
  let p2 := avx128Loop A 8 32 (v 1) p1.1 p1.2
  let x := w256.xor p2.1 p2.2
  store2 c ⟨x.w0 ^^^ x.w2, x.w1 ^^^ x.w3⟩

/-- Embedding of mzd_xor_uint64: xor of the first width words. -/
def mzd_xor_uint64 (res a b : Nat → word) (width : Nat) : Nat → word :=
  fun j => if j < width then a j ^^^ b j else res j

/-- Embedding of mzd_xor_sse_128 (one 128-bit xor). -/
def mzd_xor_sse_128 (res a b : Nat → word) : Nat → word :=
  store2 res (w128.xor (ld128 a) (ld128 b))

/-- Embedding of mzd_xor_sse_256 (two 128-bit xors). -/
def mzd_xor_sse_256 (res a b : Nat → word) : Nat → word :=
  store4 res (w256.xor (ld256 a) (ld256 b))

/-- Embedding of mzd_xor_avx_128. -/
def mzd_xor_avx_128 (res a b : Nat → word) : Nat → word :=
  store2 res (w128.xor (ld128 a) (ld128 b))

/-- Embedding of mzd_xor_avx_256 (one 256-bit xor). -/
def mzd_xor_avx_256 (res a b : Nat → word) : Nat → word :=
  store4 res (w256.xor (ld256 a) (ld256 b))

/-- Embedding of mzd_xor_neon_128. -/
def mzd_xor_neon_128 (res a b : Nat → word) : Nat → word :=
  store2 res (w128.xor (ld128 a) (ld128 b))

/-- Embedding of mzd_xor_neon_256. -/
def mzd_xor_neon_256 (res a b : Nat → word) : Nat → word :=
  store4 res (w256.xor (ld256 a) (ld256 b))

/-! ### Lookup-table multiply (MUL_M4RI) from mzd_additional.c -/

/-- Embedding of xor_comb: xor those rows of A selected by the bits of comb
(LSB first, starting at row off) into the row under construction. -/
def combXor (A : Nat → Nat → word) (off : Nat) (comb : Nat) (j : Nat) : word :=
  if h : comb = 0 then 0
  else (if comb &&& 1 = 1 then A off j else 0) ^^^ combXor A (off + 1) (comb >>> 1) j
termination_by comb
decreasing_by
  simp only [Nat.shiftRight_eq_div_pow, pow_one]
  exact Nat.div_lt_self (Nat.pos_of_ne_zero h) Nat.one_lt_two

/-- Embedding of mzd_precompute_matrix_lookup: row r of the table holds the
xor-combination comb = r mod 256 of the eight source rows starting at
8 times (r div 256); rows with comb = 0 stay zero from the cleared
allocation. -/
def mzd_precompute_matrix_lookup (A : Nat → Nat → word) (len : Nat) :
    Nat → Nat → word :=
  fun r j => if j < len then combXor A ((r >>> 8) <<< 3) (r &&& 255) j else 0

/-- The specification of a lookup-table row: the xor of rows 8k + bit of A
over the set bits of combo. -/
def lookupRowSpec (A : Nat → Nat → word) (kk combo j : Nat) : word :=
  ifSum combo (fun b => A (8 * kk + b) j) 8

/-- Inner while loop of mzd_addmul_vl_uint64: consume the bytes of idx from
the low end until idx is exhausted, xoring the table row selected by each
byte into the first len words of c. -/
def vlUintLoop (B : Nat → Nat → word) (len wbase : Nat) (idx : word) (add : Nat)
    (c : Nat → word) : Nat → word :=
  if h : idx = 0 then c
  else
    vlUintLoop B len wbase (idx >>> 8) (add + 256)
      (fun j => if j < len then c j ^^^ B (wbase + add + (idx &&& 255)) j else c j)
termination_by idx
decreasing_by
  simp only [Nat.shiftRight_eq_div_pow]
  exact Nat.div_lt_self (Nat.pos_of_ne_zero h) (by norm_num)

/-- Outer word loop of mzd_addmul_vl_uint64: word k of v addresses the block
of 2048 table rows starting at row 2048 k. -/
def addmulVlUintWords (B : Nat → Nat → word) (len : Nat) (v : Nat → word) :
    Nat → Nat → (Nat → word) → (Nat → word)
  | 0, _, c => c
  | w + 1, k, c => addmulVlUintWords B len v w (k + 1) (vlUintLoop B len (2048 * k) (v k) 0 c)

/-- Embedding of mzd_addmul_vl_uint64. -/
def mzd_addmul_vl_uint64 (c v : Nat → word) (B : Nat → Nat → word)
    (width len : Nat) : Nat → word :=
  addmulVlUintWords B len v width 0 c

/-- Embedding of mzd_mul_vl_uint64. -/
def mzd_mul_vl_uint64 (c v : Nat → word) (B : Nat → Nat → word)
    (width len : Nat) : Nat → word :=
  mzd_addmul_vl_uint64 mzd_local_clear v B width len

/-- Loop body of mzd_mul_vl_sse_128 / mzd_addmul_vl_sse_128 (and the NEON
128-bit lookup kernels): two bytes per iteration, each selecting one row
from the current block of 256. -/
def vlSse128Loop (B : Nat → Nat → word) : Nat → Nat → word → w128 → w128 → w128 × w128
  | 0, _, _, cv0, cv1 => (cv0, cv1)
  | n + 1, base, idx, cv0, cv1 =>
      vlSse128Loop B n (base + 512) (idx >>> 16)
        (w128.xor cv0 (row128 B (base + (idx &&& 255))))
        (w128.xor cv1 (row128 B (base + 256 + ((idx >>> 8) &&& 255))))

/-- Embedding of mzd_mul_vl_sse_128. -/
def mzd_mul_vl_sse_128 (c v : Nat → word) (B : Nat → Nat → word) : Nat → word :=
  let p1 := vlSse128Loop B 4 0 (v 0) ⟨0, 0⟩ ⟨0, 0⟩
  let p2 := vlSse128Loop B 4 2048 (v 1) p1.1 p1.2
  store2 c (w128.xor p2.1 p2.2)

/-- Embedding of mzd_addmul_vl_sse_128. -/
def mzd_addmul_vl_sse_128 (c v : Nat → word) (B : Nat → Nat → word) : Nat → word :=
  let p1 := vlSse128Loop B 4 0 (v 0) (ld128 c) ⟨0, 0⟩
  let p2 := vlSse128Loop B 4 2048 (v 1) p1.1 p1.2
  store2 c (w128.xor p2.1 p2.2)

/-- Embedding of mzd_mul_vl_neon_128. -/
def mzd_mul_vl_neon_128 (c v : Nat → word) (B : Nat → Nat → word) : Nat → word :=
  let p1 := vlSse128Loop B 4 0 (v 0) ⟨0, 0⟩ ⟨0, 0⟩
  let p2 := vlSse128Loop B 4 2048 (v 1) p1.1 p1.2
  store2 c (w128.xor p2.1 p2.2)

/-- Embedding of mzd_addmul_vl_neon_128. -/
def mzd_addmul_vl_neon_128 (c v : Nat → word) (B : Nat → Nat → word) : Nat → word :=
  let p1 := vlSse128Loop B 4 0 (v 0) (ld128 c) ⟨0, 0⟩
  let p2 := vlSse128Loop B 4 2048 (v 1) p1.1 p1.2
  store2 c (w128.xor p2.1 p2.2)

/-- Loop body of the SSE, AVX and NEON 192- and 256-bit lookup kernels: two
bytes per iteration, each row read as a four-word region. -/
def vlSse192Loop (B : Nat → Nat → word) : Nat → Nat → word → w256 → w256 → w256 × w256
  | 0, _, _, cvA, cvB => (cvA, cvB)
  | n + 1, base, idx, cvA, cvB =>
      vlSse192Loop B n (base + 512) (idx >>> 16)
        (w256.xor cvA (row256 B (base + (idx &&& 255))))
        (w256.xor cvB (row256 B (base + 256 + ((idx >>> 8) &&& 255))))

/-- Embedding of mzd_mul_vl_sse_192. -/
def mzd_mul_vl_sse_192 (c v : Nat → word) (B : Nat → Nat → word) : Nat → word :=
  let p1 := vlSse192Loop B 4 0 (v 0) ⟨0, 0, 0, 0⟩ ⟨0, 0, 0, 0⟩
  let p2 := vlSse192Loop B 4 2048 (v 1) p1.1 p1.2
  let p3 := vlSse192Loop B 4 4096 (v 2) p2.1 p2.2
  store4 c (w256.xor p3.1 p3.2)

/-- Embedding of mzd_addmul_vl_sse_192. -/
def mzd_addmul_vl_sse_192 (c v : Nat → word) (B : Nat → Nat → word) : Nat → word :=
  let p1 := vlSse192Loop B 4 0 (v 0) (ld256 c) ⟨0, 0, 0, 0⟩
  let p2 := vlSse192Loop B 4 2048 (v 1) p1.1 p1.2
  let p3 := vlSse192Loop B 4 4096 (v 2) p2.1 p2.2
  store4 c (w256.xor p3.1 p3.2)

/-- Embedding of mzd_mul_vl_sse_256. -/
def mzd_mul_vl_sse_256 (c v : Nat → word) (B : Nat → Nat → word) : Nat → word :=
  let p1 := vlSse192Loop B 4 0 (v 0) ⟨0, 0, 0, 0⟩ ⟨0, 0, 0, 0⟩
  let p2 := vlSse192Loop B 4 2048 (v 1) p1.1 p1.2
  let p3 := vlSse192Loop B 4 4096 (v 2) p2.1 p2.2
  let p4 := vlSse192Loop B 4 6144 (v 3) p3.1 p3.2
  store4 c (w256.xor p4.1 p4.2)

/-- Embedding of mzd_addmul_vl_sse_256. -/
def mzd_addmul_vl_sse_256 (c v : Nat → word) (B : Nat → Nat → word) : Nat → word :=
  let p1 := vlSse192Loop B 4 0 (v 0) (ld256 c) ⟨0, 0, 0, 0⟩
  let p2 := vlSse192Loop B 4 2048 (v 1) p1.1 p1.2
  let p3 := vlSse192Loop B 4 4096 (v 2) p2.1 p2.2
  let p4 := vlSse192Loop B 4 6144 (v 3) p3.1 p3.2
  store4 c (w256.xor p4.1 p4.2)

/-- Embedding of mzd_mul_vl_avx_192. -/
def mzd_mul_vl_avx_192 (c v : Nat → word) (B : Nat → Nat → word) : Nat → word :=
  let p1 := vlSse192Loop B 4 0 (v 0) ⟨0, 0, 0, 0⟩ ⟨0, 0, 0, 0⟩
  let p2 := vlSse192Loop B 4 2048 (v 1) p1.1 p1.2
  let p3 := vlSse192Loop B 4 4096 (v 2) p2.1 p2.2
  store4 c (w256.xor p3.1 p3.2)

/-- Embedding of mzd_addmul_vl_avx_192. -/
def mzd_addmul_vl_avx_192 (c v : Nat → word) (B : Nat → Nat → word) : Nat → word :=
  let p1 := vlSse192Loop B 4 0 (v 0) (ld256 c) ⟨0, 0, 0, 0⟩
  let p2 := vlSse192Loop B 4 2048 (v 1) p1.1 p1.2
  let p3 := vlSse192Loop B 4 4096 (v 2) p2.1 p2.2
  store4 c (w256.xor p3.1 p3.2)

/-- Embedding of mzd_mul_vl_avx_256. -/
def mzd_mul_vl_avx_256 (c v : Nat → word) (B : Nat → Nat → word) : Nat → word :=
  let p1 := vlSse192Loop B 4 0 (v 0) ⟨0, 0, 0, 0⟩ ⟨0, 0, 0, 0⟩
  let p2 := vlSse192Loop B 4 2048 (v 1) p1.1 p1.2
  let p3 := vlSse192Loop B 4 4096 (v 2) p2.1 p2.2
  let p4 := vlSse192Loop B 4 6144 (v 3) p3.1 p3.2
  store4 c (w256.xor p4.1 p4.2)

/-- Embedding of mzd_addmul_vl_avx_256. -/
def mzd_addmul_vl_avx_256 (c v : Nat → word) (B : Nat → Nat → word) : Nat → word :=
  let p1 := vlSse192Loop B 4 0 (v 0) (ld256 c) ⟨0, 0, 0, 0⟩
  let p2 := vlSse192Loop B 4 2048 (v 1) p1.1 p1.2
  let p3 := vlSse192Loop B 4 4096 (v 2) p2.1 p2.2
  let p4 := vlSse192Loop B 4 6144 (v 3) p3.1 p3.2
  store4 c (w256.xor p4.1 p4.2)

/-- Embedding of mzd_mul_vl_neon_192. -/
def mzd_mul_vl_neon_192 (c v : Nat → word) (B : Nat → Nat → word) : Nat → word :=
  let p1 := vlSse192Loop B 4 0 (v 0) ⟨0, 0, 0, 0⟩ ⟨0, 0, 0, 0⟩
  let p2 := vlSse192Loop B 4 2048 (v 1) p1.1 p1.2
  let p3 := vlSse192Loop B 4 4096 (v 2) p2.1 p2.2
  store4 c (w256.xor p3.1 p3.2)

/-- Embedding of mzd_addmul_vl_neon_192. -/
def mzd_addmul_vl_neon_192 (c v : Nat → word) (B : Nat → Nat → word) : Nat → word :=
  let p1 := vlSse192Loop B 4 0 (v 0) (ld256 c) ⟨0, 0, 0, 0⟩
  let p2 := vlSse192Loop B 4 2048 (v 1) p1.1 p1.2
  let p3 := vlSse192Loop B 4 4096 (v 2) p2.1 p2.2
  store4 c (w256.xor p3.1 p3.2)

/-- Embedding of mzd_mul_vl_neon_256. -/
def mzd_mul_vl_neon_256 (c v : Nat → word) (B : Nat → Nat → word) : Nat → word :=
  let p1 := vlSse192Loop B 4 0 (v 0) ⟨0, 0, 0, 0⟩ ⟨0, 0, 0, 0⟩
  let p2 := vlSse192Loop B 4 2048 (v 1) p1.1 p1.2
  let p3 := vlSse192Loop B 4 4096 (v 2) p2.1 p2.2
  let p4 := vlSse192Loop B 4 6144 (v 3) p3.1 p3.2
  store4 c (w256.xor p4.1 p4.2)

/-- Embedding of mzd_addmul_vl_neon_256. -/
def mzd_addmul_vl_neon_256 (c v : Nat → word) (B : Nat → Nat → word) : Nat → word :=
  let p1 := vlSse192Loop B 4 0 (v 0) (ld256 c) ⟨0, 0, 0, 0⟩
  let p2 := vlSse192Loop B 4 2048 (v 1) p1.1 p1.2
  let p3 := vlSse192Loop B 4 4096 (v 2) p2.1 p2.2
  let p4 := vlSse192Loop B 4 6144 (v 3) p3.1 p3.2
  store4 c (w256.xor p4.1 p4.2)

/-- Embedding of mm256_set_m128i: the first argument becomes the high half,
the second the low half. -/
def set_m128 (hi lo : w128) : w256 := ⟨lo.w0, lo.w1, hi.w0, hi.w1⟩

/-- Loop body of mzd_mul_vl_avx_128 / mzd_addmul_vl_avx_128: four bytes per
iteration, pairs of selected rows packed into 256-bit registers. -/
def vlAvx128Loop (B : Nat → Nat → word) : Nat → Nat → word → w256 → w256 → w256 × w256
  | 0, _, _, cv0, cv1 => (cv0, cv1)
  | n + 1, base, idx, cv0, cv1 =>
      vlAvx128Loop B n (base + 1024) (idx >>> 32)
        (w256.xor cv0 (set_m128 (row128 B (base + (idx &&& 255)))
          (row128 B (base + 256 + ((idx >>> 8) &&& 255)))))
        (w256.xor cv1 (set_m128 (row128 B (base + 512 + ((idx >>> 16) &&& 255)))
          (row128 B (base + 768 + ((idx >>> 24) &&& 255)))))

/-- Embedding of mzd_mul_vl_avx_128. -/
def mzd_mul_vl_avx_128 (c v : Nat → word) (B : Nat → Nat → word) : Nat → word :=
  let p1 := vlAvx128Loop B 2 0 (v 0) ⟨0, 0, 0, 0⟩ ⟨0, 0, 0, 0⟩
  let p2 := vlAvx128Loop B 2 2048 (v 1) p1.1 p1.2
  let x := w256.xor p2.1 p2.2
  store2 c ⟨x.w0 ^^^ x.w2, x.w1 ^^^ x.w3⟩

/-- Embedding of mzd_addmul_vl_avx_128. -/
def mzd_addmul_vl_avx_128 (c v : Nat → word) (B : Nat → Nat → word) : Nat → word :=
  let p1 := vlAvx128Loop B 2 0 (v 0) ⟨c 0, c 1, 0, 0⟩ ⟨0, 0, 0, 0⟩
  let p2 := vlAvx128Loop B 2 2048 (v 1) p1.1 p1.2
  let x := w256.xor p2.1 p2.2
  store2 c ⟨x.w0 ^^^ x.w2, x.w1 ^^^ x.w3⟩

/-- Canonical byte-selection sum: xor over the first n bytes of idx of the
table row selected by byte s inside the block of 256 rows starting at
base + 256 s, at output word j. -/
def bsum (B : Nat → Nat → word) (j base : Nat) (idx : word) : Nat → word
  | 0 => 0
  | n + 1 => B (base + (idx &&& 255)) j ^^^ bsum B j (base + 256) (idx >>> 8) n

/-- Canonical per-word byte-selection sums of the lookup multiply, starting
at vector word k. -/
def bselParts (v : Nat → word) (B : Nat → Nat → word) (j : Nat) : Nat → Nat → word
  | _, 0 => 0
  | k, w + 1 => bsum B j (2048 * k) (v k) 8 ^^^ bselParts v B j (k + 1) w

/-! ### Parity-dot kernels from mzd_additional.c -/

/-- Modelled from the spec: parityBits x n is the xor of the first n bits of
x (the glossary defines parity of a word as the xor of its bits). -/
def parityBits (x : word) : Nat → Bool
  | 0 => false
  | n + 1 => Bool.xor (parityBits x n) (x.testBit n)

/-- Modelled from the spec: parity64_uint64 returns the parity of the 64
bits of its argument as a 0-or-1 word. -/
def parity64_uint64 (x : word) : word := if parityBits x 64 then 1 else 0

/-- Modelled from the spec/intrinsic: the population count of the first n
bits of x, used by the POPCNT-based parity backend. -/
def popcount64 (x : word) : Nat → Nat
  | 0 => 0
  | n + 1 => popcount64 x n + (if x.testBit n then 1 else 0)

/-- Embedding of parity64_popcnt from mzd_additional.c: population count of
the 64-bit word, masked to its lowest bit. -/
def parity64_popcnt (x : word) : word := popcount64 x 64 &&& 1

/-- The word-wise and-then-xor dot product (v[0] and A[0]) xor
(v[1] and A[1]) xor ... over the first n words, as written in the parity
kernels. -/
def dotWords (v row : Nat → word) : Nat → word
  | 0 => 0
  | n + 1 => dotWords v row n ^^^ (v n &&& row n)

/-- The accumulation loop of the parity kernels: loop variable i counts
down from k; iteration i ors the parity of row k - i into bit 64 - i. -/
def parityLoop (p : Nat → word) (k : Nat) : Nat → word → word
  | 0, res => res
  | i + 1, res => parityLoop p k i (res ||| (p (k - (i + 1)) <<< (64 - (i + 1))))

/-- Embedding of mzd_mul_v_parity_uint64_128_30. -/
def mzd_mul_v_parity_uint64_128_30 (c v : Nat → word) (At : Nat → Nat → word) :
    Nat → word :=
  fun j =>
    if j = 0 then 0
    else if j = 1 then parityLoop (fun r => parity64_uint64 (dotWords v (At r) 2)) 30 30 0
    else c j

/-- Embedding of mzd_mul_v_parity_uint64_192_30. -/
def mzd_mul_v_parity_uint64_192_30 (c v : Nat → word) (At : Nat → Nat → word) :
    Nat → word :=
  fun j =>
    if j < 2 then 0
    else if j = 2 then parityLoop (fun r => parity64_uint64 (dotWords v (At r) 3)) 30 30 0
    else c j

/-- Embedding of mzd_mul_v_parity_uint64_256_30. -/
def mzd_mul_v_parity_uint64_256_30 (c v : Nat → word) (At : Nat → Nat → word) :
    Nat → word :=
  fun j =>
    if j < 3 then 0
    else if j = 3 then parityLoop (fun r => parity64_uint64 (dotWords v (At r) 4)) 30 30 0
    else c j

/-- Embedding of mzd_mul_v_parity_uint64_128_3. -/
def mzd_mul_v_parity_uint64_128_3 (c v : Nat → word) (At : Nat → Nat → word) :
    Nat → word :=
  fun j =>
    if j = 0 then 0
    else if j = 1 then parityLoop (fun r => parity64_uint64 (dotWords v (At r) 2)) 3 3 0
    else c j

/-- Embedding of mzd_mul_v_parity_uint64_192_3. -/
def mzd_mul_v_parity_uint64_192_3 (c v : Nat → word) (At : Nat → Nat → word) :
    Nat → word :=
  fun j =>
    if j < 2 then 0
    else if j = 2 then parityLoop (fun r => parity64_uint64 (dotWords v (At r) 3)) 3 3 0
    else c j

/-- Embedding of mzd_mul_v_parity_uint64_256_3. -/
def mzd_mul_v_parity_uint64_256_3 (c v : Nat → word) (At : Nat → Nat → word) :
    Nat → word :=
  fun j =>
    if j < 3 then 0
    else if j = 3 then parityLoop (fun r => parity64_uint64 (dotWords v (At r) 4)) 3 3 0
    else c j

/-- Embedding of mzd_mul_v_parity_popcnt_128_30. -/
def mzd_mul_v_parity_popcnt_128_30 (c v : Nat → word) (At : Nat → Nat → word) :
    Nat → word :=
  fun j =>
    if j = 0 then 0
    else if j = 1 then parityLoop (fun r => parity64_popcnt (dotWords v (At r) 2)) 30 30 0
    else c j

/-- Embedding of mzd_mul_v_parity_popcnt_192_30. -/
def mzd_mul_v_parity_popcnt_192_30 (c v : Nat → word) (At : Nat → Nat → word) :
    Nat → word :=
  fun j =>
    if j < 2 then 0
    else if j = 2 then parityLoop (fun r => parity64_popcnt (dotWords v (At r) 3)) 30 30 0
    else c j

/-- Embedding of mzd_mul_v_parity_popcnt_256_30. -/
def mzd_mul_v_parity_popcnt_256_30 (c v : Nat → word) (At : Nat → Nat → word) :
    Nat → word :=
  fun j =>
    if j < 3 then 0
    else if j = 3 then parityLoop (fun r => parity64_popcnt (dotWords v (At r) 4)) 30 30 0
    else c j

/-- Embedding of mzd_mul_v_parity_popcnt_128_3. -/
def mzd_mul_v_parity_popcnt_128_3 (c v : Nat → word) (At : Nat → Nat → word) :
    Nat → word :=
  fun j =>
    if j = 0 then 0
    else if j = 1 then parityLoop (fun r => parity64_popcnt (dotWords v (At r) 2)) 3 3 0
    else c j

/-- Embedding of mzd_mul_v_parity_popcnt_192_3. -/
def mzd_mul_v_parity_popcnt_192_3 (c v : Nat → word) (At : Nat → Nat → word) :
    Nat → word :=
  fun j =>
    if j < 2 then 0
    else if j = 2 then parityLoop (fun r => parity64_popcnt (dotWords v (At r) 3)) 3 3 0
    else c j

/-- Embedding of mzd_mul_v_parity_popcnt_256_3. -/
def mzd_mul_v_parity_popcnt_256_3 (c v : Nat → word) (At : Nat → Nat → word) :
    Nat → word :=
  fun j =>
    if j < 3 then 0
    else if j = 3 then parityLoop (fun r => parity64_popcnt (dotWords v (At r) 4)) 3 3 0
    else c j

/-- The accumulated or of parity bits: bit 64 - m holds the parity of row
k - m, for m from 1 to i. -/
def parityAcc (p : Nat → word) (k : Nat) : Nat → word
  | 0 => 0
  | i + 1 => parityAcc p k i ||| (p (k - (i + 1)) <<< (64 - (i + 1)))

/-- The last output word as claim C8 words it: bit 63 - i holds the parity
of row i, for i below k. -/
def parityClaimSpec (v : Nat → word) (At : Nat → Nat → word) (width : Nat) :
    Nat → word
  | 0 => 0
  | i + 1 =>
      parityClaimSpec v At width i |||
        (parity64_uint64 (dotWords v (At i) width) <<< (63 - i))

/-- Concrete vector for the C8 counterexample: only bit 0 set. -/
def vP : Nat → word := fun w => if w = 0 then 1 else 0

/-- Concrete transposed matrix for the C8 counterexample: row 0 has word 0
equal to 1, every other entry is zero. -/
def AtP : Nat → Nat → word := fun r j => if r = 0 ∧ j = 0 then 1 else 0

/-- Concrete accumulator used for witness instances. -/
def cW : Nat → word := fun j => 5 + j

/-- Concrete vector used for witness instances. -/
def vW : Nat → word := fun w => 2 * w + 3

/-- Concrete matrix used for witness instances; all entries below 2 ^ 64. -/
def AW : Nat → Nat → word := fun i j => (i + 2 * j) % 32

/-! ### Tapes and the aux AND gate (picnic2_impl.c) -/

/-- Modelled from the spec: a random-tape state for one round, as per-party
bit streams and a cursor; tape j holds party j's bits, each 0 or 1. -/
structure Tapes where
  tape : Nat → Nat → word
  pos : Nat

/-- Packing of one bit per party into a word: bit j of the result is the
low bit of f j, for j below n. -/
def packWord (f : Nat → word) : Nat → word
  | 0 => 0
  | n + 1 => packWord f n ||| (f n <<< n)

/-- Modelled from the spec: tapesToWord reads one bit from each of the 64
parties' tapes at the current cursor, packs party j's bit at bit j of the
word, and advances the cursor by one bit. -/
def tapesToWord (T : Tapes) : word × Tapes :=
  (packWord (fun j => T.tape j T.pos) 64, ⟨T.tape, T.pos + 1⟩)

/-- Modelled from the spec: setBit on party p's tape at bit position i. -/
def writeTapeBit (T : Tapes) (p i : Nat) (b : word) : Tapes :=
  ⟨fun q k => if q = p ∧ k = i then b else T.tape q k, T.pos⟩

/-- Embedding of aux_mpc_AND from picnic2_impl.c: read a fresh output mask
word and an and-helper word, clear bit 63 of the helper (the last party's
share), compute aux = (mask_a and mask_b) xor parity64 of the helper, and
write aux into party 63's tape at position pos - 1. -/
def aux_mpc_AND (mask_a mask_b : word) (T : Tapes) : word × Tapes :=
  let r1 := tapesToWord T
  let r2 := tapesToWord r1.2
  let and_helper := r2.1 % 2 ^ 63
  let aux_bit := (mask_a &&& mask_b) ^^^ parity64_uint64 and_helper
  (r1.1, writeTapeBit r2.2 63 (r2.2.pos - 1) aux_bit)

/-- The XOR-parity of the first n party shares. -/
def xorShares (f : Nat → word) : Nat → word
  | 0 => 0
  | n + 1 => xorShares f n ^^^ f n

/-- Concrete tape state used by witness instances. -/
def TW : Tapes := ⟨fun q k => (q + k) % 2, 5⟩

/-! ### HCP challenge derivation (picnic2_impl.c) -/

/-- Chunk value assembly, the inner loop of bitsToChunks: bit j of the
digest bit stream from base carries weight 2 to the j (little-endian per
chunk); the digest is read through the spec's getBit as a bit sequence. -/
def bitsToChunk (h : Nat → Bool) (base : Nat) : Nat → Nat
  | 0 => 0
  | j + 1 => bitsToChunk h base j + ((if h (base + j) then 1 else 0) <<< j)

/-- Embedding of bitsToChunks from picnic2_impl.c: the digest of inputLen
bytes splits into inputLen times 8 over len consecutive len-bit chunks;
when len exceeds the bit count no chunks are produced. -/
def bitsToChunks (len : Nat) (h : Nat → Bool) (inputLen : Nat) : List Nat :=
  if inputLen * 8 < len then []
  else (List.range (inputLen * 8 / len)).map (fun i => bitsToChunk h (i * len) len)

/-- Embedding of appendUnique from picnic2_impl.c. -/
def appendUnique (list : List Nat) (value : Nat) : List Nat :=
  if list.length = 0 then list ++ [value]
  else if value ∈ list then list
  else list ++ [value]

/-- Embedding of the inner chunk loop of HCP populating challengeC: each
chunk below numRounds is appended if new, and the loop stops once tau
entries are held. -/
def hcpLoopC (numRounds tau : Nat) : List Nat → List Nat → List Nat
  | [], acc => acc
  | c :: rest, acc =>
      let acc2 := if c < numRounds then appendUnique acc c else acc
      if acc2.length = tau then acc2 else hcpLoopC numRounds tau rest acc2

/-- Embedding of the while loop of HCP populating challengeC, with the
re-hash step h := H(prefix_1, h) abstracted as the function rehash
(modelled from the spec) and the number of digests consumed as fuel. -/
def hcpC (numRounds tau len inputLen : Nat)
    (rehash : (Nat → Bool) → Nat → Bool) (h : Nat → Bool) (acc : List Nat) :
    Nat → List Nat
  | 0 => acc
  | fuel + 1 =>
      if tau ≤ acc.length then acc
      else
        hcpC numRounds tau len inputLen rehash (rehash h)
          (hcpLoopC numRounds tau (bitsToChunks len h inputLen) acc) fuel

/-- Embedding of the inner chunk loop of HCP populating challengeP: chunks
below numParties are appended without deduplication. -/
def hcpLoopP (numParties tau : Nat) : List Nat → List Nat → List Nat
  | [], acc => acc
  | c :: rest, acc =>
      let acc2 := if c < numParties then acc ++ [c] else acc
      if acc2.length = tau then acc2 else hcpLoopP numParties tau rest acc2

/-- Embedding of the while loop of HCP populating challengeP. -/
def hcpP (numParties tau len inputLen : Nat)
    (rehash : (Nat → Bool) → Nat → Bool) (h : Nat → Bool) (acc : List Nat) :
    Nat → List Nat
  | 0 => acc
  | fuel + 1 =>
      if tau ≤ acc.length then acc
      else
        hcpP numParties tau len inputLen rehash (rehash h)
          (hcpLoopP numParties tau (bitsToChunks len h inputLen) acc) fuel

/-- The concatenated chunk stream of fuel successive digests. -/
def chunkStream (len inputLen : Nat) (rehash : (Nat → Bool) → Nat → Bool)
    (h : Nat → Bool) : Nat → List Nat
  | 0 => []
  | fuel + 1 =>
      bitsToChunks len h inputLen ++
        chunkStream len inputLen rehash (rehash h) fuel

/-- First-occurrence collection of the qualifying chunks, stopping once
tau entries are held: the order-of-first-occurrence form of challengeC. -/
def collectC (numRounds tau : Nat) : List Nat → List Nat → List Nat
  | [], acc => acc
  | c :: rest, acc =>
      if tau ≤ acc.length then acc
      else collectC numRounds tau rest
        (if c < numRounds ∧ ¬ c ∈ acc then acc ++ [c] else acc)

/-- Collection of the qualifying chunks without deduplication, stopping
once tau entries are held. -/
def collectP (numParties tau : Nat) : List Nat → List Nat → List Nat
  | [], acc => acc
  | c :: rest, acc =>
      if tau ≤ acc.length then acc
      else collectP numParties tau rest
        (if c < numParties then acc ++ [c] else acc)

/-! ### Signature serialization (picnic2_impl.c) -/

/-- The parameter-set fields read by the serializers. -/
structure Params where
  num_opened_rounds : Nat
  num_rounds : Nat
  num_MPC_parties : Nat
  seed_size : Nat
  input_size : Nat
  view_size : Nat
  digest_size : Nat
  lowmc_n : Nat
  lowmc_r : Nat
  lowmc_m : Nat

/-- One opened-round proof, each field a byte list. -/
structure Proof2 where
  seedInfo : List Nat
  aux : List Nat
  input : List Nat
  msgs : List Nat
  C : List Nat

/-- A signature as the serializers see it: challenge lists, salt, tree
openings and the per-opened-round proofs (keyed by round). -/
structure Signature2 where
  challengeC : List Nat
  challengeP : List Nat
  salt : List Nat
  iSeedInfo : List Nat
  cvInfo : List Nat
  proofs : Nat → Proof2

/-- Modelled from the spec: getBit reads bit i of a byte array MSB-first
within each byte. -/
def getBitBytes (data : List Nat) (i : Nat) : Nat :=
  (data.getD (i / 8) 0 >>> (7 - i % 8)) &&& 1

/-- Embedding of arePaddingBitsZero from picnic2_impl.c: every bit from
bitLength up to byteLength times 8 is zero. -/
def arePaddingBitsZero (data : List Nat) (byteLength bitLength : Nat) : Bool :=
  (List.range (byteLength * 8)).all
    (fun i => decide (i < bitLength) || decide (getBitBytes data i = 0))

/-- Embedding of inRange from picnic2_impl.c. -/
def inRange (l : List Nat) (low high : Nat) : Bool :=
  l.all (fun x => decide (low ≤ x) && decide (x ≤ high))

/-- Embedding of unique from picnic2_impl.c: no two positions hold the
same value. -/
def uniqueList (l : List Nat) : Bool :=
  (List.range l.length).all (fun i => (List.range l.length).all (fun j =>
    decide (j = i) || decide (l.getD i 0 ≠ l.getD j 0)))

/-- Embedding of indexOf from picnic2_impl.c: the first position holding
value v. -/
def indexOf (l : List Nat) (v : Nat) : Nat :=
  match l with
  | [] => 0
  | x :: rest => if x = v then 0 else indexOf rest v + 1

/-- Embedding of deserialize_u16 on a little-endian byte list: k
consecutive 16-bit values. -/
def readU16s : Nat → List Nat → List Nat
  | 0, _ => []
  | k + 1, bytes => (bytes.getD 0 0 + 256 * bytes.getD 1 0) :: readU16s k (bytes.drop 2)

/-- Embedding of serialize_u16 for one value. -/
def u16Bytes (v : Nat) : List Nat := [v % 256, v / 256 % 256]

/-- The hidden party of round t: challengeP at the position of t inside
challengeC. -/
def hiddenParty (chalC chalP : List Nat) (t : Nat) : Nat :=
  chalP.getD (indexOf chalC t) 0

/-- The opened rounds in increasing order, as both serializers walk
them. -/
def openedRounds (numRounds : Nat) (chalC : List Nat) : List Nat :=
  (List.range numRounds).filter (fun t => decide (t ∈ chalC))

/-- The byte count of one opened round's proof section, as recomputed by
deserializeSignature2. -/
def proofSize (P : Params) (seedInfoLen : Nat) (chalC chalP : List Nat)
    (t : Nat) : Nat :=
  (if hiddenParty chalC chalP t ≠ P.num_MPC_parties - 1 then P.view_size else 0) +
    P.digest_size + P.input_size + (P.input_size + P.view_size) + seedInfoLen

/-- The exact byte count deserializeSignature2 recomputes and demands;
the tree-opening sizes revealSeedsSize and openMerkleTreeSize live outside
this module and enter as the functions fIS and fCV of challengeC, and the
constant per-round seed opening size as seedInfoLen. -/
def bytesRequired2 (P : Params) (fIS fCV : List Nat → Nat) (seedInfoLen : Nat)
    (chalC chalP : List Nat) : Nat :=
  4 * P.num_opened_rounds + 32 + fIS chalC + fCV chalC +
    (openedRounds P.num_rounds chalC).foldr
      (fun t acc => proofSize P seedInfoLen chalC chalP t + acc) 0

/-- Embedding of the proof-reading loop of deserializeSignature2: for each
opened round, read seedInfo, the aux bits when the hidden party is not the
last (rejecting nonzero padding), then input (copying seed_size bytes but
advancing the cursor by input_size), msgs (rejecting nonzero padding) and
the commitment. -/
def parseProofs (P : Params) (seedInfoLen : Nat) (chalC chalP : List Nat) :
    List Nat → List Nat → Option (List (Nat × Proof2))
  | [], _ => some []
  | t :: ts, bytes =>
      let seedInfo := bytes.take seedInfoLen
      let b1 := bytes.drop seedInfoLen
      let hasAux := hiddenParty chalC chalP t ≠ P.num_MPC_parties - 1
      let aux := if hasAux then b1.take P.view_size else []
      let b2 := if hasAux then b1.drop P.view_size else b1
      if hasAux ∧ arePaddingBitsZero aux P.view_size
          (3 * P.lowmc_r * P.lowmc_m) = false then none
      else
        let inp := b2.take P.seed_size
        let b3 := b2.drop P.input_size
        let msgs := b3.take (P.input_size + P.view_size)
        let b4 := b3.drop (P.input_size + P.view_size)
        if arePaddingBitsZero msgs (P.input_size + P.view_size)
            (P.lowmc_n + 3 * P.lowmc_r * P.lowmc_m) = false then none
        else
          let Cdig := b4.take P.digest_size
          let b5 := b4.drop P.digest_size
          match parseProofs P seedInfoLen chalC chalP ts b5 with
          | none => none
          | some rest => some ((t, ⟨seedInfo, aux, inp, msgs, Cdig⟩) :: rest)

/-- Embedding of deserializeSignature2 from picnic2_impl.c: header length
check, challenge and salt reads, range, uniqueness and exact-length
checks, then tree openings and per-round proofs. -/
def deserializeSignature2 (P : Params) (fIS fCV : List Nat → Nat)
    (seedInfoLen : Nat) (bytes : List Nat) : Option Signature2 :=
  if bytes.length < 4 * P.num_opened_rounds + 32 then none
  else
    let chalC := readU16s P.num_opened_rounds bytes
    let chalP := readU16s P.num_opened_rounds (bytes.drop (2 * P.num_opened_rounds))
    let salt := (bytes.drop (4 * P.num_opened_rounds)).take 32
    if inRange chalC 0 (P.num_rounds - 1) = false then none
    else if uniqueList chalC = false then none
    else if inRange chalP 0 (P.num_MPC_parties - 1) = false then none
    else if bytes.length ≠ bytesRequired2 P fIS fCV seedInfoLen chalC chalP then
      none
    else
      let rest := bytes.drop (4 * P.num_opened_rounds + 32)
      let iSeedInfo := rest.take (fIS chalC)
      let r2 := rest.drop (fIS chalC)
      let cvInfo := r2.take (fCV chalC)
      let r3 := r2.drop (fCV chalC)
      match parseProofs P seedInfoLen chalC chalP
          (openedRounds P.num_rounds chalC) r3 with
      | none => none
      | some prfs =>
          some ⟨chalC, chalP, salt, iSeedInfo, cvInfo,
            fun t => ((prfs.lookup t).getD ⟨[], [], [], [], []⟩)⟩

/-- The checks of parseProofs alone, as a total predicate on the byte
stream. -/
def proofsPaddingOK (P : Params) (seedInfoLen : Nat) (chalC chalP : List Nat) :
    List Nat → List Nat → Bool
  | [], _ => true
  | t :: ts, bytes =>
      let b1 := bytes.drop seedInfoLen
      let hasAux := hiddenParty chalC chalP t ≠ P.num_MPC_parties - 1
      let aux := if hasAux then b1.take P.view_size else []
      let b2 := if hasAux then b1.drop P.view_size else b1
      if hasAux ∧ arePaddingBitsZero aux P.view_size
          (3 * P.lowmc_r * P.lowmc_m) = false then false
      else
        let b3 := b2.drop P.input_size
        let msgs := b3.take (P.input_size + P.view_size)
        let b4 := b3.drop (P.input_size + P.view_size)
        if arePaddingBitsZero msgs (P.input_size + P.view_size)
            (P.lowmc_n + 3 * P.lowmc_r * P.lowmc_m) = false then false
        else
          proofsPaddingOK P seedInfoLen chalC chalP ts (b4.drop P.digest_size)

/-- Embedding of the proof-writing loop of serializeSignature2 for one
opened round. -/
def serializeOne (P : Params) (chalC chalP : List Nat) (prf : Proof2)
    (t : Nat) : List Nat :=
  prf.seedInfo ++
    (if hiddenParty chalC chalP t ≠ P.num_MPC_parties - 1 then prf.aux else []) ++
    prf.input ++ prf.msgs ++ prf.C

/-- Embedding of serializeSignature2 from picnic2_impl.c, producing the
written byte stream: challenges, salt, tree openings, then the proofs of
the opened rounds in increasing round order. -/
def serializeSignature2 (P : Params) (sig : Signature2) : List Nat :=
  (sig.challengeC.map u16Bytes).flatten ++
    (sig.challengeP.map u16Bytes).flatten ++
    sig.salt ++ sig.iSeedInfo ++ sig.cvInfo ++
    (openedRounds P.num_rounds sig.challengeC).foldr
      (fun t acc =>
        serializeOne P sig.challengeC sig.challengeP (sig.proofs t) t ++ acc) []

/-- Validity of one opened round's proof fields for serialization: field
lengths as the layout allots them, zero padding bits, and an empty aux
when the hidden party is the last. -/
def proofWellFormed (P : Params) (seedInfoLen : Nat) (chalC chalP : List Nat)
    (prf : Proof2) (t : Nat) : Prop :=
  prf.seedInfo.length = seedInfoLen ∧
  (hiddenParty chalC chalP t ≠ P.num_MPC_parties - 1 →
    prf.aux.length = P.view_size ∧
    arePaddingBitsZero prf.aux P.view_size (3 * P.lowmc_r * P.lowmc_m) = true) ∧
  (¬ hiddenParty chalC chalP t ≠ P.num_MPC_parties - 1 → prf.aux = []) ∧
  prf.input.length = P.input_size ∧
  prf.msgs.length = P.input_size + P.view_size ∧
  arePaddingBitsZero prf.msgs (P.input_size + P.view_size)
    (P.lowmc_n + 3 * P.lowmc_r * P.lowmc_m) = true ∧
  prf.C.length = P.digest_size

/-- A concrete parameter set with seed_size = input_size for evaluating the
round trip. -/
def PEx : Params := ⟨1, 1, 1, 1, 1, 0, 0, 0, 0, 0⟩

/-- A concrete well-formed signature for evaluating the round trip. -/
def sigEx : Signature2 :=
  ⟨[0], [0], List.replicate 32 0, [], [], fun _ => ⟨[], [], [5], [0], []⟩⟩

/-- The input-field read as claim C9 words it: input_size bytes copied. -/
def claimedInputRead (P : Params) (b2 : List Nat) : List Nat :=
  b2.take P.input_size

/-- Concrete parameters with seed_size different from input_size, for the
C9 counterexample. -/
def PDiv : Params := ⟨1, 1, 1, 1, 2, 0, 0, 0, 0, 0⟩

/-- Concrete matrix with zero padding word, used by witness instances. -/
def APad : Nat → Nat → word := fun i j => if j = 3 then 0 else (i + 2 * j) % 32

/-- Concrete lookup table with cleared comb-0 rows and zero padding word,
used by witness instances. -/
def BPad : Nat → Nat → word :=
  fun r j => if r % 256 = 0 ∨ j = 3 then 0 else (r + j) % 16

/-- Concrete in-range vector used by witness instances. -/
def vSm : Nat → word := fun q => (q + 3) % 2 ^ 64

/-! ### Shuffle / bit-extract from mzd_additional.c -/

/-- Loop of extract_bits: each step tests inp at the lowest set bit of mask,
ors bb into res on a hit under the all-ones/all-zeros mask, doubles bb
(wrapping as a 64-bit word) and clears the lowest set bit of mask. -/
def extract_go (inp : word) (mask bb res : word) : word :=
  if h : mask = 0 then res
  else
    extract_go inp (mask &&& (mask - 1)) ((bb <<< 1) % 2 ^ 64)
      (res ||| (bb &&& neg64 (if inp &&& mask &&& neg64 mask ≠ 0 then 1 else 0)))
termination_by mask
decreasing_by
  exact Nat.lt_of_le_of_lt Nat.and_le_right (Nat.sub_lt (Nat.pos_of_ne_zero h) Nat.one_pos)

/-- Embedding of extract_bits from mzd_additional.c. -/
def extract_bits (inp mask : word) : word := extract_go inp mask 1 0

/-- Embedding of the C 64-bit bitwise complement of a word value. -/
def comp64 (mask : word) : word := (2 ^ 64 - 1) ^^^ mask

/-- Embedding of mzd_shuffle_30: the last word of x (index width - 1) is
replaced by the mask-selected bits shifted up by 34 ored with the
complement-selected bits; the other words are untouched. -/
def mzd_shuffle_30 (x : Nat → word) (width : Nat) (mask : word) : Nat → word :=
  fun j =>
    if j = width - 1 then
      ((extract_bits (x (width - 1)) mask <<< 34) % 2 ^ 64) |||
        extract_bits (x (width - 1)) (comp64 mask)
    else x j

/-- Embedding of mzd_shuffle_3: as mzd_shuffle_30 with shift 61. -/
def mzd_shuffle_3 (x : Nat → word) (width : Nat) (mask : word) : Nat → word :=
  fun j =>
    if j = width - 1 then
      ((extract_bits (x (width - 1)) mask <<< 61) % 2 ^ 64) |||
        extract_bits (x (width - 1)) (comp64 mask)
    else x j

/-- Embedding of popcount_32 from mzd_additional.c: the magic-constant
popcount of the 32-bit truncation of its argument (the C call site passes
a 64-bit mask to the uint32_t parameter), summing the counts of the three
blocks value[0..11], value[12..23] and value[24..31], each obtained by a
multiply by 0x1001001001001, a mask by 0x84210842108421 and a remainder
mod 0x1f, with the total reduced to the uint8_t return type. -/
def popcount_32 (x : word) : Nat :=
  let value := x % 2 ^ 32
  ((((value &&& 0xfff) * 0x1001001001001) % 2 ^ 64 &&&
      0x84210842108421) % 0x1f +
    ((((value &&& 0xfff000) >>> 12) * 0x1001001001001) % 2 ^ 64 &&&
      0x84210842108421) % 0x1f +
    (((value >>> 24) * 0x1001001001001) % 2 ^ 64 &&&
      0x84210842108421) % 0x1f) % 256

/-- Modelled from the spec: PEXT packs the bits of a found at the set
positions of mask contiguously into the low bits of the result, in
increasing position order; pextW a mask n covers the mask positions
below n. -/
def pextW (a mask : word) : Nat → word
  | 0 => 0
  | n + 1 =>
      pextW a mask n |||
        (if mask.testBit n && a.testBit n then 2 ^ popcount64 mask n else 0)

/-- Modelled from the spec: the 32-bit PEXT intrinsic, applied to the 32-bit
truncations of its operands. -/
def pext_u32 (a mask : word) : word := pextW (a % 2 ^ 32) (mask % 2 ^ 32) 32

/-- Embedding of pext_u64 from mzd_additional.c: the high 32-bit PEXT half
shifted up by the popcount of the low mask half, ored with the low half. -/
def pext_u64 (a mask : word) : word :=
  ((pext_u32 (a >>> 32) (mask >>> 32) <<< popcount_32 mask) % 2 ^ 64) |||
    pext_u32 a mask

/-- Embedding of mzd_shuffle_pext_30. -/
def mzd_shuffle_pext_30 (x : Nat → word) (width : Nat) (mask : word) :
    Nat → word :=
  fun j =>
    if j = width - 1 then
      ((pext_u64 (x (width - 1)) mask <<< 34) % 2 ^ 64) |||
        pext_u64 (x (width - 1)) (comp64 mask)
    else x j

/-- Embedding of mzd_shuffle_pext_3. -/
def mzd_shuffle_pext_3 (x : Nat → word) (width : Nat) (mask : word) :
    Nat → word :=
  fun j =>
    if j = width - 1 then
      ((pext_u64 (x (width - 1)) mask <<< 61) % 2 ^ 64) |||
        pext_u64 (x (width - 1)) (comp64 mask)
    else x j

/-! ### Signing dataflow from picnic2_impl.c -/

/-- Modelled from the spec: the deterministic primitives sign_picnic2 calls
out to (the Keccak hash, seed-tree expansion, tape generation, the
commitments, the LowMC online simulation, Merkle openings and seed
reveals), each a pure function of its arguments, living outside this
module. -/
structure SignPrims where
  squeeze : List Nat → Nat → List Nat
  genSeeds : Nat → List Nat → List Nat → Nat → List (List Nat)
  createTapes : List (List Nat) → List Nat → Nat → List Nat
  computeAux : List Nat → List Nat
  getAux : List Nat → List Nat
  commitSeed : List Nat → List Nat → Nat → Nat → List Nat
  commitLast : List Nat → List Nat → List Nat → Nat → Nat → List Nat
  maskedKey : List Nat → List Nat → List Nat
  simulate : List Nat → List Nat → List Nat → List Nat → List Nat
  partyMsgs : List Nat → Nat → List Nat
  commitH : (Nat → List Nat) → List Nat
  commitV : List Nat → List Nat → List Nat
  merkleRoot : (Nat → List Nat) → List Nat → List Nat
  hcp : (Nat → List Nat) → List Nat → List Nat → List Nat → List Nat →
    List Nat → List Nat × List Nat
  openMerkle : (Nat → List Nat) → List Nat → List Nat → List Nat
  reveal : List (List Nat) → List Nat → List Nat

/-- Embedding of computeSaltAndRootSeed from picnic2_impl.c: one hash over
the private key (input_size bytes), the message, the public key, the
plaintext and the LowMC state size as a little-endian 16-bit value,
squeezed to saltAndRootLength bytes. -/
def computeSaltAndRootSeed (prims : SignPrims) (P : Params)
    (privateKey pubKey plaintext message : List Nat)
    (saltAndRootLength : Nat) : List Nat :=
  prims.squeeze
    (privateKey.take P.input_size ++ message ++ pubKey.take P.input_size ++
      plaintext.take P.input_size ++ u16Bytes (P.lowmc_n % 65536))
    saltAndRootLength

/-- Embedding of the sign_picnic2 dataflow from picnic2_impl.c over the
abstract primitives: computeSaltAndRootSeed yields the salt (first 32
bytes) and the root seed (the remaining seed_size bytes); the root seed
expands to the per-round initial seeds, each round's seeds, tapes, aux
tape, commitments, masked input and simulated messages follow, the
challenge lists come from the challenge hash, and the signature is
assembled from the opened rounds.  The rng argument stands for the
platform's external randomness source; the body never consults it. -/
def sign_picnic2 (prims : SignPrims) (rng : Nat → Nat) (P : Params)
    (privateKey pubKey plaintext message : List Nat) : Signature2 :=
  let saltAndRoot := computeSaltAndRootSeed prims P privateKey pubKey
    plaintext message (P.seed_size + 32)
  let salt := saltAndRoot.take 32
  let root := saltAndRoot.drop 32
  let iSeeds := prims.genSeeds P.num_rounds root salt 0
  let seeds := fun t => prims.genSeeds P.num_MPC_parties (iSeeds.getD t []) salt t
  let tapes := fun t => prims.computeAux (prims.createTapes (seeds t) salt t)
  let C := fun t j =>
    if j = P.num_MPC_parties - 1 then
      prims.commitLast ((seeds t).getD j []) (prims.getAux (tapes t)) salt t j
    else prims.commitSeed ((seeds t).getD j []) salt t j
  let inputs := fun t => prims.maskedKey (tapes t) privateKey
  let roundMsgs := fun t => prims.simulate (inputs t) (tapes t) plaintext pubKey
  let Ch := fun t => prims.commitH (C t)
  let Cv := fun t => prims.commitV (inputs t) (roundMsgs t)
  let cvRoot := prims.merkleRoot Cv salt
  let chal := prims.hcp Ch cvRoot salt pubKey plaintext message
  let challengeC := chal.1
  let challengeP := chal.2
  let cvInfo := prims.openMerkle Cv salt challengeC
  let iSeedInfo := prims.reveal iSeeds challengeC
  let proofs := fun t =>
    if t ∈ challengeC then
      let hidden := hiddenParty challengeC challengeP t
      ⟨prims.reveal (seeds t) [hidden],
        if hidden ≠ P.num_MPC_parties - 1 then prims.getAux (tapes t) else [],
        (inputs t).take P.input_size,
        (prims.partyMsgs (roundMsgs t) hidden).take (P.view_size + P.input_size),
        (C t hidden).take P.digest_size⟩
    else (⟨[], [], [], [], []⟩ : Proof2)
  ⟨challengeC, challengeP, salt, iSeedInfo, cvInfo, proofs⟩

end Picnic

namespace Picnic

/-! ### Basic lemmas about masks and selection sums -/

theorem neg64_zero : neg64 0 = 0 := by decide

theorem neg64_one : neg64 1 = 2 ^ 64 - 1 := by decide

theorem and_one_cases (x : word) : x &&& 1 = 0 ∨ x &&& 1 = 1 := by
  rcases Nat.mod_two_eq_zero_or_one x with h | h
  · exact Or.inl (by rw [Nat.and_one_is_mod, h])
  · exact Or.inr (by rw [Nat.and_one_is_mod, h])

theorem bitMask_eq (idx : word) :
    bitMask idx = if idx &&& 1 = 1 then 2 ^ 64 - 1 else 0 := by
  rcases and_one_cases idx with h | h <;> simp [bitMask, h, neg64_zero, neg64_one]

theorem and_bitMask (x idx : word) (hx : x < 2 ^ 64) :
    x &&& bitMask idx = if idx &&& 1 = 1 then x else 0 := by
  rw [bitMask_eq]
  rcases and_one_cases idx with h | h
  · simp [h]
  · simp only [h, if_pos rfl]
    have : (2 : Nat) ^ 64 - 1 = 2 ^ 64 - 1 := rfl
    calc x &&& 2 ^ 64 - 1 = x % 2 ^ 64 := by
          have := Nat.and_pow_two_sub_one_eq_mod x 64
          simpa using this
      _ = x := Nat.mod_eq_of_lt hx

theorem wsum_congr (idx : word) (r s : Nat → word) (n : Nat)
    (h : ∀ i, i < n → r i = s i) : wsum idx r n = wsum idx s n := by
  induction n generalizing idx r s with
  | zero => rfl
  | succ n ih =>
      simp only [wsum]
      rw [h 0 (Nat.succ_pos n), ih (idx >>> 1) _ _
        (fun i hi => h (i + 1) (Nat.succ_lt_succ hi))]

theorem wsum_add (idx : word) (r : Nat → word) (k m : Nat) :
    wsum idx r (k + m) =
      wsum idx r k ^^^ wsum (idx >>> k) (fun i => r (k + i)) m := by
  induction k generalizing idx r with
  | zero =>
      rw [Nat.zero_add, Nat.shiftRight_zero,
        wsum_congr idx (fun i => r (0 + i)) r m
          (fun i _ => show r (0 + i) = r i by rw [Nat.zero_add])]
      simp only [wsum, Nat.zero_xor]
  | succ k ih =>
      have hshift : (idx >>> 1) >>> k = idx >>> (k + 1) := by
        rw [Nat.add_comm k 1, Nat.shiftRight_add]
      have hsucc : k + 1 + m = (k + m) + 1 := by omega
      rw [hsucc]
      simp only [wsum]
      rw [ih (idx >>> 1) (fun i => r (i + 1))]
      have e : wsum ((idx >>> 1) >>> k) (fun i => r (k + i + 1)) m =
          wsum (idx >>> (k + 1)) (fun i => r (k + 1 + i)) m := by
        rw [hshift]
        exact wsum_congr _ _ _ m
          (fun i _ => show r (k + i + 1) = r (k + 1 + i) by congr 1; omega)
      rw [e, Nat.xor_assoc]

/-- The inner bit loop accumulates exactly the masked-row selection sum. -/
theorem addmulUintLoop_spec (A : Nat → Nat → word) (len : Nat) :
    ∀ (n : Nat) (c : Nat → word) (base : Nat) (idx : word) (j : Nat),
      addmulUintLoop A len n c base idx j =
        if j < len then c j ^^^ wsum idx (fun i => A (base + i) j) n else c j := by
  intro n
  induction n with
  | zero => intro c base idx j; simp only [addmulUintLoop, wsum]
            by_cases h : j < len <;> simp [h]
  | succ n ih =>
      intro c base idx j
      simp only [addmulUintLoop]
      rw [ih]
      by_cases h : j < len
      · have e : wsum (idx >>> 1) (fun i => A (base + 1 + i) j) n =
            wsum (idx >>> 1) (fun i => A (base + (i + 1)) j) n :=
          wsum_congr _ _ _ n (fun i _ => show A (base + 1 + i) j = A (base + (i + 1)) j by
            congr 1; omega)
        simp only [if_pos h, wsum, Nat.add_zero]
        rw [e, Nat.xor_assoc]
      · simp only [if_neg h]

theorem selPart_congr (v v' : Nat → word) (A A' : Nat → Nat → word) (j : Nat)
    (w : Nat) (hv : ∀ k, k < w → v k = v' k)
    (hA : ∀ i, i < 64 * w → ∀ j', A i j' = A' i j') :
    selPart v A j w = selPart v' A' j w := by
  induction w generalizing v v' A A' with
  | zero => rfl
  | succ w ih =>
      simp only [selPart]
      rw [hv 0 (Nat.succ_pos w),
        wsum_congr _ _ _ 64 (fun i hi => hA i (by omega) j),
        ih _ _ _ _ (fun k hk => hv (k + 1) (by omega))
          (fun i hi j' => hA (64 + i) (by omega) j')]

/-- The outer word loop accumulates the per-word selection sums. -/
theorem addmulUintWords_spec (A : Nat → Nat → word) (len : Nat) :
    ∀ (w : Nat) (v : Nat → word) (k : Nat) (c : Nat → word) (j : Nat),
      addmulUintWords A len v w k c j =
        if j < len then
          c j ^^^ selPart (fun q => v (k + q)) (fun i => A (64 * k + i)) j w
        else c j := by
  intro w
  induction w with
  | zero => intro v k c j; simp only [addmulUintWords, selPart]
            by_cases h : j < len <;> simp [h]
  | succ w ih =>
      intro v k c j
      simp only [addmulUintWords]
      rw [ih, addmulUintLoop_spec]
      by_cases h : j < len
      · have e : selPart (fun q => v (k + 1 + q)) (fun i => A (64 * (k + 1) + i)) j w =
            selPart (fun q => v (k + (q + 1))) (fun i => A (64 * k + (64 + i))) j w :=
          selPart_congr _ _ _ _ j w
            (fun q _ => show v (k + 1 + q) = v (k + (q + 1)) by congr 1; omega)
            (fun i _ j' =>
              show A (64 * (k + 1) + i) j' = A (64 * k + (64 + i)) j' by
                have e2 : 64 * (k + 1) + i = 64 * k + (64 + i) := by omega
                rw [e2])
        simp only [if_pos h, selPart, Nat.add_zero]
        rw [e, Nat.xor_assoc]
      · simp only [if_neg h]

theorem wsum_succ_top (idx : word) (r : Nat → word) (n : Nat) :
    wsum idx r (n + 1) = wsum idx r n ^^^ (r n &&& bitMask (idx >>> n)) := by
  rw [wsum_add idx r n 1]
  simp only [wsum, Nat.xor_zero, Nat.add_zero, bitMask]

theorem shiftRight_and_one (idx : word) (n : Nat) :
    (idx >>> n) &&& 1 = idx / 2 ^ n % 2 := by
  rw [Nat.and_one_is_mod, Nat.shiftRight_eq_div_pow]

theorem and_one_eq_one_iff_testBit (idx : word) (n : Nat) :
    (idx >>> n) &&& 1 = 1 ↔ idx.testBit n := by
  rw [shiftRight_and_one, Nat.testBit_to_div_mod]
  exact ⟨fun h => by simp [h], fun h => by simpa using h⟩

theorem wsum_eq_ifSum (idx : word) (r : Nat → word) (n : Nat)
    (hr : ∀ i, i < n → r i < 2 ^ 64) : wsum idx r n = ifSum idx r n := by
  induction n with
  | zero => rfl
  | succ n ih =>
      rw [wsum_succ_top, ih (fun i hi => hr i (by omega))]
      simp only [ifSum]
      congr 1
      rw [and_bitMask _ _ (hr n (by omega))]
      by_cases h : idx.testBit n
      · rw [if_pos ((and_one_eq_one_iff_testBit idx n).mpr h), if_pos h]
      · rw [if_neg (fun hc => h ((and_one_eq_one_iff_testBit idx n).mp hc)), if_neg h]

theorem gf2SelectSum_le64 (v : Nat → word) (A : Nat → Nat → word) (j : Nat) :
    ∀ n, n ≤ 64 → gf2SelectSum v A j n = ifSum (v 0) (fun i => A i j) n := by
  intro n
  induction n with
  | zero => intro _; rfl
  | succ n ih =>
      intro hn
      simp only [gf2SelectSum, ifSum]
      rw [ih (by omega), Nat.div_eq_of_lt (by omega), Nat.mod_eq_of_lt (by omega)]

theorem gf2SelectSum_shift (v : Nat → word) (A : Nat → Nat → word) (j : Nat) :
    ∀ n, gf2SelectSum v A j (64 + n) =
      gf2SelectSum v A j 64 ^^^
        gf2SelectSum (fun k => v (k + 1)) (fun i => A (64 + i)) j n := by
  intro n
  induction n with
  | zero =>
      rw [Nat.add_zero,
        show gf2SelectSum (fun k => v (k + 1)) (fun i => A (64 + i)) j 0 = 0 from rfl,
        Nat.xor_zero]
  | succ n ih =>
      have h1 : 64 + (n + 1) = (64 + n) + 1 := by omega
      rw [h1]
      rw [gf2SelectSum]
      rw [ih, Nat.xor_assoc]
      conv in gf2SelectSum _ _ _ (n + 1) => rw [gf2SelectSum]
      have h2 : (64 + n) / 64 = n / 64 + 1 := by omega
      have h3 : (64 + n) % 64 = n % 64 := by omega
      rw [h2, h3]

theorem selPart_eq_gf2 (v : Nat → word) (A : Nat → Nat → word) (j : Nat) :
    ∀ (w : Nat), (∀ i j', i < 64 * w → A i j' < 2 ^ 64) →
      selPart v A j w = gf2SelectSum v A j (64 * w) := by
  intro w
  induction w generalizing v A with
  | zero => intro _; rfl
  | succ w ih =>
      intro hA
      simp only [selPart]
      have h1 : 64 * (w + 1) = 64 + 64 * w := by omega
      rw [h1, gf2SelectSum_shift,
        wsum_eq_ifSum (v 0) (fun i => A i j) 64 (fun i hi => hA i j (by omega)),
        ← gf2SelectSum_le64 v A j 64 (by omega),
        ih (fun k => v (k + 1)) (fun i => A (64 + i))
          (fun i j' hi => hA (64 + i) j' (by omega))]

/-- C1.  mzd_addmul_v_uint64 xors into each accumulator word exactly the
rows of A selected by the bits of v, LSB-first across and within words, the
selection acting through the all-ones/all-zeros mask obtained by arithmetic
negation of the bit; mzd_mul_v_uint64 is clearing followed by the same
accumulation, so it returns the GF(2) product v times A.  Accumulator words
at index len and beyond are untouched. -/
theorem mzd_mul_v_uint64_is_gf2_product (c v : Nat → word) (A : Nat → Nat → word)
    (width len : Nat) (hA : ∀ i j', A i j' < 2 ^ 64) :
    (∀ j, j < len →
        mzd_addmul_v_uint64 c v A width len j = c j ^^^ gf2SelectSum v A j (64 * width)) ∧
      (∀ j, len ≤ j → mzd_addmul_v_uint64 c v A width len j = c j) ∧
      mzd_mul_v_uint64 c v A width len =
        mzd_addmul_v_uint64 mzd_local_clear v A width len ∧
      (∀ j, j < len →
        mzd_mul_v_uint64 c v A width len j = gf2SelectSum v A j (64 * width)) := by
  have key : ∀ (c' : Nat → word) (j : Nat), j < len →
      mzd_addmul_v_uint64 c' v A width len j = c' j ^^^ gf2SelectSum v A j (64 * width) := by
    intro c' j hj
    rw [mzd_addmul_v_uint64, addmulUintWords_spec, if_pos hj]
    congr 1
    have e1 : selPart (fun q => v (0 + q)) (fun i => A (64 * 0 + i)) j width =
        selPart v A j width :=
      selPart_congr _ _ _ _ j width (fun q _ => by rw [Nat.zero_add])
        (fun i _ j' => by rw [Nat.mul_zero, Nat.zero_add])
    rw [e1]
    exact selPart_eq_gf2 v A j width (fun i j' _ => hA i j')
  refine ⟨fun j hj => key c j hj, ?_, rfl, ?_⟩
  · intro j hj
    rw [mzd_addmul_v_uint64, addmulUintWords_spec, if_neg (by omega)]
  · intro j hj
    rw [mzd_mul_v_uint64, mzd_addmul_v_uint64]
    have := key mzd_local_clear j hj
    rw [mzd_addmul_v_uint64] at this
    rw [this]
    simp [mzd_local_clear]

/-- Witness for C1 at concrete inputs: the hypothesis is satisfied and the
theorem applies at width 1, row width 1, output word 0. -/
theorem mzd_mul_v_uint64_is_gf2_product_witness :
    (∀ i j', AW i j' < 2 ^ 64) ∧
      (mzd_addmul_v_uint64 cW vW AW 1 1 0 = cW 0 ^^^ gf2SelectSum vW AW 0 64 ∧
        mzd_mul_v_uint64 cW vW AW 1 1 0 = gf2SelectSum vW AW 0 64) := by
  have hA : ∀ i j', AW i j' < 2 ^ 64 := by
    intro i j'
    calc AW i j' < 32 := Nat.mod_lt _ (by decide)
      _ < 2 ^ 64 := by decide
  have h := mzd_mul_v_uint64_is_gf2_product cW vW AW 1 1 hA
  exact ⟨hA, h.1 0 (by decide), h.2.2.2 0 (by decide)⟩

/-! ### Backend equivalence infrastructure -/

theorem xor_left_comm (a b c : Nat) : a ^^^ (b ^^^ c) = b ^^^ (a ^^^ c) := by
  rw [← Nat.xor_assoc, Nat.xor_comm a b, Nat.xor_assoc]

theorem shr_shr (x a b : Nat) : (x >>> a) >>> b = x >>> (a + b) :=
  (Nat.shiftRight_add x a b).symm

theorem lane_mm128_xor_mask (c a : w128) (m : word) (l : Nat) :
    (mm128_xor_mask c a m).lane l = c.lane l ^^^ (a.lane l &&& m) := by
  by_cases h : l = 0 <;> simp [mm128_xor_mask, w128.lane, h]

theorem lane_row128 (A : Nat → Nat → word) (i l : Nat) (hl : l < 2) :
    (row128 A i).lane l = A i l := by
  interval_cases l <;> simp [row128, w128.lane]

theorem lane_w128_xor (a b : w128) (l : Nat) :
    (w128.xor a b).lane l = a.lane l ^^^ b.lane l := by
  by_cases h : l = 0 <;> simp [w128.xor, w128.lane, h]

theorem lane_mm256_xor_mask (c a : w256) (m : word) (l : Nat) :
    (mm256_xor_mask c a m).lane l = c.lane l ^^^ (a.lane l &&& m) := by
  by_cases h0 : l = 0
  · simp [mm256_xor_mask, w256.lane, h0]
  by_cases h1 : l = 1
  · simp [mm256_xor_mask, w256.lane, h0, h1]
  by_cases h2 : l = 2 <;> simp [mm256_xor_mask, w256.lane, h0, h1, h2]

theorem lane_row256 (A : Nat → Nat → word) (i l : Nat) (hl : l < 4) :
    (row256 A i).lane l = A i l := by
  interval_cases l <;> simp [row256, w256.lane]

theorem lane_w256_xor (a b : w256) (l : Nat) :
    (w256.xor a b).lane l = a.lane l ^^^ b.lane l := by
  by_cases h0 : l = 0
  · simp [w256.xor, w256.lane, h0]
  by_cases h1 : l = 1
  · simp [w256.xor, w256.lane, h0, h1]
  by_cases h2 : l = 2 <;> simp [w256.xor, w256.lane, h0, h1, h2]

theorem lane_mm256_xor_mask2_lo (c a : w256) (m : word × word) (l : Nat) (hl : l < 2) :
    (mm256_xor_mask2 c a m).lane l = c.lane l ^^^ (a.lane l &&& m.1) := by
  interval_cases l <;> simp [mm256_xor_mask2, w256.lane]

theorem lane_mm256_xor_mask2_hi (c a : w256) (m : word × word) (l : Nat) (hl : l < 2) :
    (mm256_xor_mask2 c a m).lane (l + 2) = c.lane (l + 2) ^^^ (a.lane (l + 2) &&& m.2) := by
  interval_cases l <;> simp [mm256_xor_mask2, w256.lane]

theorem lane_row256pair_lo (A : Nat → Nat → word) (k l : Nat) (hl : l < 2) :
    (row256pair A k).lane l = A (2 * k) l := by
  interval_cases l <;> simp [row256pair, w256.lane]

theorem lane_row256pair_hi (A : Nat → Nat → word) (k l : Nat) (hl : l < 2) :
    (row256pair A k).lane (l + 2) = A (2 * k + 1) l := by
  interval_cases l <;> simp [row256pair, w256.lane]

theorem wsum_two (idx : word) (r : Nat → word) :
    wsum idx r 2 =
      (r 0 &&& neg64 (idx &&& 1)) ^^^ (r 1 &&& neg64 ((idx >>> 1) &&& 1)) := by
  simp [wsum, bitMask]

theorem wsum_four (idx : word) (r : Nat → word) :
    wsum idx r 4 =
      (r 0 &&& neg64 (idx &&& 1)) ^^^
        ((r 1 &&& neg64 ((idx >>> 1) &&& 1)) ^^^
          ((r 2 &&& neg64 ((idx >>> 2) &&& 1)) ^^^
            (r 3 &&& neg64 ((idx >>> 3) &&& 1)))) := by
  simp [wsum, bitMask, shr_shr]

theorem wsum_eight (idx : word) (r : Nat → word) :
    wsum idx r 8 =
      (r 0 &&& neg64 (idx &&& 1)) ^^^
        ((r 1 &&& neg64 ((idx >>> 1) &&& 1)) ^^^
          ((r 2 &&& neg64 ((idx >>> 2) &&& 1)) ^^^
            ((r 3 &&& neg64 ((idx >>> 3) &&& 1)) ^^^
              ((r 4 &&& neg64 ((idx >>> 4) &&& 1)) ^^^
                ((r 5 &&& neg64 ((idx >>> 5) &&& 1)) ^^^
                  ((r 6 &&& neg64 ((idx >>> 6) &&& 1)) ^^^
                    (r 7 &&& neg64 ((idx >>> 7) &&& 1)))))))) := by
  simp [wsum, bitMask, shr_shr]

/-- Lane-wise characterization of the SSE and NEON 128-bit loop. -/
theorem sse128Loop_lane (A : Nat → Nat → word) (l : Nat) (hl : l < 2) :
    ∀ (n base : Nat) (idx : word) (cv0 cv1 : w128),
      ((sse128Loop A n base idx cv0 cv1).1).lane l ^^^
          ((sse128Loop A n base idx cv0 cv1).2).lane l =
        (cv0.lane l ^^^ cv1.lane l) ^^^ wsum idx (fun i => A (base + i) l) (4 * n) := by
  intro n
  induction n with
  | zero => intro base idx cv0 cv1; simp [sse128Loop, wsum]
  | succ n ih =>
      intro base idx cv0 cv1
      simp only [sse128Loop]
      rw [ih]
      simp only [lane_mm128_xor_mask, lane_row128 A _ _ hl]
      have hn : 4 * (n + 1) = 4 + 4 * n := by ring
      rw [hn, wsum_add, wsum_four]
      have e : wsum (idx >>> 4) (fun i => A (base + 4 + i) l) (4 * n) =
          wsum (idx >>> 4) (fun i => A (base + (4 + i)) l) (4 * n) :=
        wsum_congr _ _ _ _ (fun i _ =>
          show A (base + 4 + i) l = A (base + (4 + i)) l by congr 1; omega)
      rw [e]
      simp only [mm128_compute_mask, Nat.shiftRight_zero, Nat.add_zero]
      simp [Nat.xor_assoc, Nat.xor_comm, xor_left_comm]

/-- Lane-wise characterization of the SSE and NEON 192- and 256-bit loop. -/
theorem sse192Loop_lane (A : Nat → Nat → word) (l : Nat) (hl : l < 4) :
    ∀ (n base : Nat) (idx : word) (cv01 cv23 : w256),
      ((sse192Loop A n base idx cv01 cv23).1).lane l ^^^
          ((sse192Loop A n base idx cv01 cv23).2).lane l =
        (cv01.lane l ^^^ cv23.lane l) ^^^ wsum idx (fun i => A (base + i) l) (2 * n) := by
  intro n
  induction n with
  | zero => intro base idx cv01 cv23; simp [sse192Loop, wsum]
  | succ n ih =>
      intro base idx cv01 cv23
      simp only [sse192Loop]
      rw [ih]
      simp only [lane_mm256_xor_mask, lane_row256 A _ _ hl]
      have hn : 2 * (n + 1) = 2 + 2 * n := by ring
      rw [hn, wsum_add, wsum_two]
      have e : wsum (idx >>> 2) (fun i => A (base + 2 + i) l) (2 * n) =
          wsum (idx >>> 2) (fun i => A (base + (2 + i)) l) (2 * n) :=
        wsum_congr _ _ _ _ (fun i _ =>
          show A (base + 2 + i) l = A (base + (2 + i)) l by congr 1; omega)
      rw [e]
      simp only [mm128_compute_mask, Nat.shiftRight_zero, Nat.add_zero]
      simp [Nat.xor_assoc, Nat.xor_comm, xor_left_comm]

/-- Lane-wise characterization of the AVX 192- and 256-bit loop. -/
theorem avx192Loop_lane (A : Nat → Nat → word) (l : Nat) (hl : l < 4) :
    ∀ (n base : Nat) (idx : word) (cv0 cv1 : w256),
      ((avx192Loop A n base idx cv0 cv1).1).lane l ^^^
          ((avx192Loop A n base idx cv0 cv1).2).lane l =
        (cv0.lane l ^^^ cv1.lane l) ^^^ wsum idx (fun i => A (base + i) l) (4 * n) := by
  intro n
  induction n with
  | zero => intro base idx cv0 cv1; simp [avx192Loop, wsum]
  | succ n ih =>
      intro base idx cv0 cv1
      simp only [avx192Loop]
      rw [ih]
      simp only [lane_mm256_xor_mask, lane_row256 A _ _ hl]
      have hn : 4 * (n + 1) = 4 + 4 * n := by ring
      rw [hn, wsum_add, wsum_four]
      have e : wsum (idx >>> 4) (fun i => A (base + 4 + i) l) (4 * n) =
          wsum (idx >>> 4) (fun i => A (base + (4 + i)) l) (4 * n) :=
        wsum_congr _ _ _ _ (fun i _ =>
          show A (base + 4 + i) l = A (base + (4 + i)) l by congr 1; omega)
      rw [e]
      simp only [mm256_compute_mask, Nat.shiftRight_zero, Nat.add_zero]
      simp [Nat.xor_assoc, Nat.xor_comm, xor_left_comm]

set_option maxHeartbeats 1600000 in
/-- Lane-wise characterization of the AVX 128-bit loop: folding the two
128-bit halves of both accumulators together yields the plain bit-selection
sum over the packed rows. -/
theorem avx128Loop_lane (A : Nat → Nat → word) (l : Nat) (hl : l < 2) :
    ∀ (n k : Nat) (idx : word) (cv0 cv1 : w256),
      (((avx128Loop A n k idx cv0 cv1).1).lane l ^^^
          ((avx128Loop A n k idx cv0 cv1).2).lane l) ^^^
        (((avx128Loop A n k idx cv0 cv1).1).lane (l + 2) ^^^
          ((avx128Loop A n k idx cv0 cv1).2).lane (l + 2)) =
        ((cv0.lane l ^^^ cv1.lane l) ^^^ (cv0.lane (l + 2) ^^^ cv1.lane (l + 2))) ^^^
          wsum idx (fun i => A (2 * k + i) l) (8 * n) := by
  intro n
  induction n with
  | zero => intro k idx cv0 cv1; simp [avx128Loop, wsum]
  | succ n ih =>
      intro k idx cv0 cv1
      simp only [avx128Loop]
      rw [ih]
      simp only [lane_mm256_xor_mask2_lo _ _ _ _ hl, lane_mm256_xor_mask2_hi _ _ _ _ hl,
        lane_row256pair_lo A _ _ hl, lane_row256pair_hi A _ _ hl]
      have hn : 8 * (n + 1) = 8 + 8 * n := by ring
      rw [hn, wsum_add, wsum_eight]
      have e : wsum (idx >>> 8) (fun i => A (2 * (k + 4) + i) l) (8 * n) =
          wsum (idx >>> 8) (fun i => A (2 * k + (8 + i)) l) (8 * n) :=
        wsum_congr _ _ _ _ (fun i _ =>
          show A (2 * (k + 4) + i) l = A (2 * k + (8 + i)) l by congr 1; omega)
      rw [e]
      simp only [mm256_compute_mask_2, Nat.shiftRight_zero, Nat.add_zero, Nat.mul_add]
      simp [Nat.xor_assoc, Nat.xor_comm, xor_left_comm, Nat.add_assoc]

theorem mzd_addmul_v_uint64_val (c v : Nat → word) (A : Nat → Nat → word)
    (width len j : Nat) :
    mzd_addmul_v_uint64 c v A width len j =
      if j < len then c j ^^^ selPart v A j width else c j := by
  rw [mzd_addmul_v_uint64, addmulUintWords_spec]
  by_cases h : j < len
  · simp only [if_pos h]
    congr 1
    exact selPart_congr _ _ _ _ j width (fun q _ => by rw [Nat.zero_add])
      (fun i _ j' => by rw [Nat.mul_zero, Nat.zero_add])
  · simp only [if_neg h]

theorem mzd_mul_v_uint64_val (c v : Nat → word) (A : Nat → Nat → word)
    (width len j : Nat) :
    mzd_mul_v_uint64 c v A width len j =
      if j < len then selPart v A j width else 0 := by
  rw [mzd_mul_v_uint64, mzd_addmul_v_uint64_val]
  by_cases h : j < len <;> simp [h, mzd_local_clear]

theorem selPart_two (v : Nat → word) (A : Nat → Nat → word) (j : Nat) :
    selPart v A j 2 =
      wsum (v 0) (fun i => A i j) 64 ^^^ wsum (v 1) (fun i => A (64 + i) j) 64 := by
  simp [selPart]

theorem selPart_three (v : Nat → word) (A : Nat → Nat → word) (j : Nat) :
    selPart v A j 3 =
      wsum (v 0) (fun i => A i j) 64 ^^^
        (wsum (v 1) (fun i => A (64 + i) j) 64 ^^^
          wsum (v 2) (fun i => A (128 + i) j) 64) := by
  have e : wsum (v 2) (fun i => A (64 + (64 + i)) j) 64 =
      wsum (v 2) (fun i => A (128 + i) j) 64 :=
    wsum_congr _ _ _ _ (fun i _ =>
      show A (64 + (64 + i)) j = A (128 + i) j by congr 1; omega)
  simp only [selPart]
  norm_num
  rw [e]

theorem selPart_four (v : Nat → word) (A : Nat → Nat → word) (j : Nat) :
    selPart v A j 4 =
      wsum (v 0) (fun i => A i j) 64 ^^^
        (wsum (v 1) (fun i => A (64 + i) j) 64 ^^^
          (wsum (v 2) (fun i => A (128 + i) j) 64 ^^^
            wsum (v 3) (fun i => A (192 + i) j) 64)) := by
  have e2 : wsum (v 2) (fun i => A (64 + (64 + i)) j) 64 =
      wsum (v 2) (fun i => A (128 + i) j) 64 :=
    wsum_congr _ _ _ _ (fun i _ =>
      show A (64 + (64 + i)) j = A (128 + i) j by congr 1; omega)
  have e3 : wsum (v 3) (fun i => A (64 + (64 + (64 + i))) j) 64 =
      wsum (v 3) (fun i => A (192 + i) j) 64 :=
    wsum_congr _ _ _ _ (fun i _ =>
      show A (64 + (64 + (64 + i))) j = A (192 + i) j by congr 1; omega)
  simp only [selPart]
  norm_num
  rw [e2, e3]

theorem store2_lane (c : Nat → word) (r : w128) (j : Nat) (hj : j < 2) :
    store2 c r j = r.lane j := by
  interval_cases j <;> simp [store2, w128.lane]

theorem store4_lane (c : Nat → word) (r : w256) (j : Nat) (hj : j < 4) :
    store4 c r j = r.lane j := by
  interval_cases j <;> simp [store4, w256.lane]

theorem ld128_lane (c : Nat → word) (j : Nat) (hj : j < 2) :
    (ld128 c).lane j = c j := by
  interval_cases j <;> simp [ld128, w128.lane]

theorem ld256_lane (c : Nat → word) (j : Nat) (hj : j < 4) :
    (ld256 c).lane j = c j := by
  interval_cases j <;> simp [ld256, w256.lane]

theorem lane_zero128 (j : Nat) : w128.lane ⟨0, 0⟩ j = 0 := by
  simp [w128.lane]

theorem lane_zero256 (j : Nat) : w256.lane ⟨0, 0, 0, 0⟩ j = 0 := by
  simp [w256.lane]

theorem wsum_const_zero (idx : word) (n : Nat) : wsum idx (fun _ => 0) n = 0 := by
  induction n generalizing idx with
  | zero => rfl
  | succ n ih => simp [wsum, ih]

theorem wsum_zero_of (idx : word) (r : Nat → word) (n : Nat)
    (h : ∀ i, i < n → r i = 0) : wsum idx r n = 0 := by
  rw [wsum_congr idx r (fun _ => 0) n h, wsum_const_zero]

/-- mzd_mul_v_sse_128 agrees with the scalar kernel on both output words. -/
theorem sse128_mul_eq (c v : Nat → word) (A : Nat → Nat → word) :
    ∀ j, j < 2 → mzd_mul_v_sse_128 c v A j = mzd_mul_v_uint64 c v A 2 2 j := by
  intro j hj
  rw [mzd_mul_v_uint64_val, if_pos hj, selPart_two]
  simp only [mzd_mul_v_sse_128]
  rw [store2_lane _ _ j hj, lane_w128_xor,
    sse128Loop_lane A j hj, sse128Loop_lane A j hj]
  simp [lane_zero128, Nat.zero_add]

/-- mzd_addmul_v_sse_128 agrees with the scalar kernel on both output
words. -/
theorem sse128_addmul_eq (c v : Nat → word) (A : Nat → Nat → word) :
    ∀ j, j < 2 → mzd_addmul_v_sse_128 c v A j = mzd_addmul_v_uint64 c v A 2 2 j := by
  intro j hj
  rw [mzd_addmul_v_uint64_val, if_pos hj, selPart_two]
  simp only [mzd_addmul_v_sse_128]
  rw [store2_lane _ _ j hj, lane_w128_xor,
    sse128Loop_lane A j hj, sse128Loop_lane A j hj, ld128_lane c j hj]
  simp [lane_zero128, Nat.zero_add, Nat.xor_assoc]

/-- mzd_mul_v_avx_128 agrees with the scalar kernel on both output words. -/
theorem avx128_mul_eq (c v : Nat → word) (A : Nat → Nat → word) :
    ∀ j, j < 2 → mzd_mul_v_avx_128 c v A j = mzd_mul_v_uint64 c v A 2 2 j := by
  intro j hj
  rw [mzd_mul_v_uint64_val, if_pos hj, selPart_two]
  simp only [mzd_mul_v_avx_128]
  rw [store2_lane _ _ j hj]
  have hx : ∀ (x : w256), (w128.mk (x.w0 ^^^ x.w2) (x.w1 ^^^ x.w3)).lane j =
      x.lane j ^^^ x.lane (j + 2) := by
    intro x
    interval_cases j <;> simp [w128.lane, w256.lane]
  rw [hx, lane_w256_xor, lane_w256_xor,
    avx128Loop_lane A j hj, avx128Loop_lane A j hj]
  simp [lane_zero256, Nat.zero_add]

/-- mzd_addmul_v_avx_128 agrees with the scalar kernel on both output
words. -/
theorem avx128_addmul_eq (c v : Nat → word) (A : Nat → Nat → word) :
    ∀ j, j < 2 → mzd_addmul_v_avx_128 c v A j = mzd_addmul_v_uint64 c v A 2 2 j := by
  intro j hj
  rw [mzd_addmul_v_uint64_val, if_pos hj, selPart_two]
  simp only [mzd_addmul_v_avx_128]
  rw [store2_lane _ _ j hj]
  have hx : ∀ (x : w256), (w128.mk (x.w0 ^^^ x.w2) (x.w1 ^^^ x.w3)).lane j =
      x.lane j ^^^ x.lane (j + 2) := by
    intro x
    interval_cases j <;> simp [w128.lane, w256.lane]
  rw [hx, lane_w256_xor, lane_w256_xor,
    avx128Loop_lane A j hj, avx128Loop_lane A j hj]
  have hc : w256.lane ⟨c 0, c 1, 0, 0⟩ j = c j := by
    interval_cases j <;> simp [w256.lane]
  have hc2 : w256.lane ⟨c 0, c 1, 0, 0⟩ (j + 2) = 0 := by
    interval_cases j <;> simp [w256.lane]
  rw [hc, hc2]
  simp [lane_zero256, Nat.zero_add, Nat.xor_assoc]

/-- mzd_mul_v_sse_192 agrees with the scalar kernel on all four stored
words, given that the padding word of every row of A is zero. -/
theorem sse192_mul_eq (c v : Nat → word) (A : Nat → Nat → word)
    (hpad : ∀ i, i < 192 → A i 3 = 0) :
    ∀ j, j < 4 → mzd_mul_v_sse_192 c v A j = mzd_mul_v_uint64 c v A 3 3 j := by
  intro j hj
  simp only [mzd_mul_v_sse_192]
  rw [store4_lane _ _ j hj, lane_w256_xor, sse192Loop_lane A j hj,
    sse192Loop_lane A j hj, sse192Loop_lane A j hj, mzd_mul_v_uint64_val]
  by_cases h3 : j < 3
  · rw [if_pos h3, selPart_three]
    simp [lane_zero256, Nat.zero_add, Nat.xor_assoc]
  · have hj3 : j = 3 := by omega
    subst hj3
    rw [if_neg h3,
      wsum_zero_of (v 0) (fun i => A (0 + i) 3) (2 * 32)
        (fun i hi => show A (0 + i) 3 = 0 from hpad (0 + i) (by omega)),
      wsum_zero_of (v 1) (fun i => A (64 + i) 3) (2 * 32)
        (fun i hi => show A (64 + i) 3 = 0 from hpad (64 + i) (by omega)),
      wsum_zero_of (v 2) (fun i => A (128 + i) 3) (2 * 32)
        (fun i hi => show A (128 + i) 3 = 0 from hpad (128 + i) (by omega))]
    simp [lane_zero256]

/-- mzd_addmul_v_sse_192 agrees with the scalar kernel on all four stored
words, given that the padding word of every row of A is zero. -/
theorem sse192_addmul_eq (c v : Nat → word) (A : Nat → Nat → word)
    (hpad : ∀ i, i < 192 → A i 3 = 0) :
    ∀ j, j < 4 → mzd_addmul_v_sse_192 c v A j = mzd_addmul_v_uint64 c v A 3 3 j := by
  intro j hj
  simp only [mzd_addmul_v_sse_192]
  rw [store4_lane _ _ j hj, lane_w256_xor, sse192Loop_lane A j hj,
    sse192Loop_lane A j hj, sse192Loop_lane A j hj, ld256_lane c j hj,
    mzd_addmul_v_uint64_val]
  by_cases h3 : j < 3
  · rw [if_pos h3, selPart_three]
    simp [lane_zero256, Nat.zero_add, Nat.xor_assoc]
  · have hj3 : j = 3 := by omega
    subst hj3
    rw [if_neg h3,
      wsum_zero_of (v 0) (fun i => A (0 + i) 3) (2 * 32)
        (fun i hi => show A (0 + i) 3 = 0 from hpad (0 + i) (by omega)),
      wsum_zero_of (v 1) (fun i => A (64 + i) 3) (2 * 32)
        (fun i hi => show A (64 + i) 3 = 0 from hpad (64 + i) (by omega)),
      wsum_zero_of (v 2) (fun i => A (128 + i) 3) (2 * 32)
        (fun i hi => show A (128 + i) 3 = 0 from hpad (128 + i) (by omega))]
    simp [lane_zero256]

/-- mzd_mul_v_sse_256 agrees with the scalar kernel on all four output
words. -/
theorem sse256_mul_eq (c v : Nat → word) (A : Nat → Nat → word) :
    ∀ j, j < 4 → mzd_mul_v_sse_256 c v A j = mzd_mul_v_uint64 c v A 4 4 j := by
  intro j hj
  simp only [mzd_mul_v_sse_256]
  rw [store4_lane _ _ j hj, lane_w256_xor, sse192Loop_lane A j hj,
    sse192Loop_lane A j hj, sse192Loop_lane A j hj, sse192Loop_lane A j hj,
    mzd_mul_v_uint64_val, if_pos hj, selPart_four]
  simp [lane_zero256, Nat.zero_add, Nat.xor_assoc]

/-- mzd_addmul_v_sse_256 agrees with the scalar kernel on all four output
words. -/
theorem sse256_addmul_eq (c v : Nat → word) (A : Nat → Nat → word) :
    ∀ j, j < 4 → mzd_addmul_v_sse_256 c v A j = mzd_addmul_v_uint64 c v A 4 4 j := by
  intro j hj
  simp only [mzd_addmul_v_sse_256]
  rw [store4_lane _ _ j hj, lane_w256_xor, sse192Loop_lane A j hj,
    sse192Loop_lane A j hj, sse192Loop_lane A j hj, sse192Loop_lane A j hj,
    ld256_lane c j hj, mzd_addmul_v_uint64_val, if_pos hj, selPart_four]
  simp [lane_zero256, Nat.zero_add, Nat.xor_assoc]

/-- mzd_mul_v_avx_192 agrees with the scalar kernel on all four stored
words, given that the padding word of every row of A is zero. -/
theorem avx192_mul_eq (c v : Nat → word) (A : Nat → Nat → word)
    (hpad : ∀ i, i < 192 → A i 3 = 0) :
    ∀ j, j < 4 → mzd_mul_v_avx_192 c v A j = mzd_mul_v_uint64 c v A 3 3 j := by
  intro j hj
  simp only [mzd_mul_v_avx_192]
  rw [store4_lane _ _ j hj, lane_w256_xor, avx192Loop_lane A j hj,
    avx192Loop_lane A j hj, avx192Loop_lane A j hj, mzd_mul_v_uint64_val]
  by_cases h3 : j < 3
  · rw [if_pos h3, selPart_three]
    simp [lane_zero256, Nat.zero_add, Nat.xor_assoc]
  · have hj3 : j = 3 := by omega
    subst hj3
    rw [if_neg h3,
      wsum_zero_of (v 0) (fun i => A (0 + i) 3) (4 * 16)
        (fun i hi => show A (0 + i) 3 = 0 from hpad (0 + i) (by omega)),
      wsum_zero_of (v 1) (fun i => A (64 + i) 3) (4 * 16)
        (fun i hi => show A (64 + i) 3 = 0 from hpad (64 + i) (by omega)),
      wsum_zero_of (v 2) (fun i => A (128 + i) 3) (4 * 16)
        (fun i hi => show A (128 + i) 3 = 0 from hpad (128 + i) (by omega))]
    simp [lane_zero256]

/-- mzd_addmul_v_avx_192 agrees with the scalar kernel on all four stored
words, given that the padding word of every row of A is zero. -/
theorem avx192_addmul_eq (c v : Nat → word) (A : Nat → Nat → word)
    (hpad : ∀ i, i < 192 → A i 3 = 0) :
    ∀ j, j < 4 → mzd_addmul_v_avx_192 c v A j = mzd_addmul_v_uint64 c v A 3 3 j := by
  intro j hj
  simp only [mzd_addmul_v_avx_192]
  rw [store4_lane _ _ j hj, lane_w256_xor, avx192Loop_lane A j hj,
    avx192Loop_lane A j hj, avx192Loop_lane A j hj, ld256_lane c j hj,
    mzd_addmul_v_uint64_val]
  by_cases h3 : j < 3
  · rw [if_pos h3, selPart_three]
    simp [lane_zero256, Nat.zero_add, Nat.xor_assoc]
  · have hj3 : j = 3 := by omega
    subst hj3
    rw [if_neg h3,
      wsum_zero_of (v 0) (fun i => A (0 + i) 3) (4 * 16)
        (fun i hi => show A (0 + i) 3 = 0 from hpad (0 + i) (by omega)),
      wsum_zero_of (v 1) (fun i => A (64 + i) 3) (4 * 16)
        (fun i hi => show A (64 + i) 3 = 0 from hpad (64 + i) (by omega)),
      wsum_zero_of (v 2) (fun i => A (128 + i) 3) (4 * 16)
        (fun i hi => show A (128 + i) 3 = 0 from hpad (128 + i) (by omega))]
    simp [lane_zero256]

/-- mzd_mul_v_avx_256 agrees with the scalar kernel on all four output
words. -/
theorem avx256_mul_eq (c v : Nat → word) (A : Nat → Nat → word) :
    ∀ j, j < 4 → mzd_mul_v_avx_256 c v A j = mzd_mul_v_uint64 c v A 4 4 j := by
  intro j hj
  simp only [mzd_mul_v_avx_256]
  rw [store4_lane _ _ j hj, lane_w256_xor, avx192Loop_lane A j hj,
    avx192Loop_lane A j hj, avx192Loop_lane A j hj, avx192Loop_lane A j hj,
    mzd_mul_v_uint64_val, if_pos hj, selPart_four]
  simp [lane_zero256, Nat.zero_add, Nat.xor_assoc]

/-- mzd_addmul_v_avx_256 agrees with the scalar kernel on all four output
words. -/
theorem avx256_addmul_eq (c v : Nat → word) (A : Nat → Nat → word) :
    ∀ j, j < 4 → mzd_addmul_v_avx_256 c v A j = mzd_addmul_v_uint64 c v A 4 4 j := by
  intro j hj
  simp only [mzd_addmul_v_avx_256]
  rw [store4_lane _ _ j hj, lane_w256_xor, avx192Loop_lane A j hj,
    avx192Loop_lane A j hj, avx192Loop_lane A j hj, avx192Loop_lane A j hj,
    ld256_lane c j hj, mzd_addmul_v_uint64_val, if_pos hj, selPart_four]
  simp [lane_zero256, Nat.zero_add, Nat.xor_assoc]

/-! ### Lookup-table multiply lemmas -/

theorem shiftRight_and_distrib (x y n : Nat) :
    (x &&& y) >>> n = (x >>> n) &&& (y >>> n) := by
  apply Nat.eq_of_testBit_eq
  intro i
  simp [Nat.testBit_shiftRight, Nat.testBit_and]

theorem bsum_add (B : Nat → Nat → word) (j : Nat) :
    ∀ (k m base : Nat) (idx : word),
      bsum B j base idx (k + m) =
        bsum B j base idx k ^^^ bsum B j (base + 256 * k) (idx >>> (8 * k)) m := by
  intro k
  induction k with
  | zero =>
      intro m base idx
      have e1 : base + 256 * 0 = base := by omega
      have e2 : (8 : Nat) * 0 = 0 := by omega
      rw [Nat.zero_add, e1, e2, Nat.shiftRight_zero]
      simp [bsum]
  | succ k ih =>
      intro m base idx
      have h1 : k + 1 + m = (k + m) + 1 := by omega
      rw [h1]
      simp only [bsum]
      rw [ih]
      have e1 : base + 256 + 256 * k = base + 256 * (k + 1) := by omega
      have e2 : (idx >>> 8) >>> (8 * k) = idx >>> (8 * (k + 1)) := by
        rw [shr_shr]; congr 1; omega
      rw [e1, e2, Nat.xor_assoc]

theorem bsum_two (B : Nat → Nat → word) (j base : Nat) (idx : word) :
    bsum B j base idx 2 =
      B (base + (idx &&& 255)) j ^^^ B (base + 256 + ((idx >>> 8) &&& 255)) j := by
  simp [bsum]

theorem bsum_four (B : Nat → Nat → word) (j base : Nat) (idx : word) :
    bsum B j base idx 4 =
      B (base + (idx &&& 255)) j ^^^
        (B (base + (256 + ((idx >>> 8) &&& 255))) j ^^^
          (B (base + (512 + ((idx >>> 16) &&& 255))) j ^^^
            B (base + (768 + ((idx >>> 24) &&& 255))) j)) := by
  simp [bsum, shr_shr, Nat.add_assoc]

theorem bsum_zero_idx (B : Nat → Nat → word) (j : Nat)
    (hB0 : ∀ s j', B (256 * s) j' = 0) :
    ∀ (n base : Nat), 256 ∣ base → bsum B j base 0 n = 0 := by
  intro n
  induction n with
  | zero => intro base _; rfl
  | succ n ih =>
      intro base hd
      obtain ⟨s, hs⟩ := hd
      simp only [bsum, Nat.zero_shiftRight, Nat.zero_and, Nat.add_zero]
      rw [hs, hB0 s j, ih (256 * s + 256) ⟨s + 1, by omega⟩]
      simp

theorem vlUintLoop_spec (B : Nat → Nat → word) (len wbase : Nat)
    (hB0 : ∀ s j', B (256 * s) j' = 0) :
    ∀ (n : Nat) (idx : word), idx < 2 ^ (8 * n) →
      ∀ (add : Nat) (c : Nat → word) (j : Nat), 256 ∣ (wbase + add) →
        vlUintLoop B len wbase idx add c j =
          if j < len then c j ^^^ bsum B j (wbase + add) idx n else c j := by
  intro n
  induction n with
  | zero =>
      intro idx hidx add c j hd
      have h0 : idx = 0 := by
        have h1 : (2 : Nat) ^ (8 * 0) = 1 := by norm_num
        rw [h1] at hidx
        exact Nat.lt_one_iff.mp hidx
      rw [vlUintLoop, dif_pos h0]
      simp only [bsum]
      by_cases h : j < len <;> simp [h]
  | succ n ih =>
      intro idx hidx add c j hd
      by_cases h0 : idx = 0
      · rw [vlUintLoop, dif_pos h0, h0, bsum_zero_idx B j hB0 (n + 1) (wbase + add) hd]
        by_cases h : j < len <;> simp [h]
      · rw [vlUintLoop, dif_neg h0]
        have hsh : idx >>> 8 < 2 ^ (8 * n) := by
          rw [Nat.shiftRight_eq_div_pow]
          have h28 : (2 : Nat) ^ (8 * (n + 1)) = 2 ^ 8 * 2 ^ (8 * n) := by
            rw [← pow_add]; congr 1; omega
          exact Nat.div_lt_of_lt_mul (by rw [← h28]; exact hidx)
        have hd2 : 256 ∣ (wbase + (add + 256)) := by
          obtain ⟨s, hs⟩ := hd
          exact ⟨s + 1, by omega⟩
        rw [ih (idx >>> 8) hsh (add + 256) _ j hd2]
        by_cases h : j < len
        · simp only [if_pos h, bsum]
          have e : wbase + (add + 256) = wbase + add + 256 := by omega
          rw [e, Nat.xor_assoc]
        · simp only [if_neg h]

theorem addmulVlUintWords_spec (B : Nat → Nat → word) (len : Nat) (v : Nat → word)
    (hB0 : ∀ s j', B (256 * s) j' = 0) :
    ∀ (w k : Nat) (c : Nat → word) (j : Nat), (∀ q, q < w → v (k + q) < 2 ^ 64) →
      addmulVlUintWords B len v w k c j =
        if j < len then c j ^^^ bselParts v B j k w else c j := by
  intro w
  induction w with
  | zero =>
      intro k c j _
      simp only [addmulVlUintWords, bselParts]
      by_cases h : j < len <;> simp [h]
  | succ w ih =>
      intro k c j hv
      simp only [addmulVlUintWords]
      rw [ih (k + 1) _ j (fun q hq => by
        have := hv (1 + q) (by omega)
        rwa [show k + (1 + q) = k + 1 + q from by omega] at this)]
      have hvk : v k < 2 ^ 64 := by
        have := hv 0 (by omega)
        rwa [Nat.add_zero] at this
      rw [vlUintLoop_spec B len (2048 * k) hB0 8 (v k) (by
          rw [show (2 : Nat) ^ (8 * 8) = 2 ^ 64 from by norm_num]
          exact hvk) 0 c j ⟨8 * k, by ring⟩]
      by_cases h : j < len
      · simp only [if_pos h, bselParts]
        have e : 2048 * k + 0 = 2048 * k := by omega
        rw [e, Nat.xor_assoc]
      · simp only [if_neg h]

theorem mzd_addmul_vl_uint64_val (c v : Nat → word) (B : Nat → Nat → word)
    (width len : Nat) (hB0 : ∀ s j', B (256 * s) j' = 0)
    (hv : ∀ q, q < width → v q < 2 ^ 64) (j : Nat) :
    mzd_addmul_vl_uint64 c v B width len j =
      if j < len then c j ^^^ bselParts v B j 0 width else c j := by
  rw [mzd_addmul_vl_uint64, addmulVlUintWords_spec B len v hB0 width 0 c j
    (fun q hq => by have := hv q hq; rwa [Nat.zero_add])]

theorem mzd_mul_vl_uint64_val (c v : Nat → word) (B : Nat → Nat → word)
    (width len : Nat) (hB0 : ∀ s j', B (256 * s) j' = 0)
    (hv : ∀ q, q < width → v q < 2 ^ 64) (j : Nat) :
    mzd_mul_vl_uint64 c v B width len j =
      if j < len then bselParts v B j 0 width else 0 := by
  rw [mzd_mul_vl_uint64, mzd_addmul_vl_uint64_val _ _ _ _ _ hB0 hv]
  by_cases h : j < len <;> simp [h, mzd_local_clear]

theorem lane_set_m128_lo (hi lo : w128) (l : Nat) (hl : l < 2) :
    (set_m128 hi lo).lane l = lo.lane l := by
  interval_cases l <;> simp [set_m128, w256.lane, w128.lane]

theorem lane_set_m128_hi (hi lo : w128) (l : Nat) (hl : l < 2) :
    (set_m128 hi lo).lane (l + 2) = hi.lane l := by
  interval_cases l <;> simp [set_m128, w256.lane, w128.lane]

/-- Lane-wise characterization of the SSE and NEON 128-bit lookup loop. -/
theorem vlSse128Loop_lane (B : Nat → Nat → word) (l : Nat) (hl : l < 2) :
    ∀ (n base : Nat) (idx : word) (cv0 cv1 : w128),
      ((vlSse128Loop B n base idx cv0 cv1).1).lane l ^^^
          ((vlSse128Loop B n base idx cv0 cv1).2).lane l =
        (cv0.lane l ^^^ cv1.lane l) ^^^ bsum B l base idx (2 * n) := by
  intro n
  induction n with
  | zero => intro base idx cv0 cv1; simp [vlSse128Loop, bsum]
  | succ n ih =>
      intro base idx cv0 cv1
      simp only [vlSse128Loop]
      rw [ih]
      simp only [lane_w128_xor, lane_row128 B _ _ hl]
      rw [show 2 * (n + 1) = 2 + 2 * n from by ring, bsum_add, bsum_two]
      norm_num
      simp [Nat.xor_assoc, Nat.xor_comm, xor_left_comm]

/-- Lane-wise characterization of the SSE, AVX and NEON 192- and 256-bit
lookup loop. -/
theorem vlSse192Loop_lane (B : Nat → Nat → word) (l : Nat) (hl : l < 4) :
    ∀ (n base : Nat) (idx : word) (cvA cvB : w256),
      ((vlSse192Loop B n base idx cvA cvB).1).lane l ^^^
          ((vlSse192Loop B n base idx cvA cvB).2).lane l =
        (cvA.lane l ^^^ cvB.lane l) ^^^ bsum B l base idx (2 * n) := by
  intro n
  induction n with
  | zero => intro base idx cvA cvB; simp [vlSse192Loop, bsum]
  | succ n ih =>
      intro base idx cvA cvB
      simp only [vlSse192Loop]
      rw [ih]
      simp only [lane_w256_xor, lane_row256 B _ _ hl]
      rw [show 2 * (n + 1) = 2 + 2 * n from by ring, bsum_add, bsum_two]
      norm_num
      simp [Nat.xor_assoc, Nat.xor_comm, xor_left_comm]

/-- Lane-wise characterization of the AVX 128-bit lookup loop. -/
theorem vlAvx128Loop_lane (B : Nat → Nat → word) (l : Nat) (hl : l < 2) :
    ∀ (n base : Nat) (idx : word) (cv0 cv1 : w256),
      (((vlAvx128Loop B n base idx cv0 cv1).1).lane l ^^^
          ((vlAvx128Loop B n base idx cv0 cv1).2).lane l) ^^^
        (((vlAvx128Loop B n base idx cv0 cv1).1).lane (l + 2) ^^^
          ((vlAvx128Loop B n base idx cv0 cv1).2).lane (l + 2)) =
        ((cv0.lane l ^^^ cv1.lane l) ^^^ (cv0.lane (l + 2) ^^^ cv1.lane (l + 2))) ^^^
          bsum B l base idx (4 * n) := by
  intro n
  induction n with
  | zero => intro base idx cv0 cv1; simp [vlAvx128Loop, bsum]
  | succ n ih =>
      intro base idx cv0 cv1
      simp only [vlAvx128Loop]
      rw [ih]
      simp only [lane_w256_xor, lane_set_m128_lo _ _ _ hl, lane_set_m128_hi _ _ _ hl,
        lane_row128 B _ _ hl]
      rw [show 4 * (n + 1) = 4 + 4 * n from by ring, bsum_add, bsum_four]
      norm_num
      simp [Nat.xor_assoc, Nat.xor_comm, xor_left_comm, Nat.add_assoc]

theorem bselParts_two (v : Nat → word) (B : Nat → Nat → word) (j : Nat) :
    bselParts v B j 0 2 = bsum B j 0 (v 0) 8 ^^^ bsum B j 2048 (v 1) 8 := by
  simp [bselParts]

theorem bselParts_three (v : Nat → word) (B : Nat → Nat → word) (j : Nat) :
    bselParts v B j 0 3 =
      bsum B j 0 (v 0) 8 ^^^ (bsum B j 2048 (v 1) 8 ^^^ bsum B j 4096 (v 2) 8) := by
  simp [bselParts]

theorem bselParts_four (v : Nat → word) (B : Nat → Nat → word) (j : Nat) :
    bselParts v B j 0 4 =
      bsum B j 0 (v 0) 8 ^^^
        (bsum B j 2048 (v 1) 8 ^^^ (bsum B j 4096 (v 2) 8 ^^^ bsum B j 6144 (v 3) 8)) := by
  simp [bselParts]

theorem and255_eq_mod (x : Nat) : x &&& 255 = x % 256 := by
  have h := Nat.and_pow_two_sub_one_eq_mod x 8
  norm_num at h
  exact h

theorem bsum_pad_zero (B : Nat → Nat → word) (bound : Nat)
    (h : ∀ r, r < bound → B r 3 = 0) :
    ∀ (n base : Nat) (idx : word), base + 256 * n ≤ bound → bsum B 3 base idx n = 0 := by
  intro n
  induction n with
  | zero => intro base idx _; rfl
  | succ n ih =>
      intro base idx hb
      simp only [bsum, and255_eq_mod]
      rw [h (base + idx % 256) (by omega), ih (base + 256) (idx >>> 8) (by omega)]
      simp

/-- The 128-bit SSE and NEON lookup multiply kernels agree with the scalar
lookup kernel. -/
theorem vl128_mul_eq (c v : Nat → word) (B : Nat → Nat → word)
    (hB0 : ∀ s j', B (256 * s) j' = 0) (hv : ∀ q, q < 2 → v q < 2 ^ 64) :
    ∀ j, j < 2 → mzd_mul_vl_sse_128 c v B j = mzd_mul_vl_uint64 c v B 2 2 j := by
  intro j hj
  rw [mzd_mul_vl_uint64_val c v B 2 2 hB0 hv, if_pos hj, bselParts_two]
  simp only [mzd_mul_vl_sse_128]
  rw [store2_lane _ _ j hj, lane_w128_xor, vlSse128Loop_lane B j hj,
    vlSse128Loop_lane B j hj]
  simp [lane_zero128]

/-- The 128-bit SSE and NEON lookup add-multiply kernels agree with the
scalar lookup kernel. -/
theorem vl128_addmul_eq (c v : Nat → word) (B : Nat → Nat → word)
    (hB0 : ∀ s j', B (256 * s) j' = 0) (hv : ∀ q, q < 2 → v q < 2 ^ 64) :
    ∀ j, j < 2 → mzd_addmul_vl_sse_128 c v B j = mzd_addmul_vl_uint64 c v B 2 2 j := by
  intro j hj
  rw [mzd_addmul_vl_uint64_val c v B 2 2 hB0 hv, if_pos hj, bselParts_two]
  simp only [mzd_addmul_vl_sse_128]
  rw [store2_lane _ _ j hj, lane_w128_xor, vlSse128Loop_lane B j hj,
    vlSse128Loop_lane B j hj, ld128_lane c j hj]
  simp [lane_zero128, Nat.xor_assoc]

/-- The 192-bit SSE, AVX and NEON lookup multiply kernels agree with the
scalar lookup kernel, given a table whose padding word is zero. -/
theorem vl192_mul_eq (c v : Nat → word) (B : Nat → Nat → word)
    (hB0 : ∀ s j', B (256 * s) j' = 0) (hv : ∀ q, q < 3 → v q < 2 ^ 64)
    (hpad : ∀ r, r < 6144 → B r 3 = 0) :
    ∀ j, j < 4 → mzd_mul_vl_sse_192 c v B j = mzd_mul_vl_uint64 c v B 3 3 j := by
  intro j hj
  rw [mzd_mul_vl_uint64_val c v B 3 3 hB0 hv]
  simp only [mzd_mul_vl_sse_192]
  rw [store4_lane _ _ j hj, lane_w256_xor, vlSse192Loop_lane B j hj,
    vlSse192Loop_lane B j hj, vlSse192Loop_lane B j hj]
  by_cases h3 : j < 3
  · rw [if_pos h3, bselParts_three]
    simp [lane_zero256, Nat.xor_assoc]
  · have hj3 : j = 3 := by omega
    subst hj3
    rw [if_neg h3,
      bsum_pad_zero B 6144 hpad (2 * 4) 0 (v 0) (by norm_num),
      bsum_pad_zero B 6144 hpad (2 * 4) 2048 (v 1) (by norm_num),
      bsum_pad_zero B 6144 hpad (2 * 4) 4096 (v 2) (by norm_num)]
    simp [lane_zero256]

/-- The 192-bit SSE, AVX and NEON lookup add-multiply kernels agree with the
scalar lookup kernel, given a table whose padding word is zero. -/
theorem vl192_addmul_eq (c v : Nat → word) (B : Nat → Nat → word)
    (hB0 : ∀ s j', B (256 * s) j' = 0) (hv : ∀ q, q < 3 → v q < 2 ^ 64)
    (hpad : ∀ r, r < 6144 → B r 3 = 0) :
    ∀ j, j < 4 → mzd_addmul_vl_sse_192 c v B j = mzd_addmul_vl_uint64 c v B 3 3 j := by
  intro j hj
  rw [mzd_addmul_vl_uint64_val c v B 3 3 hB0 hv]
  simp only [mzd_addmul_vl_sse_192]
  rw [store4_lane _ _ j hj, lane_w256_xor, vlSse192Loop_lane B j hj,
    vlSse192Loop_lane B j hj, vlSse192Loop_lane B j hj, ld256_lane c j hj]
  by_cases h3 : j < 3
  · rw [if_pos h3, bselParts_three]
    simp [lane_zero256, Nat.xor_assoc]
  · have hj3 : j = 3 := by omega
    subst hj3
    rw [if_neg h3,
      bsum_pad_zero B 6144 hpad (2 * 4) 0 (v 0) (by norm_num),
      bsum_pad_zero B 6144 hpad (2 * 4) 2048 (v 1) (by norm_num),
      bsum_pad_zero B 6144 hpad (2 * 4) 4096 (v 2) (by norm_num)]
    simp [lane_zero256]

/-- The 256-bit SSE, AVX and NEON lookup multiply kernels agree with the
scalar lookup kernel. -/
theorem vl256_mul_eq (c v : Nat → word) (B : Nat → Nat → word)
    (hB0 : ∀ s j', B (256 * s) j' = 0) (hv : ∀ q, q < 4 → v q < 2 ^ 64) :
    ∀ j, j < 4 → mzd_mul_vl_sse_256 c v B j = mzd_mul_vl_uint64 c v B 4 4 j := by
  intro j hj
  rw [mzd_mul_vl_uint64_val c v B 4 4 hB0 hv, if_pos hj, bselParts_four]
  simp only [mzd_mul_vl_sse_256]
  rw [store4_lane _ _ j hj, lane_w256_xor, vlSse192Loop_lane B j hj,
    vlSse192Loop_lane B j hj, vlSse192Loop_lane B j hj, vlSse192Loop_lane B j hj]
  simp [lane_zero256, Nat.xor_assoc]

/-- The 256-bit SSE, AVX and NEON lookup add-multiply kernels agree with the
scalar lookup kernel. -/
theorem vl256_addmul_eq (c v : Nat → word) (B : Nat → Nat → word)
    (hB0 : ∀ s j', B (256 * s) j' = 0) (hv : ∀ q, q < 4 → v q < 2 ^ 64) :
    ∀ j, j < 4 → mzd_addmul_vl_sse_256 c v B j = mzd_addmul_vl_uint64 c v B 4 4 j := by
  intro j hj
  rw [mzd_addmul_vl_uint64_val c v B 4 4 hB0 hv, if_pos hj, bselParts_four]
  simp only [mzd_addmul_vl_sse_256]
  rw [store4_lane _ _ j hj, lane_w256_xor, vlSse192Loop_lane B j hj,
    vlSse192Loop_lane B j hj, vlSse192Loop_lane B j hj, vlSse192Loop_lane B j hj,
    ld256_lane c j hj]
  simp [lane_zero256, Nat.xor_assoc]

/-- The AVX 128-bit lookup multiply kernel agrees with the scalar lookup
kernel. -/
theorem vlavx128_mul_eq (c v : Nat → word) (B : Nat → Nat → word)
    (hB0 : ∀ s j', B (256 * s) j' = 0) (hv : ∀ q, q < 2 → v q < 2 ^ 64) :
    ∀ j, j < 2 → mzd_mul_vl_avx_128 c v B j = mzd_mul_vl_uint64 c v B 2 2 j := by
  intro j hj
  rw [mzd_mul_vl_uint64_val c v B 2 2 hB0 hv, if_pos hj, bselParts_two]
  simp only [mzd_mul_vl_avx_128]
  rw [store2_lane _ _ j hj]
  have hx : ∀ (x : w256), (w128.mk (x.w0 ^^^ x.w2) (x.w1 ^^^ x.w3)).lane j =
      x.lane j ^^^ x.lane (j + 2) := by
    intro x
    interval_cases j <;> simp [w128.lane, w256.lane]
  rw [hx, lane_w256_xor, lane_w256_xor, vlAvx128Loop_lane B j hj,
    vlAvx128Loop_lane B j hj]
  simp [lane_zero256]

/-- The AVX 128-bit lookup add-multiply kernel agrees with the scalar lookup
kernel. -/
theorem vlavx128_addmul_eq (c v : Nat → word) (B : Nat → Nat → word)
    (hB0 : ∀ s j', B (256 * s) j' = 0) (hv : ∀ q, q < 2 → v q < 2 ^ 64) :
    ∀ j, j < 2 → mzd_addmul_vl_avx_128 c v B j = mzd_addmul_vl_uint64 c v B 2 2 j := by
  intro j hj
  rw [mzd_addmul_vl_uint64_val c v B 2 2 hB0 hv, if_pos hj, bselParts_two]
  simp only [mzd_addmul_vl_avx_128]
  rw [store2_lane _ _ j hj]
  have hx : ∀ (x : w256), (w128.mk (x.w0 ^^^ x.w2) (x.w1 ^^^ x.w3)).lane j =
      x.lane j ^^^ x.lane (j + 2) := by
    intro x
    interval_cases j <;> simp [w128.lane, w256.lane]
  rw [hx, lane_w256_xor, lane_w256_xor, vlAvx128Loop_lane B j hj,
    vlAvx128Loop_lane B j hj]
  have hc : w256.lane ⟨c 0, c 1, 0, 0⟩ j = c j := by
    interval_cases j <;> simp [w256.lane]
  have hc2 : w256.lane ⟨c 0, c 1, 0, 0⟩ (j + 2) = 0 := by
    interval_cases j <;> simp [w256.lane]
  rw [hc, hc2]
  simp [lane_zero256, Nat.xor_assoc]

/-! ### Correctness of the precomputed lookup table (C3) -/

theorem wsum_zero_word (r : Nat → word) : ∀ n, wsum 0 r n = 0 := by
  intro n
  induction n generalizing r with
  | zero => rfl
  | succ n ih =>
      simp only [wsum, bitMask, neg64_zero]
      rw [Nat.zero_shiftRight, ih]
      simp [Nat.zero_and, neg64_zero]

theorem two_pow_succ_sub_one_and_one (n : Nat) : (2 ^ (n + 1) - 1) &&& 1 = 1 := by
  rw [Nat.and_one_is_mod]
  have hp : 0 < 2 ^ n := pow_pos (by norm_num) n
  have h2 : (2 : Nat) ^ (n + 1) = 2 ^ n * 2 := by rw [pow_succ]
  omega

theorem two_pow_succ_sub_one_shr (n : Nat) : (2 ^ (n + 1) - 1) >>> 1 = 2 ^ n - 1 := by
  rw [Nat.shiftRight_eq_div_pow, pow_one]
  have hp : 0 < 2 ^ n := pow_pos (by norm_num) n
  have h2 : (2 : Nat) ^ (n + 1) = 2 ^ n * 2 := by rw [pow_succ]
  omega

theorem wsum_and_mask (idx : word) (r : Nat → word) :
    ∀ n, wsum (idx &&& (2 ^ n - 1)) r n = wsum idx r n := by
  intro n
  induction n generalizing idx r with
  | zero => rfl
  | succ n ih =>
      simp only [wsum, bitMask]
      rw [Nat.and_assoc, two_pow_succ_sub_one_and_one,
        shiftRight_and_distrib, two_pow_succ_sub_one_shr, ih]

theorem combXor_eq_wsum (A : Nat → Nat → word) (j : Nat)
    (hA : ∀ off, A off j < 2 ^ 64) :
    ∀ (n comb : Nat), comb < 2 ^ n → ∀ off,
      combXor A off comb j = wsum comb (fun b => A (off + b) j) n := by
  intro n
  induction n with
  | zero =>
      intro comb hc off
      have h0 : comb = 0 := by
        have h1 : (2 : Nat) ^ 0 = 1 := by norm_num
        rw [h1] at hc
        exact Nat.lt_one_iff.mp hc
      rw [combXor, dif_pos h0, h0]
      rfl
  | succ n ih =>
      intro comb hc off
      by_cases h0 : comb = 0
      · rw [combXor, dif_pos h0, h0, wsum_zero_word]
      · rw [combXor, dif_neg h0]
        have hsh : comb >>> 1 < 2 ^ n := by
          rw [Nat.shiftRight_eq_div_pow, pow_one]
          have h2 : (2 : Nat) ^ (n + 1) = 2 ^ n * 2 := by rw [pow_succ]
          omega
        rw [ih (comb >>> 1) hsh (off + 1)]
        simp only [wsum]
        rw [and_bitMask _ _ (hA (off + 0)), Nat.add_zero]
        congr 1
        exact wsum_congr _ _ _ n (fun b _ =>
          show A (off + 1 + b) j = A (off + (b + 1)) j by congr 1; omega)

theorem precompute_comb0 (A : Nat → Nat → word) (len : Nat) :
    ∀ s j', mzd_precompute_matrix_lookup A len (256 * s) j' = 0 := by
  intro s j'
  simp only [mzd_precompute_matrix_lookup]
  by_cases h : j' < len
  · rw [if_pos h]
    have hc : (256 * s) &&& 255 = 0 := by
      rw [and255_eq_mod]
      omega
    rw [hc, combXor, dif_pos rfl]
  · rw [if_neg h]

theorem bsum_precompute (A : Nat → Nat → word) (len k j : Nat) (hj : j < len)
    (hA : ∀ i j', A i j' < 2 ^ 64) :
    ∀ (n t : Nat) (idx : word),
      bsum (mzd_precompute_matrix_lookup A len) j (2048 * k + 256 * t) idx n =
        wsum idx (fun i => A (64 * k + 8 * t + i) j) (8 * n) := by
  intro n
  induction n with
  | zero =>
      intro t idx
      rw [show (8 : Nat) * 0 = 0 from rfl]
      rfl
  | succ n ih =>
      intro t idx
      simp only [bsum]
      have hcomb : idx &&& 255 < 256 := by
        rw [and255_eq_mod]
        exact Nat.mod_lt _ (by norm_num)
      have hrow : mzd_precompute_matrix_lookup A len
          (2048 * k + 256 * t + (idx &&& 255)) j =
            wsum idx (fun b => A (64 * k + 8 * t + b) j) 8 := by
        simp only [mzd_precompute_matrix_lookup, if_pos hj]
        have e1 : (2048 * k + 256 * t + (idx &&& 255)) >>> 8 = 8 * k + t := by
          rw [Nat.shiftRight_eq_div_pow]
          rw [show (2 : Nat) ^ 8 = 256 from by norm_num, and255_eq_mod]
          omega
        have e2 : (2048 * k + 256 * t + (idx &&& 255)) &&& 255 = idx &&& 255 := by
          rw [and255_eq_mod, and255_eq_mod]
          omega
        have e3 : (8 * k + t) <<< 3 = 64 * k + 8 * t := by
          rw [Nat.shiftLeft_eq]
          rw [show (2 : Nat) ^ 3 = 8 from by norm_num]
          ring
        rw [e1, e2, e3,
          combXor_eq_wsum A j (fun off => hA off j) 8 (idx &&& 255)
            (by rw [show (2 : Nat) ^ 8 = 256 from by norm_num]; exact hcomb)]
        rw [show (255 : Nat) = 2 ^ 8 - 1 from by norm_num, wsum_and_mask]
      rw [hrow]
      have e4 : 2048 * k + 256 * t + 256 = 2048 * k + 256 * (t + 1) := by ring
      rw [e4, ih (t + 1) (idx >>> 8)]
      rw [show 8 * (n + 1) = 8 + 8 * n from by ring, wsum_add]
      congr 1
      exact wsum_congr _ _ _ _ (fun i _ =>
        show A (64 * k + 8 * (t + 1) + i) j = A (64 * k + 8 * t + (8 + i)) j by
          congr 1; ring)

theorem bselParts_eq_selPart (A : Nat → Nat → word) (len : Nat) (v : Nat → word)
    (j : Nat) (hj : j < len) (hA : ∀ i j', A i j' < 2 ^ 64) :
    ∀ (w k : Nat),
      bselParts v (mzd_precompute_matrix_lookup A len) j k w =
        selPart (fun q => v (k + q)) (fun i => A (64 * k + i)) j w := by
  intro w
  induction w with
  | zero => intro k; rfl
  | succ w ih =>
      intro k
      simp only [bselParts, selPart]
      have h1 : bsum (mzd_precompute_matrix_lookup A len) j (2048 * k) (v k) 8 =
          wsum (v k) (fun i => A (64 * k + i) j) 64 := by
        have := bsum_precompute A len k j hj hA 8 0 (v k)
        rw [show 2048 * k + 256 * 0 = 2048 * k from by ring] at this
        rw [this, show (8 : Nat) * 8 = 64 from rfl]
        exact wsum_congr _ _ _ 64 (fun i _ =>
          show A (64 * k + 8 * 0 + i) j = A (64 * k + i) j by norm_num)
      rw [h1, ih (k + 1)]
      have e : selPart (fun q => v (k + 1 + q)) (fun i => A (64 * (k + 1) + i)) j w =
          selPart (fun q => v (k + (q + 1))) (fun i => A (64 * k + (64 + i))) j w :=
        selPart_congr _ _ _ _ j w
          (fun q _ => show v (k + 1 + q) = v (k + (q + 1)) by congr 1; omega)
          (fun i _ j' => show A (64 * (k + 1) + i) j' = A (64 * k + (64 + i)) j' by
            have h64 : 64 * (k + 1) + i = 64 * k + (64 + i) := by ring
            rw [h64])
      rw [e]
      simp only [Nat.add_zero]

/-- C3.  The lookup-table multiply through the precomputed table agrees with
the direct multiply: mul_vl (and addmul_vl) applied to
mzd_precompute_matrix_lookup A computes exactly what mul_v (addmul_v)
computes on A, and each table row for block kk and byte value combo is the
xor of rows 8 kk + bit of A over the set bits of combo. -/
theorem mzd_mul_vl_uint64_matches_direct (c v : Nat → word) (A : Nat → Nat → word)
    (width len : Nat) (hA : ∀ i j', A i j' < 2 ^ 64)
    (hv : ∀ q, q < width → v q < 2 ^ 64) :
    (∀ j, mzd_mul_vl_uint64 c v (mzd_precompute_matrix_lookup A len) width len j =
        mzd_mul_v_uint64 c v A width len j) ∧
      (∀ j, mzd_addmul_vl_uint64 c v (mzd_precompute_matrix_lookup A len) width len j =
        mzd_addmul_v_uint64 c v A width len j) ∧
      (∀ kk combo j, combo < 256 → j < len →
        mzd_precompute_matrix_lookup A len (256 * kk + combo) j =
          lookupRowSpec A kk combo j) := by
  have hB0 := precompute_comb0 A len
  have key : ∀ j, j < len →
      bselParts v (mzd_precompute_matrix_lookup A len) j 0 width =
        selPart v A j width := by
    intro j hj
    rw [bselParts_eq_selPart A len v j hj hA width 0]
    exact selPart_congr _ _ _ _ j width (fun q _ => by rw [Nat.zero_add])
      (fun i _ j' => by rw [Nat.mul_zero, Nat.zero_add])
  refine ⟨?_, ?_, ?_⟩
  · intro j
    rw [mzd_mul_vl_uint64_val _ _ _ _ _ hB0 hv, mzd_mul_v_uint64_val]
    by_cases h : j < len
    · rw [if_pos h, if_pos h, key j h]
    · rw [if_neg h, if_neg h]
  · intro j
    rw [mzd_addmul_vl_uint64_val _ _ _ _ _ hB0 hv, mzd_addmul_v_uint64_val]
    by_cases h : j < len
    · rw [if_pos h, if_pos h, key j h]
    · rw [if_neg h, if_neg h]
  · intro kk combo j hc hj
    simp only [mzd_precompute_matrix_lookup, if_pos hj]
    have e1 : (256 * kk + combo) >>> 8 = kk := by
      rw [Nat.shiftRight_eq_div_pow, show (2 : Nat) ^ 8 = 256 from by norm_num]
      omega
    have e2 : (256 * kk + combo) &&& 255 = combo := by
      rw [and255_eq_mod]
      omega
    have e3 : kk <<< 3 = 8 * kk := by
      rw [Nat.shiftLeft_eq, show (2 : Nat) ^ 3 = 8 from by norm_num]
      ring
    rw [e1, e2, e3,
      combXor_eq_wsum A j (fun off => hA off j) 8 combo
        (by rw [show (2 : Nat) ^ 8 = 256 from by norm_num]; exact hc),
      wsum_eq_ifSum combo (fun b => A (8 * kk + b) j) 8 (fun b _ => hA (8 * kk + b) j)]
    rfl

/-- Witness for C3 at concrete inputs. -/
theorem mzd_mul_vl_uint64_matches_direct_witness :
    (∀ i j', AW i j' < 2 ^ 64) ∧ (∀ q, q < 1 → vW q < 2 ^ 64) ∧
      (mzd_mul_vl_uint64 cW vW (mzd_precompute_matrix_lookup AW 1) 1 1 0 =
        mzd_mul_v_uint64 cW vW AW 1 1 0) ∧
      (mzd_precompute_matrix_lookup AW 1 (256 * 0 + 5) 0 = lookupRowSpec AW 0 5 0) := by
  have hA : ∀ i j', AW i j' < 2 ^ 64 := by
    intro i j'
    calc AW i j' < 32 := Nat.mod_lt _ (by decide)
      _ < 2 ^ 64 := by decide
  have hv : ∀ q, q < 1 → vW q < 2 ^ 64 := by
    intro q hq
    interval_cases q
    decide
  have h := mzd_mul_vl_uint64_matches_direct cW vW AW 1 1 hA hv
  exact ⟨hA, hv, h.1 0, h.2.2 0 5 0 (by decide) (by decide)⟩

/-! ### Parity-dot kernel lemmas (C8) -/

theorem testBit_le_one_pos (p : Nat) (hp : p ≤ 1) (d : Nat) (hd : 1 ≤ d) :
    p.testBit d = false := by
  interval_cases p
  · exact Nat.zero_testBit d
  · obtain ⟨e, he⟩ : ∃ e, d = e + 1 := ⟨d - 1, by omega⟩
    subst he
    rw [Nat.testBit_succ]
    exact Nat.zero_testBit e

theorem testBit_zero_le_one (p : Nat) (hp : p ≤ 1) :
    (p.testBit 0 = true) ↔ p = 1 := by
  interval_cases p <;> simp [Nat.testBit_zero]

theorem parityLoop_or (p : Nat → word) (k : Nat) :
    ∀ (i : Nat) (res : word), parityLoop p k i res = res ||| parityAcc p k i := by
  intro i
  induction i with
  | zero => intro res; simp [parityLoop, parityAcc]
  | succ i ih =>
      intro res
      simp only [parityLoop, parityAcc]
      rw [ih, Nat.or_assoc]
      congr 1
      rw [Nat.or_comm]

theorem parityAcc_testBit_low (p : Nat → word) (k : Nat) :
    ∀ i, ∀ b, b < 64 - i → (parityAcc p k i).testBit b = false := by
  intro i
  induction i with
  | zero => intro b _; exact Nat.zero_testBit b
  | succ i ih =>
      intro b hb
      simp only [parityAcc]
      rw [Nat.testBit_or, ih b (by omega), Nat.testBit_shiftLeft]
      simp only [Bool.false_or]
      rw [decide_eq_false (by omega : ¬ (64 - (i + 1) ≤ b))]
      simp

theorem parityAcc_testBit_set (p : Nat → word) (k : Nat) (hp : ∀ r, p r ≤ 1) :
    ∀ i, i ≤ 64 → ∀ m, 1 ≤ m → m ≤ i →
      (((parityAcc p k i).testBit (64 - m) = true) ↔ p (k - m) = 1) := by
  intro i
  induction i with
  | zero => intro _ m hm1 hm2; omega
  | succ i ih =>
      intro hi m hm1 hm2
      simp only [parityAcc]
      rw [Nat.testBit_or]
      by_cases hmi : m = i + 1
      · subst hmi
        rw [parityAcc_testBit_low p k i (64 - (i + 1)) (by omega)]
        rw [Nat.testBit_shiftLeft, decide_eq_true (by omega : 64 - (i + 1) ≤ 64 - (i + 1))]
        simp only [Bool.false_or, Bool.true_and, Nat.sub_self]
        exact testBit_zero_le_one _ (hp _)
      · have hm3 : m ≤ i := by omega
        have hsl : (p (k - (i + 1)) <<< (64 - (i + 1))).testBit (64 - m) = false := by
          rw [Nat.testBit_shiftLeft, decide_eq_true (by omega : 64 - (i + 1) ≤ 64 - m),
            show 64 - m - (64 - (i + 1)) = i + 1 - m from by omega,
            testBit_le_one_pos _ (hp _) (i + 1 - m) (by omega)]
          simp
        rw [hsl, Bool.or_false]
        exact ih (by omega) m hm1 hm3

theorem parityKernel_bits (p : Nat → word) (hp : ∀ r, p r ≤ 1) (k : Nat)
    (hk : k ≤ 64) :
    (∀ r, r < k →
        (((parityLoop p k k 0).testBit (64 - k + r) = true) ↔ p r = 1)) ∧
      (∀ b, b < 64 - k → (parityLoop p k k 0).testBit b = false) := by
  rw [parityLoop_or, Nat.zero_or]
  constructor
  · intro r hr
    have h := parityAcc_testBit_set p k hp k hk (k - r) (by omega) (by omega)
    rw [show 64 - (k - r) = 64 - k + r from by omega,
      show k - (k - r) = r from by omega] at h
    exact h
  · intro b hb
    exact parityAcc_testBit_low p k k b hb

theorem parity64_uint64_le_one (x : word) : parity64_uint64 x ≤ 1 := by
  by_cases h : parityBits x 64 <;> simp [parity64_uint64, h]

/-- C8 (amended).  Each parity kernel zeroes the low words, leaves the words
past the last untouched, and writes bit 64 - k + i (not bit 63 - i) of the
last word to the parity of the and of v with row i of At, for i below k;
bits 0 through 63 - k of the last word are zero. -/
theorem mzd_mul_v_parity_top_bits (c v : Nat → word) (At : Nat → Nat → word) :
    ((mzd_mul_v_parity_uint64_128_30 c v At 0 = 0) ∧
      (∀ r, r < 30 →
        (((mzd_mul_v_parity_uint64_128_30 c v At 1).testBit (34 + r) = true) ↔
          parity64_uint64 (dotWords v (At r) 2) = 1)) ∧
      (∀ b, b < 34 → (mzd_mul_v_parity_uint64_128_30 c v At 1).testBit b = false) ∧
      (∀ j, 1 < j → mzd_mul_v_parity_uint64_128_30 c v At j = c j)) ∧
    ((∀ j, j < 2 → mzd_mul_v_parity_uint64_192_30 c v At j = 0) ∧
      (∀ r, r < 30 →
        (((mzd_mul_v_parity_uint64_192_30 c v At 2).testBit (34 + r) = true) ↔
          parity64_uint64 (dotWords v (At r) 3) = 1)) ∧
      (∀ b, b < 34 → (mzd_mul_v_parity_uint64_192_30 c v At 2).testBit b = false) ∧
      (∀ j, 2 < j → mzd_mul_v_parity_uint64_192_30 c v At j = c j)) ∧
    ((∀ j, j < 3 → mzd_mul_v_parity_uint64_256_30 c v At j = 0) ∧
      (∀ r, r < 30 →
        (((mzd_mul_v_parity_uint64_256_30 c v At 3).testBit (34 + r) = true) ↔
          parity64_uint64 (dotWords v (At r) 4) = 1)) ∧
      (∀ b, b < 34 → (mzd_mul_v_parity_uint64_256_30 c v At 3).testBit b = false) ∧
      (∀ j, 3 < j → mzd_mul_v_parity_uint64_256_30 c v At j = c j)) ∧
    ((mzd_mul_v_parity_uint64_128_3 c v At 0 = 0) ∧
      (∀ r, r < 3 →
        (((mzd_mul_v_parity_uint64_128_3 c v At 1).testBit (61 + r) = true) ↔
          parity64_uint64 (dotWords v (At r) 2) = 1)) ∧
      (∀ b, b < 61 → (mzd_mul_v_parity_uint64_128_3 c v At 1).testBit b = false) ∧
      (∀ j, 1 < j → mzd_mul_v_parity_uint64_128_3 c v At j = c j)) ∧
    ((∀ j, j < 2 → mzd_mul_v_parity_uint64_192_3 c v At j = 0) ∧
      (∀ r, r < 3 →
        (((mzd_mul_v_parity_uint64_192_3 c v At 2).testBit (61 + r) = true) ↔
          parity64_uint64 (dotWords v (At r) 3) = 1)) ∧
      (∀ b, b < 61 → (mzd_mul_v_parity_uint64_192_3 c v At 2).testBit b = false) ∧
      (∀ j, 2 < j → mzd_mul_v_parity_uint64_192_3 c v At j = c j)) ∧
    ((∀ j, j < 3 → mzd_mul_v_parity_uint64_256_3 c v At j = 0) ∧
      (∀ r, r < 3 →
        (((mzd_mul_v_parity_uint64_256_3 c v At 3).testBit (61 + r) = true) ↔
          parity64_uint64 (dotWords v (At r) 4) = 1)) ∧
      (∀ b, b < 61 → (mzd_mul_v_parity_uint64_256_3 c v At 3).testBit b = false) ∧
      (∀ j, 3 < j → mzd_mul_v_parity_uint64_256_3 c v At j = c j)) := by
  have h30 : ∀ w, (∀ r, r < 30 →
        (((parityLoop (fun r => parity64_uint64 (dotWords v (At r) w)) 30 30 0).testBit
          (34 + r) = true) ↔ parity64_uint64 (dotWords v (At r) w) = 1)) ∧
      (∀ b, b < 34 →
        (parityLoop (fun r => parity64_uint64 (dotWords v (At r) w)) 30 30 0).testBit
          b = false) := by
    intro w
    have h := parityKernel_bits (fun r => parity64_uint64 (dotWords v (At r) w))
      (fun r => parity64_uint64_le_one _) 30 (by omega)
    refine ⟨fun r hr => ?_, fun b hb => h.2 b (by omega)⟩
    have := h.1 r hr
    rwa [show 64 - 30 + r = 34 + r from by omega] at this
  have h3 : ∀ w, (∀ r, r < 3 →
        (((parityLoop (fun r => parity64_uint64 (dotWords v (At r) w)) 3 3 0).testBit
          (61 + r) = true) ↔ parity64_uint64 (dotWords v (At r) w) = 1)) ∧
      (∀ b, b < 61 →
        (parityLoop (fun r => parity64_uint64 (dotWords v (At r) w)) 3 3 0).testBit
          b = false) := by
    intro w
    have h := parityKernel_bits (fun r => parity64_uint64 (dotWords v (At r) w))
      (fun r => parity64_uint64_le_one _) 3 (by omega)
    refine ⟨fun r hr => ?_, fun b hb => h.2 b (by omega)⟩
    have := h.1 r hr
    rwa [show 64 - 3 + r = 61 + r from by omega] at this
  refine ⟨⟨rfl, fun r hr => (h30 2).1 r hr, fun b hb => (h30 2).2 b hb,
      fun j hj => by
        simp only [mzd_mul_v_parity_uint64_128_30]
        rw [if_neg (by omega : ¬ j = 0), if_neg (by omega : ¬ j = 1)]⟩,
    ⟨fun j hj => by
        simp only [mzd_mul_v_parity_uint64_192_30]
        rw [if_pos hj],
      fun r hr => (h30 3).1 r hr, fun b hb => (h30 3).2 b hb,
      fun j hj => by
        simp only [mzd_mul_v_parity_uint64_192_30]
        rw [if_neg (by omega : ¬ j < 2), if_neg (by omega : ¬ j = 2)]⟩,
    ⟨fun j hj => by
        simp only [mzd_mul_v_parity_uint64_256_30]
        rw [if_pos hj],
      fun r hr => (h30 4).1 r hr, fun b hb => (h30 4).2 b hb,
      fun j hj => by
        simp only [mzd_mul_v_parity_uint64_256_30]
        rw [if_neg (by omega : ¬ j < 3), if_neg (by omega : ¬ j = 3)]⟩,
    ⟨rfl, fun r hr => (h3 2).1 r hr, fun b hb => (h3 2).2 b hb,
      fun j hj => by
        simp only [mzd_mul_v_parity_uint64_128_3]
        rw [if_neg (by omega : ¬ j = 0), if_neg (by omega : ¬ j = 1)]⟩,
    ⟨fun j hj => by
        simp only [mzd_mul_v_parity_uint64_192_3]
        rw [if_pos hj],
      fun r hr => (h3 3).1 r hr, fun b hb => (h3 3).2 b hb,
      fun j hj => by
        simp only [mzd_mul_v_parity_uint64_192_3]
        rw [if_neg (by omega : ¬ j < 2), if_neg (by omega : ¬ j = 2)]⟩,
    ⟨fun j hj => by
        simp only [mzd_mul_v_parity_uint64_256_3]
        rw [if_pos hj],
      fun r hr => (h3 4).1 r hr, fun b hb => (h3 4).2 b hb,
      fun j hj => by
        simp only [mzd_mul_v_parity_uint64_256_3]
        rw [if_neg (by omega : ¬ j < 3), if_neg (by omega : ¬ j = 3)]⟩⟩

/-- Counterexample to C8 as stated: with only bit 0 of v set and only word 0
of row 0 of At equal to 1, the kernel writes bit 61 of the last word, while
the claim (bit 63 - i holds the parity against row i) demands bit 63, so the
produced last word differs from the claimed one. -/
theorem mzd_mul_v_parity_claim_counterexample :
    ¬ (mzd_mul_v_parity_uint64_128_3 cW vP AtP 1 = parityClaimSpec vP AtP 2 3) := by
  decide

/-- Witness for the amended C8 theorem at concrete inputs. -/
theorem mzd_mul_v_parity_top_bits_witness :
    (mzd_mul_v_parity_uint64_128_3 cW vP AtP 0 = 0) ∧
      (((mzd_mul_v_parity_uint64_128_3 cW vP AtP 1).testBit (61 + 0) = true) ↔
        parity64_uint64 (dotWords vP (AtP 0) 2) = 1) := by
  have h := mzd_mul_v_parity_top_bits cW vP AtP
  exact ⟨h.1.1, (h.2.2.2.1).2.1 0 (by decide)⟩

/-! ### Bit-level helper lemmas for the shuffle equivalence (C2) -/

theorem and2 (x y b c : Nat) (hb : b ≤ 1) (hc : c ≤ 1) :
    (2 * x + b) &&& (2 * y + c) = 2 * (x &&& y) + (b &&& c) := by
  apply Nat.eq_of_testBit_eq
  intro i
  cases i with
  | zero =>
      simp only [Nat.testBit_and, Nat.testBit_zero]
      interval_cases b <;> interval_cases c <;> simp [Nat.mul_add_mod]
  | succ i =>
      rw [Nat.testBit_and, Nat.testBit_succ, Nat.testBit_succ, Nat.testBit_succ]
      have e1 : (2 * x + b) / 2 = x := by omega
      have e2 : (2 * y + c) / 2 = y := by omega
      have hbc : b &&& c ≤ 1 := by interval_cases b <;> interval_cases c <;> decide
      have e3 : (2 * (x &&& y) + (b &&& c)) / 2 = x &&& y := by omega
      rw [e1, e2, e3, Nat.testBit_and]

theorem xor2 (x y b c : Nat) (hb : b ≤ 1) (hc : c ≤ 1) :
    (2 * x + b) ^^^ (2 * y + c) = 2 * (x ^^^ y) + (b ^^^ c) := by
  apply Nat.eq_of_testBit_eq
  intro i
  cases i with
  | zero =>
      simp only [Nat.testBit_xor, Nat.testBit_zero]
      interval_cases b <;> interval_cases c <;> simp [Nat.mul_add_mod] <;> omega
  | succ i =>
      rw [Nat.testBit_xor, Nat.testBit_succ, Nat.testBit_succ, Nat.testBit_succ]
      have e1 : (2 * x + b) / 2 = x := by omega
      have e2 : (2 * y + c) / 2 = y := by omega
      have hbc : b ^^^ c ≤ 1 := by interval_cases b <;> interval_cases c <;> decide
      have e3 : (2 * (x ^^^ y) + (b ^^^ c)) / 2 = x ^^^ y := by omega
      rw [e1, e2, e3, Nat.testBit_xor]

theorem shl_or (x y n : Nat) : (x ||| y) <<< n = x <<< n ||| y <<< n := by
  apply Nat.eq_of_testBit_eq
  intro i
  simp only [Nat.testBit_or, Nat.testBit_shiftLeft]
  by_cases h : n ≤ i <;> simp [h, Bool.and_or_distrib_left]

theorem two_pow_shl (a b : Nat) : (2 : Nat) ^ a <<< b = 2 ^ (a + b) := by
  rw [Nat.shiftLeft_eq, ← pow_add]

theorem popcount64_le (x : word) : ∀ n, popcount64 x n ≤ n := by
  intro n
  induction n with
  | zero => exact Nat.le_refl 0
  | succ n ih =>
      simp only [popcount64]
      split <;> omega

theorem popcount64_congr (x y : word) :
    ∀ n, (∀ i, i < n → x.testBit i = y.testBit i) →
      popcount64 x n = popcount64 y n := by
  intro n
  induction n with
  | zero => intro _; rfl
  | succ n ih =>
      intro h
      simp only [popcount64]
      rw [ih (fun i hi => h i (by omega)), h n (by omega)]

theorem popcount64_split (x : word) (m : Nat) :
    ∀ n, popcount64 x (m + n) = popcount64 x m + popcount64 (x >>> m) n := by
  intro n
  induction n with
  | zero => simp [popcount64]
  | succ n ih =>
      show popcount64 x (m + n + 1) = _
      simp only [popcount64]
      rw [ih, Nat.testBit_shiftRight]
      omega

theorem popcount64_shl_zero (m : word) (k : Nat) :
    ∀ n, n ≤ k → popcount64 (m <<< k) n = 0 := by
  intro n
  induction n with
  | zero => intro _; rfl
  | succ n ih =>
      intro h
      simp only [popcount64]
      rw [ih (by omega), Nat.testBit_shiftLeft,
        decide_eq_false (by omega : ¬ n ≥ k)]
      simp

theorem popcount64_zero_all (x : word) :
    ∀ n, popcount64 x n = 0 → ∀ i, i < n → x.testBit i = false := by
  intro n
  induction n with
  | zero => intro _ i hi; omega
  | succ n ih =>
      intro h i hi
      simp only [popcount64] at h
      by_cases hin : i = n
      · subst hin
        by_cases hb : x.testBit i
        · rw [if_pos hb] at h; omega
        · exact Bool.eq_false_iff.mpr hb
      · exact ih (by omega) i (by omega)

theorem pextW_succ (a mask : word) (n : Nat) :
    pextW a mask (n + 1) =
      pextW a mask n |||
        (if mask.testBit n && a.testBit n then 2 ^ popcount64 mask n else 0) :=
  rfl

theorem pextW_zero_mask (a : word) : ∀ n, pextW a 0 n = 0 := by
  intro n
  induction n with
  | zero => rfl
  | succ n ih =>
      simp only [pextW]
      rw [ih, Nat.zero_testBit]
      simp

theorem pextW_lt (a mask : word) :
    ∀ n, pextW a mask n < 2 ^ popcount64 mask n := by
  intro n
  induction n with
  | zero => exact Nat.one_pos
  | succ n ih =>
      simp only [pextW, popcount64]
      by_cases hm : mask.testBit n
      · rw [if_pos hm]
        apply Nat.or_lt_two_pow
        · exact Nat.lt_of_lt_of_le ih
            (Nat.pow_le_pow_right (by norm_num) (by omega))
        · split
          · exact Nat.pow_lt_pow_right (by norm_num) (by omega)
          · exact Nat.pos_pow_of_pos _ (by norm_num)
      · have hc : ¬ (mask.testBit n && a.testBit n) = true := by simp [hm]
        rw [if_neg hc, Nat.or_zero, if_neg hm]
        simpa using ih

theorem pextW_congr (a a' mask m' : word) :
    ∀ n, (∀ i, i < n → a.testBit i = a'.testBit i) →
      (∀ i, i < n → mask.testBit i = m'.testBit i) →
      pextW a mask n = pextW a' m' n := by
  intro n
  induction n with
  | zero => intro _ _; rfl
  | succ n ih =>
      intro ha hm
      simp only [pextW]
      rw [ih (fun i hi => ha i (by omega)) (fun i hi => hm i (by omega)),
        ha n (by omega), hm n (by omega),
        popcount64_congr mask m' n (fun i hi => hm i (by omega))]

theorem pextW_split (a mask : word) :
    ∀ n, pextW a mask (32 + n) =
      pextW a mask 32 |||
        (pextW (a >>> 32) (mask >>> 32) n <<< popcount64 mask 32) := by
  intro n
  induction n with
  | zero =>
      show pextW a mask 32 = _
      rw [show pextW (a >>> 32) (mask >>> 32) 0 = 0 from rfl,
        Nat.zero_shiftLeft, Nat.or_zero]
  | succ n ih =>
      show pextW a mask (32 + n + 1) = _
      have hbm : (mask >>> 32).testBit n = mask.testBit (32 + n) :=
        Nat.testBit_shiftRight mask
      have hba : (a >>> 32).testBit n = a.testBit (32 + n) :=
        Nat.testBit_shiftRight a
      have hift :
          (if (mask >>> 32).testBit n && (a >>> 32).testBit n then
              2 ^ popcount64 (mask >>> 32) n else 0) <<< popcount64 mask 32 =
            if mask.testBit (32 + n) && a.testBit (32 + n) then
              2 ^ popcount64 mask (32 + n) else 0 := by
        by_cases hcond : mask.testBit (32 + n) && a.testBit (32 + n)
        · rw [if_pos (show ((mask >>> 32).testBit n && (a >>> 32).testBit n) = true
              from by rw [hbm, hba]; exact hcond), if_pos hcond, two_pow_shl,
            popcount64_split mask 32 n, Nat.add_comm]
        · rw [if_neg (show ¬ ((mask >>> 32).testBit n && (a >>> 32).testBit n) = true
              from by rw [hbm, hba]; exact hcond), if_neg hcond, Nat.zero_shiftLeft]
      rw [pextW_succ a mask (32 + n), pextW_succ (a >>> 32) (mask >>> 32) n,
        ih, shl_or, hift, Nat.or_assoc]

theorem shl_succ (x l : Nat) : x <<< (l + 1) = 2 * (x <<< l) := by
  rw [Nat.shiftLeft_add, Nat.shiftLeft_eq (x <<< l) 1, pow_one, Nat.mul_comm]

theorem two_pow_sub_one_sub (n : Nat) :
    ∀ m, m < 2 ^ n → 2 ^ n - 1 - m = (2 ^ n - 1) ^^^ m := by
  induction n with
  | zero =>
      intro m hm
      interval_cases m
      decide
  | succ n ih =>
      intro m hm
      have h2 : (2 : Nat) ^ (n + 1) = 2 * 2 ^ n := by ring
      obtain ⟨q, b, hm2, hbl⟩ : ∃ q b, m = 2 * q + b ∧ b ≤ 1 :=
        ⟨m / 2, m % 2, by omega, by omega⟩
      have hqlt : q < 2 ^ n := by omega
      have e1 : 2 ^ (n + 1) - 1 - m = 2 * (2 ^ n - 1 - q) + (1 - b) := by omega
      have e2 : (2 : Nat) ^ (n + 1) - 1 = 2 * (2 ^ n - 1) + 1 := by omega
      rw [e1, e2, hm2, xor2 (2 ^ n - 1) q 1 b (by omega) hbl, ← ih q hqlt,
        show (1 : Nat) ^^^ b = 1 - b from by interval_cases b <;> decide]

theorem complement_and_self (n m : Nat) (hm : m < 2 ^ n) :
    m &&& (2 ^ n - 1 - m) = 0 := by
  rw [two_pow_sub_one_sub n m hm, Nat.and_xor_distrib_left,
    Nat.and_pow_two_sub_one_eq_mod, Nat.mod_eq_of_lt hm, Nat.and_self,
    Nat.xor_self]

theorem lowbit_and_neg : ∀ (l W m : Nat), (2 * m + 1) <<< l < 2 ^ W →
    ((2 * m + 1) <<< l) &&& (2 ^ W - (2 * m + 1) <<< l) = 2 ^ l := by
  intro l
  induction l with
  | zero =>
      intro W m h
      rw [Nat.shiftLeft_zero] at h ⊢
      obtain ⟨V, rfl⟩ : ∃ V, W = V + 1 := by
        cases W with
        | zero => exfalso; rw [pow_zero] at h; omega
        | succ V => exact ⟨V, rfl⟩
      have h2 : (2 : Nat) ^ (V + 1) = 2 * 2 ^ V := by ring
      have hpos := Nat.two_pow_pos V
      have e1 : 2 ^ (V + 1) - (2 * m + 1) = 2 * (2 ^ V - 1 - m) + 1 := by omega
      rw [e1, and2 m (2 ^ V - 1 - m) 1 1 (by omega) (by omega),
        complement_and_self V m (by omega)]
      decide
  | succ l ih =>
      intro W m h
      have hX1 : 1 ≤ (2 * m + 1) <<< l := by
        rw [Nat.shiftLeft_eq]
        exact Nat.mul_pos (by omega) (Nat.two_pow_pos l)
      rw [shl_succ] at h ⊢
      obtain ⟨V, rfl⟩ : ∃ V, W = V + 1 := by
        cases W with
        | zero => exfalso; rw [pow_zero] at h; omega
        | succ V => exact ⟨V, rfl⟩
      have h2 : (2 : Nat) ^ (V + 1) = 2 * 2 ^ V := by ring
      have hXV : (2 * m + 1) <<< l < 2 ^ V := by omega
      have e1 : 2 ^ (V + 1) - 2 * ((2 * m + 1) <<< l) =
          2 * (2 ^ V - (2 * m + 1) <<< l) := by omega
      have h4 := and2 ((2 * m + 1) <<< l) (2 ^ V - (2 * m + 1) <<< l) 0 0
        (by omega) (by omega)
      simp only [Nat.add_zero, Nat.and_zero] at h4
      rw [e1, h4, ih V m hXV, pow_succ, Nat.mul_comm]

theorem lowbit_clear : ∀ (l m : Nat),
    ((2 * m + 1) <<< l) &&& (((2 * m + 1) <<< l) - 1) = m <<< (l + 1) := by
  intro l
  induction l with
  | zero =>
      intro m
      rw [Nat.shiftLeft_zero,
        show 2 * m + 1 - 1 = 2 * m + 0 from by omega,
        and2 m m 1 0 (by omega) (by omega), Nat.and_self, Nat.shiftLeft_eq,
        pow_one, show (1 : Nat) &&& 0 = 0 from rfl, Nat.mul_comm,
        Nat.add_zero]
  | succ l ih =>
      intro m
      have hX1 : 1 ≤ (2 * m + 1) <<< l := by
        rw [Nat.shiftLeft_eq]
        exact Nat.mul_pos (by omega) (Nat.two_pow_pos l)
      rw [shl_succ,
        show 2 * ((2 * m + 1) <<< l) - 1 = 2 * (((2 * m + 1) <<< l) - 1) + 1
          from by omega]
      have h4 := and2 ((2 * m + 1) <<< l) (((2 * m + 1) <<< l) - 1) 0 1
        (by omega) (by omega)
      simp only [Nat.add_zero] at h4
      rw [h4, ih m, show (0 : Nat) &&& 1 = 0 from rfl, Nat.add_zero,
        shl_succ m (l + 1)]

theorem testBit_shl_odd (m l : Nat) : ((2 * m + 1) <<< l).testBit l = true := by
  simp [Nat.testBit_shiftLeft, Nat.testBit_zero, Nat.mul_add_mod]

theorem popcount64_lowbit (m l : Nat) :
    ∀ n, popcount64 ((2 * m + 1) <<< l) n =
      popcount64 (m <<< (l + 1)) n + (if l < n then 1 else 0) := by
  intro n
  induction n with
  | zero => simp [popcount64]
  | succ n ih =>
      simp only [popcount64]
      rw [ih, Nat.testBit_shiftLeft, Nat.testBit_shiftLeft]
      rcases Nat.lt_trichotomy n l with hc | hc | hc
      · rw [decide_eq_false (by omega : ¬ n ≥ l),
          decide_eq_false (by omega : ¬ n ≥ l + 1)]
        simp only [Bool.false_and]
        rw [if_neg (by omega : ¬ l < n), if_neg (by omega : ¬ l < n + 1)]
        simp
      · subst hc
        rw [decide_eq_true (by omega : n ≥ n),
          decide_eq_false (by omega : ¬ n ≥ n + 1), Nat.sub_self,
          show (2 * m + 1).testBit 0 = true from by
            simp [Nat.testBit_zero, Nat.mul_add_mod]]
        simp only [Bool.true_and, Bool.false_and]
        simp
      · rw [decide_eq_true (by omega : n ≥ l),
          decide_eq_true (by omega : n ≥ l + 1),
          show n - l = (n - (l + 1)) + 1 from by omega, Nat.testBit_succ,
          show (2 * m + 1) / 2 = m from by omega]
        simp only [Bool.true_and]
        rw [if_pos (by omega : l < n), if_pos (by omega : l < n + 1)]
        omega

theorem pextW_lowbit (a m l : Nat) :
    ∀ n, pextW a ((2 * m + 1) <<< l) n =
      (if l < n ∧ a.testBit l = true then 1 else 0) |||
        (pextW a (m <<< (l + 1)) n <<< 1) := by
  intro n
  induction n with
  | zero =>
      rw [if_neg (fun hcon => absurd hcon.1 (by omega) :
        ¬ (l < 0 ∧ a.testBit l = true))]
      simp [pextW]
  | succ n ih =>
      rw [pextW_succ a ((2 * m + 1) <<< l) n, pextW_succ a (m <<< (l + 1)) n, ih]
      rcases Nat.lt_trichotomy n l with hc | hc | hc
      · have hbX : ((2 * m + 1) <<< l).testBit n = false := by
          rw [Nat.testBit_shiftLeft, decide_eq_false (by omega : ¬ n ≥ l)]
          simp
        have hbY : (m <<< (l + 1)).testBit n = false := by
          rw [Nat.testBit_shiftLeft, decide_eq_false (by omega : ¬ n ≥ l + 1)]
          simp
        rw [hbX, hbY]
        rw [if_neg (fun hcon => absurd hcon.1 (by omega) :
            ¬ (l < n ∧ a.testBit l = true)),
          if_neg (fun hcon => absurd hcon.1 (by omega) :
            ¬ (l < n + 1 ∧ a.testBit l = true))]
        simp
      · subst hc
        rw [testBit_shl_odd m n]
        have hbY : (m <<< (n + 1)).testBit n = false := by
          rw [Nat.testBit_shiftLeft, decide_eq_false (by omega : ¬ n ≥ n + 1)]
          simp
        rw [hbY, popcount64_shl_zero (2 * m + 1) n n (Nat.le_refl n)]
        by_cases hb : a.testBit n
        · rw [hb, if_neg (fun hcon => absurd hcon.1 (Nat.lt_irrefl n) :
              ¬ (n < n ∧ true = true)),
            if_pos (⟨Nat.lt_succ_self n, rfl⟩ : n < n + 1 ∧ true = true)]
          simp [Nat.or_comm]
        · have hb0 : a.testBit n = false := Bool.eq_false_iff.mpr hb
          rw [hb0, if_neg (fun hcon => Bool.false_ne_true hcon.2 :
              ¬ (n < n ∧ false = true)),
            if_neg (fun hcon => Bool.false_ne_true hcon.2 :
              ¬ (n < n + 1 ∧ false = true))]
          simp
      · have hbX : ((2 * m + 1) <<< l).testBit n = m.testBit (n - (l + 1)) := by
          rw [Nat.testBit_shiftLeft, decide_eq_true (by omega : n ≥ l),
            show n - l = (n - (l + 1)) + 1 from by omega, Nat.testBit_succ,
            show (2 * m + 1) / 2 = m from by omega, Bool.true_and]
        have hbY : (m <<< (l + 1)).testBit n = m.testBit (n - (l + 1)) := by
          rw [Nat.testBit_shiftLeft, decide_eq_true (by omega : n ≥ l + 1),
            Bool.true_and]
        have hpc : popcount64 ((2 * m + 1) <<< l) n =
            popcount64 (m <<< (l + 1)) n + 1 := by
          rw [popcount64_lowbit m l n, if_pos (by omega : l < n)]
        have hif : (if l < n + 1 ∧ a.testBit l = true then (1 : word) else 0) =
            if l < n ∧ a.testBit l = true then 1 else 0 := by
          by_cases hb : a.testBit l
          · rw [if_pos (⟨by omega, hb⟩ : l < n + 1 ∧ a.testBit l = true),
              if_pos (⟨hc, hb⟩ : l < n ∧ a.testBit l = true)]
          · rw [if_neg (fun hcon => hb hcon.2), if_neg (fun hcon => hb hcon.2)]
        have hsh : (if m.testBit (n - (l + 1)) && a.testBit n then
            (2 : word) ^ (popcount64 (m <<< (l + 1)) n + 1) else 0) =
            (if m.testBit (n - (l + 1)) && a.testBit n then
              (2 : word) ^ popcount64 (m <<< (l + 1)) n else 0) <<< 1 := by
          split
          · rw [two_pow_shl]
          · rw [Nat.zero_shiftLeft]
        rw [hbX, hbY, hpc, hif, hsh, shl_or, Nat.or_assoc]

theorem extract_go_spec (a : word) :
    ∀ mask, mask < 2 ^ 64 → ∀ t res, t + popcount64 mask 64 ≤ 64 →
      res < 2 ^ t →
      extract_go a mask (2 ^ t % 2 ^ 64) res = res ||| (pextW a mask 64 <<< t) := by
  intro mask
  induction mask using Nat.strong_induction_on with
  | _ mask ih =>
      intro hm64 t res hinv hres
      by_cases h0 : mask = 0
      · subst h0
        rw [extract_go, dif_pos rfl, pextW_zero_mask a 64, Nat.zero_shiftLeft,
          Nat.or_zero]
      · obtain ⟨k, mo, hodd, heq⟩ := Nat.exists_eq_two_pow_mul_odd h0
        obtain ⟨m, hm⟩ := hodd
        have hmo : mo = 2 * m + 1 := by omega
        have hmask : mask = (2 * m + 1) <<< k := by
          rw [heq, hmo, Nat.shiftLeft_eq, Nat.mul_comm]
        subst hmask
        have hX1 : 1 ≤ (2 * m + 1) <<< k := by
          rw [Nat.shiftLeft_eq]
          exact Nat.mul_pos (by omega) (Nat.two_pow_pos k)
        have hkle : 2 ^ k ≤ (2 * m + 1) <<< k := by
          rw [Nat.shiftLeft_eq]
          exact Nat.le_mul_of_pos_left _ (by omega)
        have hk64 : k < 64 := by
          by_contra hk
          have h2 : (2 : Nat) ^ 64 ≤ 2 ^ k :=
            Nat.pow_le_pow_right (by norm_num) (by omega)
          exact absurd (Nat.lt_of_le_of_lt (Nat.le_trans h2 hkle) hm64)
            (Nat.lt_irrefl _)
        have hpc := popcount64_lowbit m k 64
        rw [if_pos hk64] at hpc
        have ht63 : t ≤ 63 := by omega
        have hbb : 2 ^ t % 2 ^ 64 = 2 ^ t :=
          Nat.mod_eq_of_lt (Nat.pow_lt_pow_right (by norm_num) (by omega))
        have hYlt : m <<< (k + 1) < (2 * m + 1) <<< k := by
          rw [← lowbit_clear k m]
          exact Nat.lt_of_le_of_lt Nat.and_le_right (by omega)
        have hneg : neg64 ((2 * m + 1) <<< k) = 2 ^ 64 - (2 * m + 1) <<< k := by
          unfold neg64
          exact Nat.mod_eq_of_lt (by omega)
        have hlb : (2 * m + 1) <<< k &&& neg64 ((2 * m + 1) <<< k) = 2 ^ k := by
          rw [hneg]
          exact lowbit_and_neg k 64 m hm64
        have hcond : a &&& (2 * m + 1) <<< k &&& neg64 ((2 * m + 1) <<< k) =
            (a.testBit k).toNat * 2 ^ k := by
          rw [Nat.and_assoc, hlb, Nat.and_two_pow]
        rw [extract_go, dif_neg h0, hbb, two_pow_shl t 1, lowbit_clear k m,
          hcond]
        have hlow := pextW_lowbit a m k 64
        by_cases hb : a.testBit k
        · have ht1 : (a.testBit k).toNat * 2 ^ k ≠ 0 := by
            rw [hb]
            simpa using (Nat.two_pow_pos k).ne'
          rw [if_pos ht1, neg64_one, Nat.and_pow_two_sub_one_eq_mod, hbb,
            ih (m <<< (k + 1)) hYlt (Nat.lt_trans hYlt hm64) (t + 1) (res ||| 2 ^ t)
              (by omega)
              (Nat.or_lt_two_pow
                (Nat.lt_trans hres (Nat.pow_lt_pow_right (by norm_num) (Nat.lt_succ_self t)))
                (Nat.pow_lt_pow_right (by norm_num) (Nat.lt_succ_self t))),
            hlow, if_pos (⟨hk64, hb⟩ : k < 64 ∧ a.testBit k = true), shl_or,
            Nat.one_shiftLeft, ← Nat.shiftLeft_add, Nat.add_comm 1 t,
            Nat.or_assoc]
        · have hb0 : a.testBit k = false := Bool.eq_false_iff.mpr hb
          have ht0 : ¬ ((a.testBit k).toNat * 2 ^ k ≠ 0) := by
            rw [hb0]
            simp
          rw [if_neg ht0, neg64_zero, Nat.and_zero, Nat.or_zero,
            ih (m <<< (k + 1)) hYlt (Nat.lt_trans hYlt hm64) (t + 1) res (by omega)
              (Nat.lt_trans hres (Nat.pow_lt_pow_right (by norm_num) (Nat.lt_succ_self t))),
            hlow, if_neg (fun hcon => hb hcon.2), Nat.zero_or,
            ← Nat.shiftLeft_add, Nat.add_comm 1 t]

theorem extract_bits_eq_pextW (inp mask : word) (hm : mask < 2 ^ 64) :
    extract_bits inp mask = pextW inp mask 64 := by
  have h := extract_go_spec inp mask hm 0 0
    (by simpa using popcount64_le mask 64) Nat.one_pos
  rw [show (2 : Nat) ^ 0 % 2 ^ 64 = 1 from by norm_num, Nat.shiftLeft_zero,
    Nat.zero_or] at h
  rw [extract_bits]
  exact h

set_option maxHeartbeats 2000000 in
theorem swar_low12_aux : ∀ a, a < 64 → ∀ b, b < 64 →
    (((64 * a + b) * 0x1001001001001) % 2 ^ 64 &&& 0x84210842108421) % 0x1f =
      popcount64 (64 * a + b) 12 := by decide

theorem swar_low8 : ∀ v, v < 256 →
    ((v * 0x1001001001001) % 2 ^ 64 &&& 0x84210842108421) % 0x1f =
      popcount64 v 8 := by decide

theorem swar_low12 (v : Nat) (h : v < 4096) :
    ((v * 0x1001001001001) % 2 ^ 64 &&& 0x84210842108421) % 0x1f =
      popcount64 v 12 := by
  have h1 : v / 64 < 64 := by omega
  have h2 : v % 64 < 64 := by omega
  have h3 : v = 64 * (v / 64) + v % 64 := by omega
  rw [h3]
  exact swar_low12_aux (v / 64) h1 (v % 64) h2

theorem popcount64_and_low12 (y : Nat) :
    popcount64 (y &&& 0xfff) 12 = popcount64 y 12 := by
  apply popcount64_congr
  intro i hi
  rw [Nat.testBit_and, show (0xfff : Nat) = 2 ^ 12 - 1 from by norm_num,
    Nat.testBit_two_pow_sub_one]
  simp [hi]

theorem popcount64_mid_block (y : Nat) :
    popcount64 ((y &&& 0xfff000) >>> 12) 12 = popcount64 (y >>> 12) 12 := by
  apply popcount64_congr
  intro i hi
  rw [Nat.testBit_shiftRight, Nat.testBit_shiftRight, Nat.testBit_and]
  have hbit : (0xfff000 : Nat).testBit (12 + i) = true := by
    interval_cases i <;> decide
  rw [hbit, Bool.and_true]

theorem popcount_32_swar (x : word) :
    popcount_32 x = popcount64 (x % 2 ^ 32) 32 := by
  have hb1 : x % 2 ^ 32 &&& 0xfff < 4096 := Nat.lt_succ_of_le Nat.and_le_right
  have hb2 : (x % 2 ^ 32 &&& 0xfff000) >>> 12 < 4096 := by
    have h := Nat.and_le_right (n := x % 2 ^ 32) (m := 0xfff000)
    rw [Nat.shiftRight_eq_div_pow, show (2 : Nat) ^ 12 = 4096 from by norm_num]
    exact Nat.lt_succ_of_le
      (Nat.le_trans (Nat.div_le_div_right h) (by norm_num))
  have hb3 : (x % 2 ^ 32) >>> 24 < 256 := by
    have h : x % 2 ^ 32 ≤ 4294967295 :=
      Nat.le_of_lt_succ (Nat.mod_lt _ (by norm_num))
    rw [Nat.shiftRight_eq_div_pow,
      show (2 : Nat) ^ 24 = 16777216 from by norm_num]
    exact Nat.lt_succ_of_le
      (Nat.le_trans (Nat.div_le_div_right h) (by norm_num))
  have e1 : popcount64 (x % 2 ^ 32) 32 =
      popcount64 (x % 2 ^ 32) 12 + popcount64 ((x % 2 ^ 32) >>> 12) 20 :=
    popcount64_split _ 12 20
  have e2 : popcount64 ((x % 2 ^ 32) >>> 12) 20 =
      popcount64 ((x % 2 ^ 32) >>> 12) 12 +
        popcount64 (((x % 2 ^ 32) >>> 12) >>> 12) 8 :=
    popcount64_split _ 12 8
  have e3 : ((x % 2 ^ 32) >>> 12) >>> 12 = (x % 2 ^ 32) >>> 24 := by
    rw [← Nat.shiftRight_add]
  rw [e3] at e2
  have l1 := popcount64_le (x % 2 ^ 32) 12
  have l2 := popcount64_le ((x % 2 ^ 32) >>> 12) 12
  have l3 := popcount64_le ((x % 2 ^ 32) >>> 24) 8
  simp only [popcount_32]
  rw [swar_low12 _ hb1, swar_low12 _ hb2, swar_low8 _ hb3,
    popcount64_and_low12, popcount64_mid_block]
  omega

theorem pext_u64_eq_pextW (a mask : word) : pext_u64 a mask = pextW a mask 64 := by
  have hmod : ∀ (x : word) (i : Nat), i < 32 →
      (x % 2 ^ 32).testBit i = x.testBit i := by
    intro x i hi
    rw [Nat.testBit_mod_two_pow, decide_eq_true hi, Bool.true_and]
  have hlow : pext_u32 a mask = pextW a mask 32 := by
    rw [pext_u32]
    exact pextW_congr _ _ _ _ 32 (fun i hi => hmod a i hi) (fun i hi => hmod mask i hi)
  have hhigh : pext_u32 (a >>> 32) (mask >>> 32) =
      pextW (a >>> 32) (mask >>> 32) 32 := by
    rw [pext_u32]
    exact pextW_congr _ _ _ _ 32 (fun i hi => hmod _ i hi) (fun i hi => hmod _ i hi)
  have hpc32 : popcount_32 mask = popcount64 mask 32 := by
    rw [popcount_32_swar]
    exact popcount64_congr _ _ 32 (fun i hi => hmod mask i hi)
  have hb1 : pextW (a >>> 32) (mask >>> 32) 32 < 2 ^ 32 :=
    Nat.lt_of_lt_of_le (pextW_lt _ _ 32)
      (Nat.pow_le_pow_right (by norm_num) (popcount64_le _ 32))
  have hb2 : pextW (a >>> 32) (mask >>> 32) 32 <<< popcount64 mask 32 < 2 ^ 64 := by
    rw [Nat.shiftLeft_eq]
    calc pextW (a >>> 32) (mask >>> 32) 32 * 2 ^ popcount64 mask 32
        < 2 ^ 32 * 2 ^ popcount64 mask 32 :=
          mul_lt_mul_of_pos_right hb1 (Nat.two_pow_pos _)
      _ = 2 ^ (32 + popcount64 mask 32) := by rw [pow_add]
      _ ≤ 2 ^ 64 := Nat.pow_le_pow_right (by norm_num)
          (by have := popcount64_le mask 32; omega)
  rw [pext_u64, hpc32, hhigh, hlow, Nat.mod_eq_of_lt hb2, Nat.or_comm,
    show (64 : Nat) = 32 + 32 from rfl, pextW_split a mask 32]

theorem extract_bits_eq_pext (inp mask : word) (hm : mask < 2 ^ 64) :
    extract_bits inp mask = pext_u64 inp mask := by
  rw [extract_bits_eq_pextW inp mask hm, pext_u64_eq_pextW]

theorem comp64_lt (mask : word) (hm : mask < 2 ^ 64) : comp64 mask < 2 ^ 64 :=
  Nat.xor_lt_two_pow (by norm_num) hm

theorem popcount64_mod_two (x : word) :
    ∀ n, popcount64 x n % 2 = if parityBits x n then 1 else 0 := by
  intro n
  induction n with
  | zero => rfl
  | succ n ih =>
      simp only [popcount64, parityBits]
      by_cases hp : parityBits x n <;> by_cases hb : x.testBit n <;>
        simp [hp, hb] at ih ⊢ <;> omega

theorem parity64_popcnt_eq (x : word) : parity64_popcnt x = parity64_uint64 x := by
  rw [parity64_popcnt, parity64_uint64, Nat.and_one_is_mod,
    popcount64_mod_two x 64]

theorem xor128_eq (res a b : Nat → word) :
    ∀ j, mzd_xor_sse_128 res a b j = mzd_xor_uint64 res a b 2 j := by
  intro j
  rcases j with _ | _ | j <;> rfl

theorem xor256_eq (res a b : Nat → word) :
    ∀ j, mzd_xor_sse_256 res a b j = mzd_xor_uint64 res a b 4 j := by
  intro j
  rcases j with _ | _ | _ | _ | j <;> rfl

theorem shuffle30_eq (x : Nat → word) (width : Nat) (mask : word)
    (hm : mask < 2 ^ 64) :
    ∀ j, mzd_shuffle_30 x width mask j = mzd_shuffle_pext_30 x width mask j := by
  intro j
  simp only [mzd_shuffle_30, mzd_shuffle_pext_30]
  by_cases h : j = width - 1
  · rw [if_pos h, if_pos h, extract_bits_eq_pext _ mask hm,
      extract_bits_eq_pext _ (comp64 mask) (comp64_lt mask hm)]
  · rw [if_neg h, if_neg h]

theorem shuffle3_eq (x : Nat → word) (width : Nat) (mask : word)
    (hm : mask < 2 ^ 64) :
    ∀ j, mzd_shuffle_3 x width mask j = mzd_shuffle_pext_3 x width mask j := by
  intro j
  simp only [mzd_shuffle_3, mzd_shuffle_pext_3]
  by_cases h : j = width - 1
  · rw [if_pos h, if_pos h, extract_bits_eq_pext _ mask hm,
      extract_bits_eq_pext _ (comp64 mask) (comp64_lt mask hm)]
  · rw [if_neg h, if_neg h]

/-- C2.  Every pair of backend specializations produces bit-identical
output: the SSE, AVX and NEON xor kernels agree with the uint64 xor at
widths 2 and 4 on every word; the SSE, AVX and NEON mul_v and addmul_v
kernels agree with the uint64 kernels on every stored word (the 192-bit
forms under the zero row-padding invariant); the SSE, AVX and NEON mul_vl
and addmul_vl kernels agree with the uint64 lookup kernels given the
cleared comb-0 table rows, in-range vector words and (at 192 bits) zero
table padding; the POPCNT parity kernels agree with the uint64 parity
kernels on every word; and the extract_bits-based shuffles agree with the
PEXT-based shuffles on every word. -/
theorem mzd_backends_bit_identical (res a b c v x : Nat → word)
    (A B At : Nat → Nat → word) (width : Nat) (mask : word)
    (hpadA : ∀ i, i < 192 → A i 3 = 0)
    (hB0 : ∀ s j', B (256 * s) j' = 0)
    (hpadB : ∀ r, r < 6144 → B r 3 = 0)
    (hv : ∀ q, q < 4 → v q < 2 ^ 64)
    (hm : mask < 2 ^ 64) :
    ((∀ j, mzd_xor_sse_128 res a b j = mzd_xor_uint64 res a b 2 j) ∧
      (∀ j, mzd_xor_avx_128 res a b j = mzd_xor_uint64 res a b 2 j) ∧
      (∀ j, mzd_xor_neon_128 res a b j = mzd_xor_uint64 res a b 2 j) ∧
      (∀ j, mzd_xor_sse_256 res a b j = mzd_xor_uint64 res a b 4 j) ∧
      (∀ j, mzd_xor_avx_256 res a b j = mzd_xor_uint64 res a b 4 j) ∧
      (∀ j, mzd_xor_neon_256 res a b j = mzd_xor_uint64 res a b 4 j)) ∧
    ((∀ j, j < 2 → mzd_mul_v_sse_128 c v A j = mzd_mul_v_uint64 c v A 2 2 j) ∧
      (∀ j, j < 2 → mzd_mul_v_avx_128 c v A j = mzd_mul_v_uint64 c v A 2 2 j) ∧
      (∀ j, j < 2 → mzd_mul_v_neon_128 c v A j = mzd_mul_v_uint64 c v A 2 2 j) ∧
      (∀ j, j < 2 → mzd_addmul_v_sse_128 c v A j = mzd_addmul_v_uint64 c v A 2 2 j) ∧
      (∀ j, j < 2 → mzd_addmul_v_avx_128 c v A j = mzd_addmul_v_uint64 c v A 2 2 j) ∧
      (∀ j, j < 2 → mzd_addmul_v_neon_128 c v A j = mzd_addmul_v_uint64 c v A 2 2 j) ∧
      (∀ j, j < 4 → mzd_mul_v_sse_192 c v A j = mzd_mul_v_uint64 c v A 3 3 j) ∧
      (∀ j, j < 4 → mzd_mul_v_avx_192 c v A j = mzd_mul_v_uint64 c v A 3 3 j) ∧
      (∀ j, j < 4 → mzd_mul_v_neon_192 c v A j = mzd_mul_v_uint64 c v A 3 3 j) ∧
      (∀ j, j < 4 → mzd_addmul_v_sse_192 c v A j = mzd_addmul_v_uint64 c v A 3 3 j) ∧
      (∀ j, j < 4 → mzd_addmul_v_avx_192 c v A j = mzd_addmul_v_uint64 c v A 3 3 j) ∧
      (∀ j, j < 4 → mzd_addmul_v_neon_192 c v A j = mzd_addmul_v_uint64 c v A 3 3 j) ∧
      (∀ j, j < 4 → mzd_mul_v_sse_256 c v A j = mzd_mul_v_uint64 c v A 4 4 j) ∧
      (∀ j, j < 4 → mzd_mul_v_avx_256 c v A j = mzd_mul_v_uint64 c v A 4 4 j) ∧
      (∀ j, j < 4 → mzd_mul_v_neon_256 c v A j = mzd_mul_v_uint64 c v A 4 4 j) ∧
      (∀ j, j < 4 → mzd_addmul_v_sse_256 c v A j = mzd_addmul_v_uint64 c v A 4 4 j) ∧
      (∀ j, j < 4 → mzd_addmul_v_avx_256 c v A j = mzd_addmul_v_uint64 c v A 4 4 j) ∧
      (∀ j, j < 4 → mzd_addmul_v_neon_256 c v A j = mzd_addmul_v_uint64 c v A 4 4 j)) ∧
    ((∀ j, j < 2 → mzd_mul_vl_sse_128 c v B j = mzd_mul_vl_uint64 c v B 2 2 j) ∧
      (∀ j, j < 2 → mzd_mul_vl_avx_128 c v B j = mzd_mul_vl_uint64 c v B 2 2 j) ∧
      (∀ j, j < 2 → mzd_mul_vl_neon_128 c v B j = mzd_mul_vl_uint64 c v B 2 2 j) ∧
      (∀ j, j < 2 → mzd_addmul_vl_sse_128 c v B j = mzd_addmul_vl_uint64 c v B 2 2 j) ∧
      (∀ j, j < 2 → mzd_addmul_vl_avx_128 c v B j = mzd_addmul_vl_uint64 c v B 2 2 j) ∧
      (∀ j, j < 2 → mzd_addmul_vl_neon_128 c v B j = mzd_addmul_vl_uint64 c v B 2 2 j) ∧
      (∀ j, j < 4 → mzd_mul_vl_sse_192 c v B j = mzd_mul_vl_uint64 c v B 3 3 j) ∧
      (∀ j, j < 4 → mzd_mul_vl_avx_192 c v B j = mzd_mul_vl_uint64 c v B 3 3 j) ∧
      (∀ j, j < 4 → mzd_mul_vl_neon_192 c v B j = mzd_mul_vl_uint64 c v B 3 3 j) ∧
      (∀ j, j < 4 → mzd_addmul_vl_sse_192 c v B j = mzd_addmul_vl_uint64 c v B 3 3 j) ∧
      (∀ j, j < 4 → mzd_addmul_vl_avx_192 c v B j = mzd_addmul_vl_uint64 c v B 3 3 j) ∧
      (∀ j, j < 4 → mzd_addmul_vl_neon_192 c v B j = mzd_addmul_vl_uint64 c v B 3 3 j) ∧
      (∀ j, j < 4 → mzd_mul_vl_sse_256 c v B j = mzd_mul_vl_uint64 c v B 4 4 j) ∧
      (∀ j, j < 4 → mzd_mul_vl_avx_256 c v B j = mzd_mul_vl_uint64 c v B 4 4 j) ∧
      (∀ j, j < 4 → mzd_mul_vl_neon_256 c v B j = mzd_mul_vl_uint64 c v B 4 4 j) ∧
      (∀ j, j < 4 → mzd_addmul_vl_sse_256 c v B j = mzd_addmul_vl_uint64 c v B 4 4 j) ∧
      (∀ j, j < 4 → mzd_addmul_vl_avx_256 c v B j = mzd_addmul_vl_uint64 c v B 4 4 j) ∧
      (∀ j, j < 4 → mzd_addmul_vl_neon_256 c v B j = mzd_addmul_vl_uint64 c v B 4 4 j)) ∧
    ((∀ j, mzd_mul_v_parity_popcnt_128_30 c v At j = mzd_mul_v_parity_uint64_128_30 c v At j) ∧
      (∀ j, mzd_mul_v_parity_popcnt_192_30 c v At j = mzd_mul_v_parity_uint64_192_30 c v At j) ∧
      (∀ j, mzd_mul_v_parity_popcnt_256_30 c v At j = mzd_mul_v_parity_uint64_256_30 c v At j) ∧
      (∀ j, mzd_mul_v_parity_popcnt_128_3 c v At j = mzd_mul_v_parity_uint64_128_3 c v At j) ∧
      (∀ j, mzd_mul_v_parity_popcnt_192_3 c v At j = mzd_mul_v_parity_uint64_192_3 c v At j) ∧
      (∀ j, mzd_mul_v_parity_popcnt_256_3 c v At j = mzd_mul_v_parity_uint64_256_3 c v At j)) ∧
    ((∀ j, mzd_shuffle_30 x width mask j = mzd_shuffle_pext_30 x width mask j) ∧
      (∀ j, mzd_shuffle_3 x width mask j = mzd_shuffle_pext_3 x width mask j)) := by
  have hv2 : ∀ q, q < 2 → v q < 2 ^ 64 := fun q hq => hv q (by omega)
  have hv3 : ∀ q, q < 3 → v q < 2 ^ 64 := fun q hq => hv q (by omega)
  have hfe : parity64_popcnt = parity64_uint64 := funext parity64_popcnt_eq
  refine ⟨⟨xor128_eq res a b, xor128_eq res a b, xor128_eq res a b,
      xor256_eq res a b, xor256_eq res a b, xor256_eq res a b⟩,
    ⟨sse128_mul_eq c v A, avx128_mul_eq c v A, sse128_mul_eq c v A,
      sse128_addmul_eq c v A, avx128_addmul_eq c v A, sse128_addmul_eq c v A,
      sse192_mul_eq c v A hpadA, avx192_mul_eq c v A hpadA,
      sse192_mul_eq c v A hpadA, sse192_addmul_eq c v A hpadA,
      avx192_addmul_eq c v A hpadA, sse192_addmul_eq c v A hpadA,
      sse256_mul_eq c v A, avx256_mul_eq c v A, sse256_mul_eq c v A,
      sse256_addmul_eq c v A, avx256_addmul_eq c v A, sse256_addmul_eq c v A⟩,
    ⟨vl128_mul_eq c v B hB0 hv2, vlavx128_mul_eq c v B hB0 hv2,
      vl128_mul_eq c v B hB0 hv2, vl128_addmul_eq c v B hB0 hv2,
      vlavx128_addmul_eq c v B hB0 hv2, vl128_addmul_eq c v B hB0 hv2,
      vl192_mul_eq c v B hB0 hv3 hpadB, vl192_mul_eq c v B hB0 hv3 hpadB,
      vl192_mul_eq c v B hB0 hv3 hpadB, vl192_addmul_eq c v B hB0 hv3 hpadB,
      vl192_addmul_eq c v B hB0 hv3 hpadB, vl192_addmul_eq c v B hB0 hv3 hpadB,
      vl256_mul_eq c v B hB0 hv, vl256_mul_eq c v B hB0 hv,
      vl256_mul_eq c v B hB0 hv, vl256_addmul_eq c v B hB0 hv,
      vl256_addmul_eq c v B hB0 hv, vl256_addmul_eq c v B hB0 hv⟩,
    ⟨fun j => by
        simp only [mzd_mul_v_parity_popcnt_128_30,
          mzd_mul_v_parity_uint64_128_30, hfe],
      fun j => by
        simp only [mzd_mul_v_parity_popcnt_192_30,
          mzd_mul_v_parity_uint64_192_30, hfe],
      fun j => by
        simp only [mzd_mul_v_parity_popcnt_256_30,
          mzd_mul_v_parity_uint64_256_30, hfe],
      fun j => by
        simp only [mzd_mul_v_parity_popcnt_128_3,
          mzd_mul_v_parity_uint64_128_3, hfe],
      fun j => by
        simp only [mzd_mul_v_parity_popcnt_192_3,
          mzd_mul_v_parity_uint64_192_3, hfe],
      fun j => by
        simp only [mzd_mul_v_parity_popcnt_256_3,
          mzd_mul_v_parity_uint64_256_3, hfe]⟩,
    ⟨shuffle30_eq x width mask hm, shuffle3_eq x width mask hm⟩⟩

/-- Witness for the C2 theorem at concrete inputs: the first xor conjunct
and the first shuffle conjunct, instantiated and evaluated. -/
theorem mzd_backends_bit_identical_witness :
    mzd_xor_sse_128 cW vW cW 0 = mzd_xor_uint64 cW vW cW 2 0 ∧
      mzd_shuffle_30 cW 2 5 0 = mzd_shuffle_pext_30 cW 2 5 0 := by
  have h := mzd_backends_bit_identical cW vW cW cW vSm cW APad BPad AtP 2 5
    (fun i hi => by simp [APad])
    (fun s j' => by simp [BPad, Nat.mul_mod_right])
    (fun r hr => by simp [BPad])
    (fun q hq => Nat.mod_lt _ (by norm_num))
    (by norm_num)
  exact ⟨h.1.1 0, h.2.2.2.2.1 0⟩

/-! ### The aux AND-gate invariant (C4) -/

theorem xorShares_succ (f : Nat → word) (n : Nat) :
    xorShares f (n + 1) = xorShares f n ^^^ f n := rfl

theorem xorShares_congr (f g : Nat → word) :
    ∀ n, (∀ j, j < n → f j = g j) → xorShares f n = xorShares g n := by
  intro n
  induction n with
  | zero => intro _; rfl
  | succ n ih =>
      intro h
      simp only [xorShares]
      rw [ih (fun j hj => h j (by omega)), h n (by omega)]

theorem packWord_lt (f : Nat → word) (hf : ∀ i, f i ≤ 1) :
    ∀ n, packWord f n < 2 ^ n := by
  intro n
  induction n with
  | zero => exact Nat.one_pos
  | succ n ih =>
      simp only [packWord]
      apply Nat.or_lt_two_pow
      · exact Nat.lt_of_lt_of_le ih (Nat.pow_le_pow_right (by norm_num) (by omega))
      · rw [Nat.shiftLeft_eq]
        have h1 : f n * 2 ^ n ≤ 2 ^ n := by
          rcases Nat.le_one_iff_eq_zero_or_eq_one.mp (hf n) with h | h <;>
            rw [h] <;> simp
        have h3 := Nat.two_pow_pos n
        exact Nat.lt_of_le_of_lt h1
          (by rw [show (2 : Nat) ^ (n + 1) = 2 * 2 ^ n from by ring]; omega)

theorem packWord_testBit (f : Nat → word) (hf : ∀ i, f i ≤ 1) :
    ∀ n i, i < n → (packWord f n).testBit i = decide (f i = 1) := by
  intro n
  induction n with
  | zero => intro i hi; omega
  | succ n ih =>
      intro i hi
      simp only [packWord]
      rw [Nat.testBit_or]
      by_cases hin : i = n
      · subst hin
        have hfi : f i % 2 = f i :=
          Nat.mod_eq_of_lt (Nat.lt_of_le_of_lt (hf i) Nat.one_lt_two)
        rw [Nat.testBit_lt_two_pow (packWord_lt f hf i), Nat.testBit_shiftLeft,
          decide_eq_true (Nat.le_refl i), Bool.true_and, Nat.sub_self,
          Nat.testBit_zero, Bool.false_or, hfi]
      · rw [ih i (by omega), Nat.testBit_shiftLeft,
          decide_eq_false (by omega : ¬ i ≥ n), Bool.false_and, Bool.or_false]

theorem xorShares_le_one (f : Nat → word) (hf : ∀ i, f i ≤ 1) :
    ∀ n, xorShares f n ≤ 1 := by
  intro n
  induction n with
  | zero => exact Nat.zero_le 1
  | succ n ih =>
      simp only [xorShares]
      rcases Nat.le_one_iff_eq_zero_or_eq_one.mp (hf n) with h3 | h3 <;>
        rcases Nat.le_one_iff_eq_zero_or_eq_one.mp ih with h4 | h4 <;>
        rw [h3, h4] <;> decide

theorem xorShares_parityBits (f : Nat → word) (hf : ∀ i, f i ≤ 1) (x : word) :
    ∀ n, (∀ i, i < n → x.testBit i = decide (f i = 1)) →
      xorShares f n = if parityBits x n then 1 else 0 := by
  intro n
  induction n with
  | zero => intro _; rfl
  | succ n ih =>
      intro h
      simp only [xorShares, parityBits]
      rw [ih (fun i hi => h i (by omega))]
      have hxn : x.testBit n = decide (f n = 1) := h n (by omega)
      rcases Nat.le_one_iff_eq_zero_or_eq_one.mp (hf n) with h2 | h2 <;>
        rw [h2] at hxn ⊢ <;> by_cases hp : parityBits x n <;>
        simp [hp, hxn] <;> decide

theorem parity64_packWord (f : Nat → word) (hf : ∀ i, f i ≤ 1) :
    parity64_uint64 (packWord f 64 % 2 ^ 63) = xorShares f 63 := by
  have hg : ∀ i, (fun i => if i < 63 then f i else 0) i ≤ 1 := by
    intro i
    by_cases hi : i < 63 <;> simp [hi]
    exact hf i
  have hy : packWord f 64 % 2 ^ 63 < 2 ^ 63 :=
    Nat.mod_lt _ (Nat.two_pow_pos 63)
  have hb := xorShares_parityBits (fun i => if i < 63 then f i else 0) hg
    (packWord f 64 % 2 ^ 63) 64 (by
      intro i hi
      by_cases h63 : i < 63
      · rw [Nat.testBit_mod_two_pow, decide_eq_true h63, Bool.true_and,
          packWord_testBit f hf 64 i (by omega)]
        show decide (f i = 1) = decide ((if i < 63 then f i else 0) = 1)
        rw [if_pos h63]
      · have hi63 : i = 63 := by omega
        subst hi63
        rw [Nat.testBit_lt_two_pow hy]
        show false = decide ((if (63 : Nat) < 63 then f 63 else 0) = 1)
        rw [if_neg h63]
        simp)
  rw [parity64_uint64, ← hb,
    xorShares_succ (fun i => if i < 63 then f i else 0) 63]
  rw [if_neg (by omega : ¬ (63 : Nat) < 63), Nat.xor_zero]
  exact xorShares_congr _ f 63 (fun j hj =>
    show (if j < 63 then f j else 0) = f j from if_pos hj)

/-- C4.  After aux_mpc_AND reads the fresh output mask and the and-helper
word, clears bit 63 of the helper, computes
aux = (mask_a and mask_b) xor parity64(helper) and writes aux into party
63's tape at position pos - 1, the XOR-parity across all 64 parties of the
gate's and-helper shares (the tape bits at the helper position) equals
mask_a and mask_b; the cursor has advanced by two and the returned word is
the packed fresh output mask. -/
theorem aux_mpc_AND_parity_invariant (T : Tapes) (a b : word)
    (hT : ∀ j i, T.tape j i ≤ 1) :
    xorShares (fun j => ((aux_mpc_AND a b T).2).tape j (T.pos + 1)) 64 =
      a &&& b ∧
    ((aux_mpc_AND a b T).2).pos = T.pos + 2 ∧
    (aux_mpc_AND a b T).1 = packWord (fun j => T.tape j T.pos) 64 := by
  refine ⟨?_, rfl, rfl⟩
  have hf : ∀ i, (fun j => T.tape j (T.pos + 1)) i ≤ 1 := fun i => hT i _
  have hpar := parity64_packWord (fun j => T.tape j (T.pos + 1)) hf
  have e2 : ∀ j, j < 64 →
      ((aux_mpc_AND a b T).2).tape j (T.pos + 1) =
        (if j = 63 then
          (a &&& b) ^^^
            parity64_uint64 (packWord (fun j => T.tape j (T.pos + 1)) 64 % 2 ^ 63)
        else T.tape j (T.pos + 1)) := by
    intro j hj
    simp only [aux_mpc_AND, tapesToWord, writeTapeBit]
    by_cases hj63 : j = 63
    · rw [if_pos (⟨hj63, by omega⟩ :
          j = 63 ∧ T.pos + 1 = T.pos + 1 + 1 - 1), if_pos hj63]
    · rw [if_neg (fun hcon => hj63 hcon.1), if_neg hj63]
  rw [xorShares_congr (fun j => ((aux_mpc_AND a b T).2).tape j (T.pos + 1))
      (fun j => if j = 63 then
        (a &&& b) ^^^
          parity64_uint64 (packWord (fun j => T.tape j (T.pos + 1)) 64 % 2 ^ 63)
      else T.tape j (T.pos + 1)) 64 e2,
    xorShares_succ (fun j => if j = 63 then
        (a &&& b) ^^^
          parity64_uint64 (packWord (fun j => T.tape j (T.pos + 1)) 64 % 2 ^ 63)
      else T.tape j (T.pos + 1)) 63]
  simp only []
  rw [if_pos trivial,
    xorShares_congr _ (fun j => T.tape j (T.pos + 1)) 63
      (fun j hj => if_neg (by omega : ¬ j = 63)),
    hpar, Nat.xor_comm (a &&& b) _, ← Nat.xor_assoc, Nat.xor_self,
    Nat.zero_xor]

/-- Witness for the C4 theorem at a concrete tape state and concrete
masks. -/
theorem aux_mpc_AND_parity_invariant_witness :
    xorShares (fun j => ((aux_mpc_AND 1 1 TW).2).tape j (TW.pos + 1)) 64 =
      1 &&& 1 := by
  have h := aux_mpc_AND_parity_invariant TW 1 1 (fun j i => by
    show (j + i) % 2 ≤ 1
    omega)
  exact h.1

/-! ### HCP challenge properties (C5) -/

theorem appendUnique_eq (l : List Nat) (v : Nat) :
    appendUnique l v = if v ∈ l then l else l ++ [v] := by
  rw [appendUnique]
  by_cases hl : l.length = 0
  · rw [if_pos hl, if_neg (by
      rw [List.length_eq_zero.mp hl]
      simp)]
  · rw [if_neg hl]

theorem collectC_full (numRounds tau : Nat) :
    ∀ chunks acc, tau ≤ List.length acc →
      collectC numRounds tau chunks acc = acc := by
  intro chunks
  induction chunks with
  | nil => intro acc _; rfl
  | cons c rest ih => intro acc h; rw [collectC, if_pos h]

theorem collectP_full (numParties tau : Nat) :
    ∀ chunks acc, tau ≤ List.length acc →
      collectP numParties tau chunks acc = acc := by
  intro chunks
  induction chunks with
  | nil => intro acc _; rfl
  | cons c rest ih => intro acc h; rw [collectP, if_pos h]

theorem collectC_append (numRounds tau : Nat) :
    ∀ l1 l2 acc, collectC numRounds tau (l1 ++ l2) acc =
      collectC numRounds tau l2 (collectC numRounds tau l1 acc) := by
  intro l1
  induction l1 with
  | nil => intro l2 acc; rfl
  | cons c rest ih =>
      intro l2 acc
      rw [List.cons_append, collectC, collectC]
      by_cases h : tau ≤ List.length acc
      · rw [if_pos h, if_pos h, collectC_full numRounds tau l2 acc h]
      · rw [if_neg h, if_neg h, ih]

theorem collectP_append (numParties tau : Nat) :
    ∀ l1 l2 acc, collectP numParties tau (l1 ++ l2) acc =
      collectP numParties tau l2 (collectP numParties tau l1 acc) := by
  intro l1
  induction l1 with
  | nil => intro l2 acc; rfl
  | cons c rest ih =>
      intro l2 acc
      rw [List.cons_append, collectP, collectP]
      by_cases h : tau ≤ List.length acc
      · rw [if_pos h, if_pos h, collectP_full numParties tau l2 acc h]
      · rw [if_neg h, if_neg h, ih]

theorem collectC_length_le (numRounds tau : Nat) :
    ∀ chunks acc, List.length acc ≤ tau →
      List.length (collectC numRounds tau chunks acc) ≤ tau := by
  intro chunks
  induction chunks with
  | nil => intro acc h; exact h
  | cons c rest ih =>
      intro acc h
      rw [collectC]
      by_cases hf : tau ≤ List.length acc
      · rw [if_pos hf]; exact h
      · rw [if_neg hf]
        apply ih
        by_cases hc : c < numRounds ∧ ¬ c ∈ acc
        · rw [if_pos hc, List.length_append]
          simp
          omega
        · rw [if_neg hc]; exact h

theorem collectP_length_le (numParties tau : Nat) :
    ∀ chunks acc, List.length acc ≤ tau →
      List.length (collectP numParties tau chunks acc) ≤ tau := by
  intro chunks
  induction chunks with
  | nil => intro acc h; exact h
  | cons c rest ih =>
      intro acc h
      rw [collectP]
      by_cases hf : tau ≤ List.length acc
      · rw [if_pos hf]; exact h
      · rw [if_neg hf]
        apply ih
        by_cases hc : c < numParties
        · rw [if_pos hc, List.length_append]
          simp
          omega
        · rw [if_neg hc]; exact h

theorem collectC_nodup (numRounds tau : Nat) :
    ∀ chunks acc, List.Nodup acc →
      List.Nodup (collectC numRounds tau chunks acc) := by
  intro chunks
  induction chunks with
  | nil => intro acc h; exact h
  | cons c rest ih =>
      intro acc h
      rw [collectC]
      by_cases hf : tau ≤ List.length acc
      · rw [if_pos hf]; exact h
      · rw [if_neg hf]
        apply ih
        by_cases hc : c < numRounds ∧ ¬ c ∈ acc
        · rw [if_pos hc]
          exact List.nodup_append.mpr ⟨h, List.nodup_singleton c,
            fun x hx hxc => hc.2 ((List.mem_singleton.mp hxc) ▸ hx)⟩
        · rw [if_neg hc]; exact h

theorem collectC_mem (numRounds tau : Nat) :
    ∀ chunks acc, (∀ x, x ∈ acc → x < numRounds) →
      ∀ x, x ∈ collectC numRounds tau chunks acc → x < numRounds := by
  intro chunks
  induction chunks with
  | nil => intro acc h; exact h
  | cons c rest ih =>
      intro acc h
      rw [collectC]
      by_cases hf : tau ≤ List.length acc
      · rw [if_pos hf]; exact h
      · rw [if_neg hf]
        apply ih
        by_cases hc : c < numRounds ∧ ¬ c ∈ acc
        · rw [if_pos hc]
          intro x hx
          rcases List.mem_append.mp hx with hx1 | hx2
          · exact h x hx1
          · rw [List.mem_singleton.mp hx2]; exact hc.1
        · rw [if_neg hc]; exact h

theorem collectP_mem (numParties tau : Nat) :
    ∀ chunks acc, (∀ x, x ∈ acc → x < numParties) →
      ∀ x, x ∈ collectP numParties tau chunks acc → x < numParties := by
  intro chunks
  induction chunks with
  | nil => intro acc h; exact h
  | cons c rest ih =>
      intro acc h
      rw [collectP]
      by_cases hf : tau ≤ List.length acc
      · rw [if_pos hf]; exact h
      · rw [if_neg hf]
        apply ih
        by_cases hc : c < numParties
        · rw [if_pos hc]
          intro x hx
          rcases List.mem_append.mp hx with hx1 | hx2
          · exact h x hx1
          · rw [List.mem_singleton.mp hx2]; exact hc
        · rw [if_neg hc]; exact h

theorem hcpLoopC_eq_collectC (numRounds tau : Nat) :
    ∀ chunks acc, List.length acc < tau →
      hcpLoopC numRounds tau chunks acc = collectC numRounds tau chunks acc := by
  intro chunks
  induction chunks with
  | nil => intro acc _; rfl
  | cons c rest ih =>
      intro acc h
      rw [hcpLoopC, collectC, if_neg (by omega : ¬ tau ≤ List.length acc)]
      have hstep : (if c < numRounds then appendUnique acc c else acc) =
          (if c < numRounds ∧ ¬ c ∈ acc then acc ++ [c] else acc) := by
        by_cases hc : c < numRounds
        · rw [if_pos hc, appendUnique_eq]
          by_cases hm : c ∈ acc
          · rw [if_pos hm, if_neg (fun hcon => hcon.2 hm)]
          · rw [if_neg hm, if_pos ⟨hc, hm⟩]
        · rw [if_neg hc, if_neg (fun hcon => hc hcon.1)]
      rw [hstep]
      by_cases hful : List.length
          (if c < numRounds ∧ ¬ c ∈ acc then acc ++ [c] else acc) = tau
      · rw [if_pos hful]
        exact (collectC_full numRounds tau rest _ (by omega)).symm
      · rw [if_neg hful]
        apply ih
        by_cases hc : c < numRounds ∧ ¬ c ∈ acc
        · rw [if_pos hc] at hful ⊢
          rw [List.length_append] at hful ⊢
          simp at hful ⊢
          omega
        · rw [if_neg hc] at hful ⊢
          omega

theorem hcpLoopP_eq_collectP (numParties tau : Nat) :
    ∀ chunks acc, List.length acc < tau →
      hcpLoopP numParties tau chunks acc = collectP numParties tau chunks acc := by
  intro chunks
  induction chunks with
  | nil => intro acc _; rfl
  | cons c rest ih =>
      intro acc h
      rw [hcpLoopP, collectP, if_neg (by omega : ¬ tau ≤ List.length acc)]
      by_cases hful : List.length
          (if c < numParties then acc ++ [c] else acc) = tau
      · rw [if_pos hful]
        exact (collectP_full numParties tau rest _ (by omega)).symm
      · rw [if_neg hful]
        apply ih
        by_cases hc : c < numParties
        · rw [if_pos hc] at hful ⊢
          rw [List.length_append] at hful ⊢
          simp at hful ⊢
          omega
        · rw [if_neg hc] at hful ⊢
          omega

theorem hcpC_eq_collectC (numRounds tau len inputLen : Nat)
    (rehash : (Nat → Bool) → Nat → Bool) :
    ∀ fuel h acc, List.length acc ≤ tau →
      hcpC numRounds tau len inputLen rehash h acc fuel =
        collectC numRounds tau (chunkStream len inputLen rehash h fuel) acc := by
  intro fuel
  induction fuel with
  | zero => intro h acc _; rfl
  | succ fuel ih =>
      intro h acc hlen
      rw [hcpC, chunkStream]
      by_cases hful : tau ≤ List.length acc
      · rw [if_pos hful, collectC_full numRounds tau _ acc hful]
      · rw [if_neg hful, collectC_append,
          ← hcpLoopC_eq_collectC numRounds tau _ acc (by omega),
          ih (rehash h) _ (by
            rw [hcpLoopC_eq_collectC numRounds tau _ acc (by omega)]
            exact collectC_length_le numRounds tau _ acc hlen)]

theorem hcpP_eq_collectP (numParties tau len inputLen : Nat)
    (rehash : (Nat → Bool) → Nat → Bool) :
    ∀ fuel h acc, List.length acc ≤ tau →
      hcpP numParties tau len inputLen rehash h acc fuel =
        collectP numParties tau (chunkStream len inputLen rehash h fuel) acc := by
  intro fuel
  induction fuel with
  | zero => intro h acc _; rfl
  | succ fuel ih =>
      intro h acc hlen
      rw [hcpP, chunkStream]
      by_cases hful : tau ≤ List.length acc
      · rw [if_pos hful, collectP_full numParties tau _ acc hful]
      · rw [if_neg hful, collectP_append,
          ← hcpLoopP_eq_collectP numParties tau _ acc (by omega),
          ih (rehash h) _ (by
            rw [hcpLoopP_eq_collectP numParties tau _ acc (by omega)]
            exact collectP_length_le numParties tau _ acc hlen)]

theorem collectP_filter_take (numParties tau : Nat) :
    ∀ chunks acc, collectP numParties tau chunks acc =
      acc ++ (chunks.filter (fun c => decide (c < numParties))).take
        (tau - List.length acc) := by
  intro chunks
  induction chunks with
  | nil =>
      intro acc
      rw [collectP]
      simp
  | cons c rest ih =>
      intro acc
      rw [collectP, List.filter_cons]
      by_cases hful : tau ≤ List.length acc
      · rw [if_pos hful, show tau - List.length acc = 0 from by omega]
        simp
      · rw [if_neg hful]
        by_cases hc : c < numParties
        · rw [if_pos hc, if_pos (by simpa using hc), ih,
            show tau - List.length acc = (tau - List.length (acc ++ [c])) + 1
              from by rw [List.length_append]; simp; omega,
            List.take_succ_cons, List.append_assoc]
          rw [List.length_append]
          simp
        · rw [if_neg hc, if_neg (by simpa using hc), ih]

/-- C5.  In the fuel model of HCP (consuming fuel digests, with the
re-hash abstracted as rehash): challengeC equals the first-occurrence
collection of the qualifying ceil-log2-bit chunks of the successive
digests (chunks at or above num_rounds skipped, deduplicated, stopping at
num_opened_rounds), so it is pairwise-distinct, bounded by num_rounds and
holds at most num_opened_rounds entries, exactly num_opened_rounds once
the while loop exits; challengeP equals the first num_opened_rounds
qualifying chunks without deduplication, so its entries are bounded by
num_MPC_parties and number at most num_opened_rounds. -/
theorem HCP_challenge_properties (numRounds numParties tau len inputLen : Nat)
    (rehash : (Nat → Bool) → Nat → Bool) (h h2 : Nat → Bool) (fuel : Nat) :
    hcpC numRounds tau len inputLen rehash h [] fuel =
      collectC numRounds tau (chunkStream len inputLen rehash h fuel) [] ∧
    List.Nodup (hcpC numRounds tau len inputLen rehash h [] fuel) ∧
    (∀ x, x ∈ hcpC numRounds tau len inputLen rehash h [] fuel →
      x < numRounds) ∧
    List.length (hcpC numRounds tau len inputLen rehash h [] fuel) ≤ tau ∧
    hcpP numParties tau len inputLen rehash h2 [] fuel =
      ((chunkStream len inputLen rehash h2 fuel).filter
        (fun c => decide (c < numParties))).take tau ∧
    (∀ x, x ∈ hcpP numParties tau len inputLen rehash h2 [] fuel →
      x < numParties) ∧
    List.length (hcpP numParties tau len inputLen rehash h2 [] fuel) ≤ tau := by
  have hC := hcpC_eq_collectC numRounds tau len inputLen rehash fuel h []
    (by simp)
  have hP := hcpP_eq_collectP numParties tau len inputLen rehash fuel h2 []
    (by simp)
  refine ⟨hC, ?_, ?_, ?_, ?_, ?_, ?_⟩
  · rw [hC]
    exact collectC_nodup numRounds tau _ [] List.nodup_nil
  · rw [hC]
    exact collectC_mem numRounds tau _ [] (by simp)
  · rw [hC]
    exact collectC_length_le numRounds tau _ [] (by simp)
  · rw [hP, collectP_filter_take]
    simp
  · rw [hP]
    exact collectP_mem numParties tau _ [] (by simp)
  · rw [hP]
    exact collectP_length_le numParties tau _ [] (by simp)

/-! ### Deserialization acceptance (C6) and the input-field read (C9) -/

theorem parseProofs_isSome (P : Params) (seedInfoLen : Nat)
    (chalC chalP : List Nat) :
    ∀ ts bytes, (parseProofs P seedInfoLen chalC chalP ts bytes).isSome =
      proofsPaddingOK P seedInfoLen chalC chalP ts bytes := by
  intro ts
  induction ts with
  | nil => intro bytes; rfl
  | cons t rest ih =>
      intro bytes
      simp only [parseProofs, proofsPaddingOK]
      by_cases hA : hiddenParty chalC chalP t ≠ P.num_MPC_parties - 1
      · simp only [if_pos hA]
        split
        · rfl
        · split
          · rfl
          · rw [← ih]
            rcases hrec : parseProofs P seedInfoLen chalC chalP rest
              (((((bytes.drop seedInfoLen).drop P.view_size).drop
                P.input_size).drop (P.input_size + P.view_size)).drop
                P.digest_size) with _ | v <;> rfl
      · simp only [if_neg hA]
        have hcnd : ¬ (hiddenParty chalC chalP t ≠ P.num_MPC_parties - 1 ∧
            arePaddingBitsZero [] P.view_size (3 * P.lowmc_r * P.lowmc_m) =
              false) := fun hcon => hA hcon.1
        rw [if_neg hcnd, if_neg hcnd]
        split
        · rfl
        · rw [← ih]
          rcases hrec : parseProofs P seedInfoLen chalC chalP rest
            ((((bytes.drop seedInfoLen).drop P.input_size).drop
              (P.input_size + P.view_size)).drop P.digest_size)
            with _ | v <;> rfl

/-- C6.  deserializeSignature2 accepts exactly when the byte length covers
the header, every challengeC entry lies in [0, num_rounds - 1], challengeC
has no duplicate, every challengeP entry lies in [0, num_MPC_parties - 1],
the total length equals the recomputed required byte count, and every
padding bit of each opened round's aux and msgs region beyond the used
bits is zero; any violation is a reject. -/
theorem deserializeSignature2_accepts_iff (P : Params)
    (fIS fCV : List Nat → Nat) (seedInfoLen : Nat) (bytes : List Nat) :
    (deserializeSignature2 P fIS fCV seedInfoLen bytes).isSome = true ↔
      (4 * P.num_opened_rounds + 32 ≤ bytes.length ∧
        inRange (readU16s P.num_opened_rounds bytes) 0 (P.num_rounds - 1) =
          true ∧
        uniqueList (readU16s P.num_opened_rounds bytes) = true ∧
        inRange (readU16s P.num_opened_rounds
            (bytes.drop (2 * P.num_opened_rounds))) 0
          (P.num_MPC_parties - 1) = true ∧
        bytes.length = bytesRequired2 P fIS fCV seedInfoLen
          (readU16s P.num_opened_rounds bytes)
          (readU16s P.num_opened_rounds
            (bytes.drop (2 * P.num_opened_rounds))) ∧
        proofsPaddingOK P seedInfoLen
          (readU16s P.num_opened_rounds bytes)
          (readU16s P.num_opened_rounds
            (bytes.drop (2 * P.num_opened_rounds)))
          (openedRounds P.num_rounds (readU16s P.num_opened_rounds bytes))
          (((bytes.drop (4 * P.num_opened_rounds + 32)).drop
              (fIS (readU16s P.num_opened_rounds bytes))).drop
            (fCV (readU16s P.num_opened_rounds bytes))) = true) := by
  simp only [deserializeSignature2]
  split
  · rename_i h1
    simp only [Option.isSome_none, Bool.false_eq_true, false_iff]
    intro hc
    omega
  · rename_i h1
    split
    · rename_i h2
      constructor
      · intro hc
        simp at hc
      · intro hc
        rw [hc.2.1] at h2
        simp at h2
    · rename_i h2
      split
      · rename_i h3
        constructor
        · intro hc
          simp at hc
        · intro hc
          rw [hc.2.2.1] at h3
          simp at h3
      · rename_i h3
        split
        · rename_i h4
          constructor
          · intro hc
            simp at hc
          · intro hc
            rw [hc.2.2.2.1] at h4
            simp at h4
        · rename_i h4
          split
          · rename_i h5
            constructor
            · intro hc
              simp at hc
            · intro hc
              exact absurd hc.2.2.2.2.1 h5
          · rename_i h5
            have hpp := parseProofs_isSome P seedInfoLen
              (readU16s P.num_opened_rounds bytes)
              (readU16s P.num_opened_rounds
                (bytes.drop (2 * P.num_opened_rounds)))
              (openedRounds P.num_rounds (readU16s P.num_opened_rounds bytes))
              (((bytes.drop (4 * P.num_opened_rounds + 32)).drop
                  (fIS (readU16s P.num_opened_rounds bytes))).drop
                (fCV (readU16s P.num_opened_rounds bytes)))
            split
            · rename_i hmatch
              rw [hmatch] at hpp
              simp only [Option.isSome_none] at hpp
              constructor
              · intro hc
                simp at hc
              · intro hc
                rw [hc.2.2.2.2.2] at hpp
                simp at hpp
            · rename_i v hmatch
              rw [hmatch] at hpp
              simp only [Option.isSome_some] at hpp
              simp only [Option.isSome_some, true_iff]
              refine ⟨by omega, by simpa using h2, by simpa using h3,
                by simpa using h4, by omega, hpp.symm⟩

/-- C9 (amended).  Inside the proof-reading loop, the bytes copied into
the input field of an opened round's proof number seed_size (the take of
seed_size bytes at the field's offset), while the read cursor advances by
input_size: the msgs field is read starting input_size bytes past the
input field's offset. -/
theorem deserialize_input_field_read (P : Params) (seedInfoLen : Nat)
    (chalC chalP : List Nat) (t : Nat) (ts bytes : List Nat)
    (prfs : List (Nat × Proof2))
    (h : parseProofs P seedInfoLen chalC chalP (t :: ts) bytes = some prfs) :
    ∃ p rest, prfs = (t, p) :: rest ∧
      p.input = (if hiddenParty chalC chalP t ≠ P.num_MPC_parties - 1 then
          (bytes.drop seedInfoLen).drop P.view_size
        else bytes.drop seedInfoLen).take P.seed_size ∧
      p.msgs = ((if hiddenParty chalC chalP t ≠ P.num_MPC_parties - 1 then
          (bytes.drop seedInfoLen).drop P.view_size
        else bytes.drop seedInfoLen).drop P.input_size).take
        (P.input_size + P.view_size) := by
  simp only [parseProofs] at h
  by_cases hA : hiddenParty chalC chalP t ≠ P.num_MPC_parties - 1
  · simp only [if_pos hA] at h
    split at h
    · simp at h
    · split at h
      · simp at h
      · split at h
        · simp at h
        · rename_i rest hrec
          simp only [Option.some.injEq] at h
          refine ⟨_, rest, h.symm, ?_, ?_⟩ <;> rw [if_pos hA]
  · simp only [if_neg hA] at h
    split at h
    · simp at h
    · split at h
      · simp at h
      · split at h
        · simp at h
        · rename_i rest hrec
          simp only [Option.some.injEq] at h
          refine ⟨_, rest, h.symm, ?_, ?_⟩ <;> rw [if_neg hA]

/-- Witness for the amended C9 theorem at a concrete parse. -/
theorem deserialize_input_field_read_witness :
    ∃ p rest,
      ([(0, (⟨[], [], [7], [0, 0], []⟩ : Proof2))] : List (Nat × Proof2)) =
        (0, p) :: rest ∧
      p.input = (if hiddenParty [0] [0] 0 ≠ PDiv.num_MPC_parties - 1 then
          (([7, 8, 0, 0] : List Nat).drop 0).drop PDiv.view_size
        else ([7, 8, 0, 0] : List Nat).drop 0).take PDiv.seed_size ∧
      p.msgs = ((if hiddenParty [0] [0] 0 ≠ PDiv.num_MPC_parties - 1 then
          (([7, 8, 0, 0] : List Nat).drop 0).drop PDiv.view_size
        else ([7, 8, 0, 0] : List Nat).drop 0).drop PDiv.input_size).take
        (PDiv.input_size + PDiv.view_size) :=
  deserialize_input_field_read PDiv 0 [0] [0] 0 [] [7, 8, 0, 0]
    [(0, ⟨[], [], [7], [0, 0], []⟩)] rfl

/-- Counterexample to C9 as stated: with seed_size 1 and input_size 2, a
full deserialization run stores one byte in the input field where the
claim demands the input_size bytes at the field's offset. -/
theorem deserialize_input_read_counterexample :
    (deserializeSignature2 PDiv (fun x => 0) (fun x => 0) 0
        ([0, 0, 0, 0] ++ List.replicate 32 0 ++ [7, 8, 0, 0])).map
      (fun sig => (sig.proofs 0).input) = some [7] ∧
    claimedInputRead PDiv [7, 8, 0, 0] = [7, 8] ∧
    ([7] : List Nat) ≠ [7, 8] := by
  refine ⟨by decide, by decide, by decide⟩

/-! ### Serialization round trip (C7) -/

theorem u16_flatten_length (l : List Nat) :
    ((l.map u16Bytes).flatten).length = 2 * l.length := by
  induction l with
  | nil => rfl
  | cons v l ih =>
      simp only [List.map_cons, List.flatten_cons, List.length_append, ih,
        u16Bytes, List.length_cons]
      simp
      omega

theorem readU16s_roundtrip (l : List Nat) (rest : List Nat)
    (hl : ∀ x ∈ l, x < 65536) :
    readU16s l.length ((l.map u16Bytes).flatten ++ rest) = l := by
  induction l with
  | nil => rfl
  | cons v l ih =>
      simp only [List.map_cons, List.flatten_cons, List.length_cons]
      rw [readU16s, List.append_assoc]
      simp only [u16Bytes, List.cons_append, List.getD_cons_zero,
        List.getD_cons_succ, List.drop_succ_cons, List.drop_zero,
        List.nil_append]
      have hv := hl v (List.mem_cons_self v l)
      rw [ih (fun x hx => hl x (List.mem_cons_of_mem v hx))]
      have e : v % 256 + 256 * (v / 256 % 256) = v := by omega
      rw [e]

theorem u16_flatten_drop (l rest : List Nat) :
    ((l.map u16Bytes).flatten ++ rest).drop (2 * l.length) = rest := by
  rw [show 2 * l.length = ((l.map u16Bytes).flatten).length from
    (u16_flatten_length l).symm, List.drop_left]

theorem serializeOne_length (P : Params) (seedInfoLen : Nat)
    (chalC chalP : List Nat) (prf : Proof2) (t : Nat)
    (h : proofWellFormed P seedInfoLen chalC chalP prf t) :
    (serializeOne P chalC chalP prf t).length =
      proofSize P seedInfoLen chalC chalP t := by
  obtain ⟨h1, h2, h3, h4, h5, h6, h7⟩ := h
  rw [serializeOne, proofSize]
  by_cases hA : hiddenParty chalC chalP t ≠ P.num_MPC_parties - 1
  · rw [if_pos hA, if_pos hA]
    simp only [List.length_append, h1, (h2 hA).1, h4, h5, h7]
    omega
  · rw [if_neg hA, if_neg hA]
    simp only [List.length_append, h1, h4, h5, h7, List.length_nil]
    omega

theorem proofs_bytes_length (P : Params) (seedInfoLen : Nat)
    (chalC chalP : List Nat) (prfFun : Nat → Proof2) :
    ∀ ts : List Nat,
      (∀ t ∈ ts, proofWellFormed P seedInfoLen chalC chalP (prfFun t) t) →
      (ts.foldr (fun t acc =>
          serializeOne P chalC chalP (prfFun t) t ++ acc) []).length =
        ts.foldr (fun t acc => proofSize P seedInfoLen chalC chalP t + acc) 0 := by
  intro ts
  induction ts with
  | nil => intro _; rfl
  | cons t ts ih =>
      intro h
      simp only [List.foldr_cons, List.length_append]
      rw [serializeOne_length P seedInfoLen chalC chalP (prfFun t) t
          (h t (List.mem_cons_self t ts)),
        ih (fun u hu => h u (List.mem_cons_of_mem t hu))]

theorem parseProofs_roundtrip (P : Params) (seedInfoLen : Nat)
    (chalC chalP : List Nat) (prfFun : Nat → Proof2)
    (hseedinp : P.seed_size = P.input_size) :
    ∀ ts : List Nat,
      (∀ t ∈ ts, proofWellFormed P seedInfoLen chalC chalP (prfFun t) t) →
      parseProofs P seedInfoLen chalC chalP ts
          (ts.foldr (fun t acc =>
            serializeOne P chalC chalP (prfFun t) t ++ acc) []) =
        some (ts.map (fun t => (t, prfFun t))) := by
  intro ts
  induction ts with
  | nil => intro _; rfl
  | cons t ts ih =>
      intro h
      obtain ⟨h1, h2, h3, h4, h5, h6, h7⟩ := h t (List.mem_cons_self t ts)
      have hrest := ih (fun u hu => h u (List.mem_cons_of_mem t hu))
      simp only [List.foldr_cons, List.map_cons]
      rw [parseProofs, serializeOne]
      by_cases hA : hiddenParty chalC chalP t ≠ P.num_MPC_parties - 1
      · rw [if_pos hA]
        simp only [if_pos hA, List.append_assoc]
        rw [List.take_left' h1, List.drop_left' h1,
          List.take_left' (h2 hA).1, List.drop_left' (h2 hA).1]
        rw [if_neg (fun hcon => by
          rw [(h2 hA).2] at hcon
          exact absurd hcon.2 (by simp))]
        rw [List.take_left' (by omega : (prfFun t).input.length = P.seed_size),
          List.drop_left' h4, List.take_left' h5, List.drop_left' h5,
          if_neg (by rw [h6]; simp), List.take_left' h7, List.drop_left' h7,
          hrest]
      · rw [if_neg hA]
        simp only [if_neg hA, List.append_assoc]
        rw [List.take_left' h1, List.drop_left' h1, List.nil_append]
        rw [if_neg (fun hcon => hA hcon.1)]
        rw [List.take_left' (by omega : (prfFun t).input.length = P.seed_size),
          List.drop_left' h4, List.take_left' h5, List.drop_left' h5,
          if_neg (by rw [h6]; simp), List.take_left' h7, List.drop_left' h7,
          hrest, ← h3 hA]

theorem lookup_map_self (f : Nat → Proof2) :
    ∀ (ts : List Nat) (t : Nat), t ∈ ts →
      ((ts.map (fun u => (u, f u))).lookup t) = some (f t) := by
  intro ts
  induction ts with
  | nil => intro t ht; simp at ht
  | cons a ts ih =>
      intro t ht
      simp only [List.map_cons, List.lookup_cons]
      by_cases hta : t = a
      · subst hta
        simp
      · have hb : (t == a) = false := by simpa using hta
        rw [hb]
        exact ih t (by
          rcases List.mem_cons.mp ht with h | h
          · exact absurd h hta
          · exact h)

/-- C7.  For every well-formed signature structure (challenge lists of the
right length and range, salt of 32 bytes, tree openings matching their
recomputed sizes, per-opened-round proof fields of the lengths the layout
allots with zero padding bits), serializeSignature2 writes exactly the
recomputed bytesRequired2 bytes, and deserializeSignature2 applied to the
written bytes succeeds and reconstructs the same challengeC, challengeP,
salt, iSeedInfo, cvInfo and per-opened-round proofs byte for byte.  The
hypothesis seed_size = input_size is needed because of the seed_size-byte
input read (claim C9); it holds in every specified parameter set.  The C
serializer's only failure mode, a caller buffer shorter than
bytesRequired2, is a pre-write length check outside the byte stream
modelled here. -/
theorem serializeSignature2_roundtrip (P : Params) (fIS fCV : List Nat → Nat)
    (seedInfoLen : Nat) (sig : Signature2)
    (hCl : sig.challengeC.length = P.num_opened_rounds)
    (hPl : sig.challengeP.length = P.num_opened_rounds)
    (hsalt : sig.salt.length = 32)
    (hC16 : ∀ x ∈ sig.challengeC, x < 65536)
    (hP16 : ∀ x ∈ sig.challengeP, x < 65536)
    (hCR : inRange sig.challengeC 0 (P.num_rounds - 1) = true)
    (hCu : uniqueList sig.challengeC = true)
    (hPR : inRange sig.challengeP 0 (P.num_MPC_parties - 1) = true)
    (hIS : fIS sig.challengeC = sig.iSeedInfo.length)
    (hCV : fCV sig.challengeC = sig.cvInfo.length)
    (hseedinp : P.seed_size = P.input_size)
    (hprf : ∀ t ∈ openedRounds P.num_rounds sig.challengeC,
      proofWellFormed P seedInfoLen sig.challengeC sig.challengeP
        (sig.proofs t) t) :
    (serializeSignature2 P sig).length =
      bytesRequired2 P fIS fCV seedInfoLen sig.challengeC sig.challengeP ∧
    (deserializeSignature2 P fIS fCV seedInfoLen
        (serializeSignature2 P sig)).isSome = true ∧
    ∀ sig2, deserializeSignature2 P fIS fCV seedInfoLen
        (serializeSignature2 P sig) = some sig2 →
      sig2.challengeC = sig.challengeC ∧ sig2.challengeP = sig.challengeP ∧
      sig2.salt = sig.salt ∧ sig2.iSeedInfo = sig.iSeedInfo ∧
      sig2.cvInfo = sig.cvInfo ∧
      ∀ t ∈ openedRounds P.num_rounds sig.challengeC,
        sig2.proofs t = sig.proofs t := by
  have hlen : (serializeSignature2 P sig).length =
      bytesRequired2 P fIS fCV seedInfoLen sig.challengeC sig.challengeP := by
    rw [serializeSignature2, bytesRequired2]
    simp only [List.length_append]
    rw [u16_flatten_length, u16_flatten_length, hCl, hPl, hsalt, hIS, hCV,
      proofs_bytes_length P seedInfoLen sig.challengeC sig.challengeP
        sig.proofs (openedRounds P.num_rounds sig.challengeC) hprf]
    omega
  have h1 : readU16s P.num_opened_rounds (serializeSignature2 P sig) =
      sig.challengeC := by
    rw [serializeSignature2]
    simp only [List.append_assoc]
    rw [← hCl]
    exact readU16s_roundtrip sig.challengeC _ hC16
  have hdropC : (serializeSignature2 P sig).drop (2 * P.num_opened_rounds) =
      (sig.challengeP.map u16Bytes).flatten ++
        (sig.salt ++ (sig.iSeedInfo ++ (sig.cvInfo ++
          (openedRounds P.num_rounds sig.challengeC).foldr
            (fun t acc =>
              serializeOne P sig.challengeC sig.challengeP (sig.proofs t) t ++
                acc) []))) := by
    rw [serializeSignature2]
    simp only [List.append_assoc]
    rw [← hCl]
    exact u16_flatten_drop sig.challengeC _
  have h2 : readU16s P.num_opened_rounds
      ((serializeSignature2 P sig).drop (2 * P.num_opened_rounds)) =
      sig.challengeP := by
    rw [hdropC, ← hPl]
    exact readU16s_roundtrip sig.challengeP _ hP16
  have hdrop4 : (serializeSignature2 P sig).drop (4 * P.num_opened_rounds) =
      sig.salt ++ (sig.iSeedInfo ++ (sig.cvInfo ++
        (openedRounds P.num_rounds sig.challengeC).foldr
          (fun t acc =>
            serializeOne P sig.challengeC sig.challengeP (sig.proofs t) t ++
              acc) [])) := by
    have hstep : ((serializeSignature2 P sig).drop
        (2 * P.num_opened_rounds)).drop (2 * P.num_opened_rounds) =
        sig.salt ++ (sig.iSeedInfo ++ (sig.cvInfo ++
          (openedRounds P.num_rounds sig.challengeC).foldr
            (fun t acc =>
              serializeOne P sig.challengeC sig.challengeP (sig.proofs t) t ++
                acc) [])) := by
      rw [hdropC, ← hPl]
      exact u16_flatten_drop sig.challengeP _
    rw [← hstep, List.drop_drop]
    congr 1
    ring
  have hsalt2 : ((serializeSignature2 P sig).drop
      (4 * P.num_opened_rounds)).take 32 = sig.salt := by
    rw [hdrop4, List.take_left' hsalt]
  have hrest : (serializeSignature2 P sig).drop
      (4 * P.num_opened_rounds + 32) =
      sig.iSeedInfo ++ (sig.cvInfo ++
        (openedRounds P.num_rounds sig.challengeC).foldr
          (fun t acc =>
            serializeOne P sig.challengeC sig.challengeP (sig.proofs t) t ++
              acc) []) := by
    rw [← List.drop_drop, hdrop4, List.drop_left' hsalt]
  have hiS2 : ((serializeSignature2 P sig).drop
      (4 * P.num_opened_rounds + 32)).take (fIS sig.challengeC) =
      sig.iSeedInfo := by
    rw [hrest, hIS]
    exact List.take_left' rfl
  have hr2 : ((serializeSignature2 P sig).drop
      (4 * P.num_opened_rounds + 32)).drop (fIS sig.challengeC) =
      sig.cvInfo ++
        (openedRounds P.num_rounds sig.challengeC).foldr
          (fun t acc =>
            serializeOne P sig.challengeC sig.challengeP (sig.proofs t) t ++
              acc) [] := by
    rw [hrest, hIS]
    exact List.drop_left' rfl
  have hcv2 : (((serializeSignature2 P sig).drop
      (4 * P.num_opened_rounds + 32)).drop (fIS sig.challengeC)).take
      (fCV sig.challengeC) = sig.cvInfo := by
    rw [hr2, hCV]
    exact List.take_left' rfl
  have hr3 : (((serializeSignature2 P sig).drop
      (4 * P.num_opened_rounds + 32)).drop (fIS sig.challengeC)).drop
      (fCV sig.challengeC) =
      (openedRounds P.num_rounds sig.challengeC).foldr
        (fun t acc =>
          serializeOne P sig.challengeC sig.challengeP (sig.proofs t) t ++
            acc) [] := by
    rw [hr2, hCV]
    exact List.drop_left' rfl
  have hge : ¬ ((serializeSignature2 P sig).length <
      4 * P.num_opened_rounds + 32) := by
    rw [hlen, bytesRequired2]
    omega
  have hparse := parseProofs_roundtrip P seedInfoLen sig.challengeC
    sig.challengeP sig.proofs hseedinp
    (openedRounds P.num_rounds sig.challengeC) hprf
  have hfull : deserializeSignature2 P fIS fCV seedInfoLen
      (serializeSignature2 P sig) =
      some ⟨sig.challengeC, sig.challengeP, sig.salt, sig.iSeedInfo,
        sig.cvInfo,
        fun t => ((((openedRounds P.num_rounds sig.challengeC).map
          (fun u => (u, sig.proofs u))).lookup t).getD
            ⟨[], [], [], [], []⟩)⟩ := by
    simp only [deserializeSignature2]
    rw [h1, h2, if_neg hge, if_neg (by rw [hCR]; simp),
      if_neg (by rw [hCu]; simp), if_neg (by rw [hPR]; simp),
      if_neg (by rw [hlen]; simp), hr3, hparse, hsalt2, hiS2, hcv2]
  refine ⟨hlen, by rw [hfull]; rfl, ?_⟩
  intro sig2 h
  rw [hfull, Option.some.injEq] at h
  subst h
  refine ⟨rfl, rfl, rfl, rfl, rfl, ?_⟩
  intro t ht
  show ((((openedRounds P.num_rounds sig.challengeC).map
      (fun u => (u, sig.proofs u))).lookup t).getD ⟨[], [], [], [], []⟩) =
    sig.proofs t
  rw [lookup_map_self sig.proofs (openedRounds P.num_rounds sig.challengeC)
    t ht]
  rfl

theorem serializeSignature2_roundtrip_witness :
    (serializeSignature2 PEx sigEx).length =
      bytesRequired2 PEx (fun l => 0) (fun l => 0) 0 sigEx.challengeC
        sigEx.challengeP ∧
    (deserializeSignature2 PEx (fun l => 0) (fun l => 0) 0
        (serializeSignature2 PEx sigEx)).isSome = true ∧
    ∀ sig2, deserializeSignature2 PEx (fun l => 0) (fun l => 0) 0
        (serializeSignature2 PEx sigEx) = some sig2 →
      sig2.challengeC = sigEx.challengeC ∧
      sig2.challengeP = sigEx.challengeP ∧
      sig2.salt = sigEx.salt ∧ sig2.iSeedInfo = sigEx.iSeedInfo ∧
      sig2.cvInfo = sigEx.cvInfo ∧
      ∀ t ∈ openedRounds PEx.num_rounds sigEx.challengeC,
        sig2.proofs t = sigEx.proofs t :=
  serializeSignature2_roundtrip PEx (fun l => 0) (fun l => 0) 0 sigEx
    rfl rfl rfl (by decide) (by decide) (by decide) (by decide) (by decide)
    rfl rfl rfl (by simp only [proofWellFormed]; decide)

/-! ### Determinism of signing (C10) -/

/-- C10.  Signing is deterministic: the sign_picnic2 dataflow never
consults the external randomness source, so two runs over the same
primitives, parameters and inputs but arbitrary randomness sources produce
identical signatures; and the salt is the first 32 bytes of the one hash
squeeze over the private key, the message, the public key, the plaintext
and the little-endian LowMC state size, the root seed being the remaining
bytes of the same squeeze. -/
theorem sign_picnic2_deterministic (prims : SignPrims) (rng1 rng2 : Nat → Nat)
    (P : Params) (privateKey pubKey plaintext message : List Nat) :
    sign_picnic2 prims rng1 P privateKey pubKey plaintext message =
      sign_picnic2 prims rng2 P privateKey pubKey plaintext message ∧
    (sign_picnic2 prims rng1 P privateKey pubKey plaintext message).salt =
      (prims.squeeze
        (privateKey.take P.input_size ++ message ++
          pubKey.take P.input_size ++ plaintext.take P.input_size ++
          u16Bytes (P.lowmc_n % 65536)) (P.seed_size + 32)).take 32 :=
  ⟨rfl, rfl⟩

end Picnic
